import Mathlib

set_option maxRecDepth 4000

/-
Formal model of the DocSync Agent core (src/docsync_agent/scanner.py).

Source files are modelled as lists of lines, a line being a `List Char`
(the trailing newline of each physical line is treated as the separator
and is not part of the line's content).  The Python `ast` surface used by
the scanner is modelled by the inductive type `Stmt`: `functionDef`
covers `ast.FunctionDef`/`ast.AsyncFunctionDef` (distinguished by the
`isAsync` flag), `classDef` covers `ast.ClassDef`, `ifStmt` stands for a
compound statement that is neither a class nor a function definition
(such as an `if` block), `exprStr` is an expression statement whose value
is a string constant, and `passStmt` is any other simple statement.
-/

/-- Mirror of the `FunctionInfo` record class of scanner.py. -/
structure FunctionInfo where
  name : String
  args : List String
  docstring : Option String
  lineno : Nat
  col_offset : Nat
  file_path : String
deriving Repr, DecidableEq

/-- Mirror of `FunctionInfo.signature`. -/
def FunctionInfo.signature (f : FunctionInfo) : String :=
  f.name ++ "(" ++ String.intercalate ", " f.args ++ ")"

/-- Model of the fragment of the Python AST that scanner.py inspects. -/
inductive Stmt where
  | functionDef (isAsync : Bool) (name : String) (args : List String)
      (lineno col_offset : Nat) (body : List Stmt)
  | classDef (name : String) (body : List Stmt)
  | ifStmt (body orelse : List Stmt)
  | exprStr (s : String)
  | passStmt

/-- Model of `ast.get_docstring(node, clean=False)` applied to a node with the
given body: the raw string constant when the first statement of the body is a
string-constant expression statement, `none` otherwise. -/
def get_docstring : List Stmt → Option String
  | Stmt.exprStr s :: _ => some s
  | _ => none

/-- Mirror of `_gather_functions` (scanner.py lines 33-68): walk the child
statements; every function or method definition child yields one record (its
argument list keeps declaration order but drops each argument named "self",
exactly as the `for arg in child.args.args: if arg.arg == "self": continue`
loop does), followed by the records gathered from its own body; class bodies
are recursed into without a record; children of any other kind are skipped
without recursion. -/
def _gather_functions (file_path : String) : List Stmt → List FunctionInfo
  | [] => []
  | Stmt.functionDef _a n args l c body :: rest =>
      { name := n, args := args.filter (fun s => s ≠ "self"),
        docstring := get_docstring body, lineno := l, col_offset := c,
        file_path := file_path }
        :: (_gather_functions file_path body ++ _gather_functions file_path rest)
  | Stmt.classDef _n body :: rest =>
      _gather_functions file_path body ++ _gather_functions file_path rest
  | Stmt.ifStmt _b _o :: rest => _gather_functions file_path rest
  | Stmt.exprStr _s :: rest => _gather_functions file_path rest
  | Stmt.passStmt :: rest => _gather_functions file_path rest

/-- The declared (unfiltered) positional-parameter lists of exactly the
definitions `_gather_functions` visits, in the same traversal order.  This is
the reference point for what the record parameter lists are derived from. -/
def rawParamLists : List Stmt → List (List String)
  | [] => []
  | Stmt.functionDef _a _n args _l _c body :: rest =>
      args :: (rawParamLists body ++ rawParamLists rest)
  | Stmt.classDef _n body :: rest => rawParamLists body ++ rawParamLists rest
  | Stmt.ifStmt _b _o :: rest => rawParamLists rest
  | Stmt.exprStr _s :: rest => rawParamLists rest
  | Stmt.passStmt :: rest => rawParamLists rest

/-- C1, counterexample.  A definition `def g(x, self)` declares the parameters
`["x", "self"]`; its first parameter is not `self`, so the claim ("at most the
first parameter is omitted, and a parameter in any later position is always
retained, whatever its name") requires the record's parameter list to be
`["x", "self"]`.  The scanner instead drops the second parameter because it is
named `self`, producing `["x"]`. -/
theorem C1_later_self_dropped_counterexample :
    (_gather_functions "a.py"
        [Stmt.functionDef false "g" ["x", "self"] 1 0 []]).map
        (fun r => r.args) = [["x"]] ∧ ["x"] ≠ ["x", "self"] := by
  constructor
  · simp [_gather_functions, get_docstring]
  · decide

/-- C1, amended.  For every scanned definition, the record's parameter list is
the declared positional-parameter list in declaration order with every
parameter named "self" removed, whatever its position (so the first parameter
is kept unless it is named "self", and later parameters named "self" are
dropped as well). -/
theorem C1_params_filter_self (fp : String) (stmts : List Stmt) :
    (_gather_functions fp stmts).map (fun r => r.args)
      = (rawParamLists stmts).map (fun l => l.filter (fun s => s ≠ "self")) := by
  induction stmts using _gather_functions.induct fp with
  | case1 => simp [_gather_functions, rawParamLists]
  | case2 a n args l c body rest ihb ihr =>
      simp [_gather_functions, rawParamLists, ihb, ihr]
  | case3 n body rest ihb ihr =>
      simp [_gather_functions, rawParamLists, ihb, ihr]
  | case4 b o rest ihr =>
      simp [_gather_functions, rawParamLists, ihr]
  | case5 s rest ihr =>
      simp [_gather_functions, rawParamLists, ihr]
  | case6 rest ihr =>
      simp [_gather_functions, rawParamLists, ihr]

/-
Stub insertion (scanner.py lines 108-140).  A file's contents are its list
of lines; `pyInsert` is Python's `list.insert`, `stubLine` is the stub
docstring line built at line 132 (without its trailing newline, which is the
line separator), and `sortDescByLineno` is the stable descending sort of
line 129 (`sorted(funcs, key=lambda f: f.lineno, reverse=True)`).
-/

/-- Python's `list.insert(i, x)`: insert before position `i`, appending when
`i` is past the end. -/
def pyInsert (l : List α) (i : Nat) (a : α) : List α :=
  l.take i ++ a :: l.drop i

/-- The stub docstring line of scanner.py line 131-132:
`" " * (col_offset + 4)` followed by `"""TODO: Document `name`."""`. -/
def stubLine (f : FunctionInfo) : List Char :=
  List.replicate (f.col_offset + 4) ' '
    ++ ("\"\"\"TODO: Document `".data ++ f.name.data ++ "`.\"\"\"".data)

/-- Stable insertion of `f` into a list sorted by descending `lineno`:
`f` goes in front of the first element whose `lineno` does not exceed its
own, so elements with equal `lineno` keep their original relative order. -/
def insertDesc (f : FunctionInfo) : List FunctionInfo → List FunctionInfo
  | [] => [f]
  | g :: gs => if g.lineno ≤ f.lineno then f :: g :: gs else g :: insertDesc f gs

/-- Stable sort by descending `lineno`, the model of
`sorted(funcs, key=lambda f: f.lineno, reverse=True)`. -/
def sortDescByLineno : List FunctionInfo → List FunctionInfo
  | [] => []
  | f :: fs => insertDesc f (sortDescByLineno fs)

/-- The per-file loop of `insert_missing_docstrings` (scanner.py lines
129-136): sort the file's eligible records by descending line number, then
insert each record's stub directly after its (1-based) header line, i.e. at
zero-based index `lineno` of the line list. -/
def insertStubsIntoLines (lines : List (List Char)) (funcs : List FunctionInfo) :
    List (List Char) :=
  (sortDescByLineno funcs).foldl (fun ls f => pyInsert ls f.lineno (stubLine f)) lines

/-- Number of records with `lineno ≤ j`. -/
def countLe (funcs : List FunctionInfo) (j : Nat) : Nat :=
  (funcs.filter (fun g => g.lineno ≤ j)).length

/-- Number of records with `lineno < j`. -/
def countLt (funcs : List FunctionInfo) (j : Nat) : Nat :=
  (funcs.filter (fun g => g.lineno < j)).length

theorem pyInsert_length (l : List α) (i : Nat) (a : α) (hi : i ≤ l.length) :
    (pyInsert l i a).length = l.length + 1 := by
  simp [pyInsert]
  omega

theorem pyInsert_get_lt (l : List α) (i : Nat) (a : α) (j : Nat) (hj : j < i)
    (hi : i ≤ l.length) :
    (pyInsert l i a)[j]? = l[j]? := by
  unfold pyInsert
  have hlen : j < (l.take i).length := by simp; omega
  rw [List.getElem?_append_left hlen]
  simp [List.getElem?_take, hj]

theorem pyInsert_get_self (l : List α) (i : Nat) (a : α) (hi : i ≤ l.length) :
    (pyInsert l i a)[i]? = some a := by
  unfold pyInsert
  have hlen : (l.take i).length = i := by simp; omega
  have h2 : (l.take i).length ≤ i := by omega
  rw [List.getElem?_append_right h2]
  simp [hlen]

theorem pyInsert_get_ge (l : List α) (i : Nat) (a : α) (j : Nat) (hj : i ≤ j)
    (hi : i ≤ l.length) :
    (pyInsert l i a)[j + 1]? = l[j]? := by
  unfold pyInsert
  have hlen : (l.take i).length = i := by simp; omega
  have h2 : (l.take i).length ≤ j + 1 := by omega
  rw [List.getElem?_append_right h2, hlen]
  have : j + 1 - i = (j - i) + 1 := by omega
  rw [this]
  simp [List.getElem?_drop]
  congr 1
  omega

theorem insertDesc_perm (f : FunctionInfo) (l : List FunctionInfo) :
    (insertDesc f l).Perm (f :: l) := by
  induction l with
  | nil => simp [insertDesc]
  | cons g gs ih =>
      unfold insertDesc
      by_cases h : g.lineno ≤ f.lineno
      · simp [h]
      · simp only [if_neg h]
        exact (ih.cons g).trans (List.Perm.swap f g gs)

theorem sortDescByLineno_perm (l : List FunctionInfo) :
    (sortDescByLineno l).Perm l := by
  induction l with
  | nil => simp [sortDescByLineno]
  | cons f fs ih =>
      exact (insertDesc_perm f (sortDescByLineno fs)).trans (ih.cons f)

theorem mem_insertDesc {x f : FunctionInfo} {l : List FunctionInfo}
    (h : x ∈ insertDesc f l) : x = f ∨ x ∈ l := by
  have := (insertDesc_perm f l).mem_iff.1 h
  simpa using this

theorem insertDesc_pairwise (f : FunctionInfo) (l : List FunctionInfo)
    (h : l.Pairwise (fun a b => b.lineno ≤ a.lineno)) :
    (insertDesc f l).Pairwise (fun a b => b.lineno ≤ a.lineno) := by
  induction l with
  | nil => simp [insertDesc]
  | cons g gs ih =>
      rcases List.pairwise_cons.1 h with ⟨hg, hgs⟩
      unfold insertDesc
      by_cases hle : g.lineno ≤ f.lineno
      · simp only [if_pos hle]
        refine List.pairwise_cons.2 ⟨?_, h⟩
        intro b hb
        rcases List.mem_cons.1 hb with rfl | hb
        · exact hle
        · exact le_trans (hg b hb) hle
      · simp only [if_neg hle]
        refine List.pairwise_cons.2 ⟨?_, ih hgs⟩
        intro b hb
        rcases mem_insertDesc hb with rfl | hb
        · omega
        · exact hg b hb

theorem sortDescByLineno_pairwise (l : List FunctionInfo) :
    (sortDescByLineno l).Pairwise (fun a b => b.lineno ≤ a.lineno) := by
  induction l with
  | nil => simp [sortDescByLineno]
  | cons f fs ih => exact insertDesc_pairwise f (sortDescByLineno fs) ih

/-- Layout of the per-file insertion fold over a list of records already
sorted by strictly descending line number: one longer per record, every
original line found at its original index shifted down by the number of
stubs inserted at or above it, and each record's stub found at zero-based
index `lineno` plus the number of stubs strictly above it. -/
theorem foldInsert_spec (fs : List FunctionInfo) :
    ∀ (lines : List (List Char)),
    fs.Pairwise (fun a b => b.lineno < a.lineno) →
    (∀ f ∈ fs, 1 ≤ f.lineno ∧ f.lineno ≤ lines.length) →
    (fs.foldl (fun ls f => pyInsert ls f.lineno (stubLine f)) lines).length
        = lines.length + fs.length ∧
    (∀ j : Nat,
      (fs.foldl (fun ls f => pyInsert ls f.lineno (stubLine f)) lines)[j + countLe fs j]?
        = lines[j]?) ∧
    (∀ f ∈ fs,
      (fs.foldl (fun ls f => pyInsert ls f.lineno (stubLine f)) lines)[f.lineno + countLt fs f.lineno]?
        = some (stubLine f)) := by
  induction fs with
  | nil => intro lines _ _; simp [countLe, countLt]
  | cons f rest ih =>
      intro lines hsorted hb
      rcases List.pairwise_cons.1 hsorted with ⟨hlt, hrest⟩
      rcases hb f (by simp) with ⟨hf1, hf2⟩
      have hrestb : ∀ g ∈ rest, 1 ≤ g.lineno ∧
          g.lineno ≤ (pyInsert lines f.lineno (stubLine f)).length := by
        intro g hg
        rcases hb g (by simp [hg]) with ⟨h1, h2⟩
        rw [pyInsert_length _ _ _ hf2]
        exact ⟨h1, by omega⟩
      have ihs := ih (pyInsert lines f.lineno (stubLine f)) hrest hrestb
      rcases ihs with ⟨ihlen, ihget, ihstub⟩
      simp only [List.foldl_cons]
      refine ⟨?_, ?_, ?_⟩
      · rw [ihlen, pyInsert_length _ _ _ hf2]
        simp
        omega
      · intro j
        by_cases hj : f.lineno ≤ j
        · have hcnt : countLe (f :: rest) j = countLe rest j + 1 := by
            simp [countLe, List.filter_cons, hj]
          have hcnt2 : countLe rest (j + 1) = countLe rest j := by
            unfold countLe
            have e1 : rest.filter (fun g => g.lineno ≤ j + 1) = rest :=
              List.filter_eq_self.2 (fun g hg => by
                have := hlt g hg; simp; omega)
            have e2 : rest.filter (fun g => g.lineno ≤ j) = rest :=
              List.filter_eq_self.2 (fun g hg => by
                have := hlt g hg; simp; omega)
            rw [e1, e2]
          have := ihget (j + 1)
          rw [hcnt2] at this
          rw [pyInsert_get_ge _ _ _ _ hj hf2] at this
          rw [hcnt]
          have harith : j + (countLe rest j + 1) = j + 1 + countLe rest j := by omega
          rw [harith]
          exact this
        · have hcnt : countLe (f :: rest) j = countLe rest j := by
            simp [countLe, List.filter_cons, hj]
          have := ihget j
          rw [pyInsert_get_lt _ _ _ _ (by omega) hf2] at this
          rw [hcnt]
          exact this
      · intro g hg
        rcases List.mem_cons.1 hg with rfl | hg
        · -- the head record: its stub sits at index lineno of the intermediate list
          have hcnt : countLt (g :: rest) g.lineno = countLe rest g.lineno := by
            unfold countLt countLe
            have e1 : rest.filter (fun x => x.lineno < g.lineno) = rest :=
              List.filter_eq_self.2 (fun x hx => by
                have := hlt x hx; simp; omega)
            have e2 : rest.filter (fun x => x.lineno ≤ g.lineno) = rest :=
              List.filter_eq_self.2 (fun x hx => by
                have := hlt x hx; simp; omega)
            simp [List.filter_cons, Nat.lt_irrefl, e1, e2]
          rw [hcnt]
          have := ihget g.lineno
          rw [pyInsert_get_self _ _ _ hf2] at this
          exact this
        · have hcnt : countLt (f :: rest) g.lineno = countLt rest g.lineno := by
            have h1 := hlt g hg
            have hne : ¬ (f.lineno < g.lineno) := by omega
            simp [countLt, List.filter_cons, hne]
          rw [hcnt]
          exact ihstub g hg

theorem countLe_perm {l1 l2 : List FunctionInfo} (p : l1.Perm l2) (j : Nat) :
    countLe l1 j = countLe l2 j :=
  (p.filter _).length_eq

theorem countLt_perm {l1 l2 : List FunctionInfo} (p : l1.Perm l2) (j : Nat) :
    countLt l1 j = countLt l2 j :=
  (p.filter _).length_eq

theorem sortDesc_strict (funcs : List FunctionInfo)
    (hd : funcs.Pairwise (fun a b => a.lineno ≠ b.lineno)) :
    (sortDescByLineno funcs).Pairwise (fun a b => b.lineno < a.lineno) := by
  have hle := sortDescByLineno_pairwise funcs
  have hp := sortDescByLineno_perm funcs
  have hne : (sortDescByLineno funcs).Pairwise (fun a b => a.lineno ≠ b.lineno) :=
    (hp.pairwise_iff (fun hab => Ne.symm hab)).2 hd
  exact (hle.and hne).imp (fun h => by omega)

/-- C3.  For a file's line list and its eligible records (all referring to an
existing header line, with pairwise distinct line numbers), the per-file
insertion loop of `insert_missing_docstrings` produces: one extra line per
record; every original zero-based line `j` found again, unchanged, at index
`j` plus the number of stubs inserted at or above it (`countLe funcs j`); and
for each record with 1-based header line `L`, the header line's content
unchanged at its shifted position and the record's stub as the line directly
following it (zero-based index `L` plus the stubs strictly above). -/
theorem C3_insertion_layout (lines : List (List Char)) (funcs : List FunctionInfo)
    (hb : ∀ f ∈ funcs, 1 ≤ f.lineno ∧ f.lineno ≤ lines.length)
    (hd : funcs.Pairwise (fun a b => a.lineno ≠ b.lineno)) :
    (insertStubsIntoLines lines funcs).length = lines.length + funcs.length ∧
    (∀ j : Nat, (insertStubsIntoLines lines funcs)[j + countLe funcs j]? = lines[j]?) ∧
    (∀ f ∈ funcs,
      (insertStubsIntoLines lines funcs)[f.lineno - 1 + countLt funcs f.lineno]?
          = lines[f.lineno - 1]? ∧
      (insertStubsIntoLines lines funcs)[f.lineno + countLt funcs f.lineno]?
          = some (stubLine f)) := by
  have hp := sortDescByLineno_perm funcs
  have hsorted := sortDesc_strict funcs hd
  have hbs : ∀ f ∈ sortDescByLineno funcs, 1 ≤ f.lineno ∧ f.lineno ≤ lines.length :=
    fun f hf => hb f (hp.mem_iff.1 hf)
  have spec := foldInsert_spec (sortDescByLineno funcs) lines hsorted hbs
  rcases spec with ⟨slen, sget, sstub⟩
  unfold insertStubsIntoLines
  refine ⟨?_, ?_, ?_⟩
  · rw [slen, hp.length_eq]
  · intro j
    have := sget j
    rwa [countLe_perm hp] at this
  · intro f hf
    have hmem : f ∈ sortDescByLineno funcs := hp.mem_iff.2 hf
    rcases hb f hf with ⟨h1, h2⟩
    constructor
    · have hcnt : countLe funcs (f.lineno - 1) = countLt funcs f.lineno := by
        unfold countLe countLt
        congr 1
        apply List.filter_congr
        intro g _
        simp
        omega
      have := sget (f.lineno - 1)
      rw [countLe_perm hp, hcnt] at this
      exact this
    · have := sstub f hmem
      rwa [countLt_perm hp] at this

/-- Demonstration input for the insertion-layout theorem: the file
`def f():` / `    return 1` with one undocumented record for `f`. -/
def c3DemoLines : List (List Char) := ["def f():".data, "    return 1".data]

/-- The record the scanner would produce for `f` in `c3DemoLines`. -/
def c3DemoRec : FunctionInfo :=
  { name := "f", args := [], docstring := none, lineno := 1, col_offset := 0,
    file_path := "a.py" }

theorem C3_insertion_layout_witness :
    (insertStubsIntoLines c3DemoLines [c3DemoRec])[c3DemoRec.lineno
        + countLt [c3DemoRec] c3DemoRec.lineno]? = some (stubLine c3DemoRec) :=
  ((C3_insertion_layout c3DemoLines [c3DemoRec]
      (by intro f hf; simp at hf; subst hf; constructor <;> simp [c3DemoRec, c3DemoLines])
      (by simp)).2.2 c3DemoRec (by simp)).2

/-
The file system is modelled as a map from path to line list; writing a file
is a pointwise update.  `insert_missing_docstrings` (scanner.py lines
108-140) groups the eligible records (those with `docstring is None`, line
121) by `file_path` into a dict whose keys appear in first-occurrence order,
then processes each file: read its lines, run the per-file insertion loop,
write the result back, adding one to the count per inserted stub.
-/

def FileSys : Type := String → List (List Char)

/-- Writing one file: the path now maps to the new lines. -/
def updateFs (fs : FileSys) (p : String) (ls : List (List Char)) : FileSys :=
  fun q => if q = p then ls else fs q

/-- The records eligible for stub insertion (`func.docstring is None`). -/
def undocumented (functions : List FunctionInfo) : List FunctionInfo :=
  functions.filter (fun f => f.docstring.isNone)

/-- Key order of the `functions_by_file` dict built with `setdefault`:
file paths in order of first appearance. -/
def firstOccKeys : List String → List String
  | [] => []
  | x :: xs => x :: (firstOccKeys xs).filter (fun y => y ≠ x)

/-- One iteration of the per-file loop of `insert_missing_docstrings`:
add the file's eligible-record count and write the file's new lines. -/
def insertStep (eligible : List FunctionInfo) (acc : Nat × FileSys) (p : String) :
    Nat × FileSys :=
  (acc.1 + (eligible.filter (fun f => f.file_path = p)).length,
   updateFs acc.2 p
     (insertStubsIntoLines (acc.2 p) (eligible.filter (fun f => f.file_path = p))))

/-- Mirror of `insert_missing_docstrings` over a file-system snapshot:
returns the number of stubs inserted and the new file system. -/
def insert_missing_docstrings (fs : FileSys) (functions : List FunctionInfo) :
    Nat × FileSys :=
  (firstOccKeys ((undocumented functions).map (fun f => f.file_path))).foldl
    (insertStep (undocumented functions)) (0, fs)

theorem mem_firstOccKeys {x : String} : ∀ {l : List String},
    x ∈ firstOccKeys l → x ∈ l := by
  intro l
  induction l with
  | nil => intro h; simp [firstOccKeys] at h
  | cons y ys ih =>
      intro h
      rcases List.mem_cons.1 h with rfl | h2
      · simp
      · have := List.mem_of_mem_filter h2
        exact List.mem_cons.2 (Or.inr (ih this))

theorem insert_foldl_untouched (eligible : List FunctionInfo)
    (keys : List String) (p : String) (hk : p ∉ keys) :
    ∀ acc : Nat × FileSys,
    ((keys.foldl (insertStep eligible) acc).2) p = acc.2 p := by
  induction keys with
  | nil => intro acc; rfl
  | cons q qs ih =>
      intro acc
      have hpq : p ≠ q := fun h => hk (by simp [h])
      have hqs : p ∉ qs := fun h => hk (by simp [h])
      simp only [List.foldl_cons]
      rw [ih hqs]
      simp [insertStep, updateFs, hpq]

/-- C6.  `insert_missing_docstrings` operates only on records whose
docstring is `None`: a file none of whose records lack documentation (in
particular a file with no records at all) is left unchanged by it. -/
theorem C6_no_eligible_file_untouched (fs : FileSys)
    (functions : List FunctionInfo) (p : String)
    (h : ∀ f ∈ functions, f.file_path = p → f.docstring ≠ none) :
    (insert_missing_docstrings fs functions).2 p = fs p := by
  unfold insert_missing_docstrings
  have hk : p ∉ firstOccKeys ((undocumented functions).map (fun f => f.file_path)) := by
    intro hmem
    have h2 := mem_firstOccKeys hmem
    rcases List.mem_map.1 h2 with ⟨f, hf, rfl⟩
    rcases List.mem_filter.1 hf with ⟨hfmem, hfnone⟩
    exact h f hfmem rfl (Option.isNone_iff_eq_none.1 (by simpa using hfnone))
  exact insert_foldl_untouched _ _ _ hk (0, fs)

/-- A demonstration file system: one file `b.py` holding one line. -/
def c6DemoFs : FileSys := fun _ => ["x = 1".data]

/-- A record for `b.py` that already has a docstring. -/
def c6DemoRec : FunctionInfo :=
  { name := "g", args := [], docstring := some "documented", lineno := 1,
    col_offset := 0, file_path := "b.py" }

theorem C6_no_eligible_file_untouched_witness :
    (insert_missing_docstrings c6DemoFs [c6DemoRec]).2 "b.py" = c6DemoFs "b.py" :=
  C6_no_eligible_file_untouched c6DemoFs [c6DemoRec] "b.py"
    (by intro f hf hp; simp at hf; subst hf; simp [c6DemoRec])

/-- When no record at all lacks documentation, `insert_missing_docstrings`
returns a zero count and leaves the whole file system untouched. -/
theorem insert_missing_docstrings_no_eligible (fs : FileSys)
    (functions : List FunctionInfo) (h : undocumented functions = []) :
    insert_missing_docstrings fs functions = (0, fs) := by
  unfold insert_missing_docstrings
  rw [h]
  rfl

/-
Claim C7 reads `_gather_functions` as producing one record for every
definition at every nesting depth.  `allDefs` is that reading, stated as
its own traversal: it additionally descends into the bodies of compound
statements that are neither class nor function definitions (`ifStmt`),
still pre-order, still one record per definition.
-/

/-- Spec reading of C7: one record per function/method definition at every
nesting depth, in pre-order, a definition's own record preceding those of
the definitions nested within it — including definitions inside the bodies
of other compound statements. -/
def allDefs (file_path : String) : List Stmt → List FunctionInfo
  | [] => []
  | Stmt.functionDef _a n args l c body :: rest =>
      { name := n, args := args.filter (fun s => s ≠ "self"),
        docstring := get_docstring body, lineno := l, col_offset := c,
        file_path := file_path }
        :: (allDefs file_path body ++ allDefs file_path rest)
  | Stmt.classDef _n body :: rest =>
      allDefs file_path body ++ allDefs file_path rest
  | Stmt.ifStmt b o :: rest =>
      allDefs file_path b ++ allDefs file_path o ++ allDefs file_path rest
  | Stmt.exprStr _s :: rest => allDefs file_path rest
  | Stmt.passStmt :: rest => allDefs file_path rest

/-- Whether any function/method definition occurs anywhere in the statements,
at any nesting depth. -/
def containsDef : List Stmt → Bool
  | [] => false
  | Stmt.functionDef _ _ _ _ _ _ :: _ => true
  | Stmt.classDef _ body :: rest => containsDef body || containsDef rest
  | Stmt.ifStmt b o :: rest => containsDef b || containsDef o || containsDef rest
  | Stmt.exprStr _ :: rest => containsDef rest
  | Stmt.passStmt :: rest => containsDef rest

/-- Every definition in the tree is nested only within class and function
bodies: no definition occurs inside the body of any other compound
statement. -/
def wellNested : List Stmt → Bool
  | [] => true
  | Stmt.functionDef _ _ _ _ _ body :: rest => wellNested body && wellNested rest
  | Stmt.classDef _ body :: rest => wellNested body && wellNested rest
  | Stmt.ifStmt b o :: rest => !containsDef b && !containsDef o && wellNested rest
  | Stmt.exprStr _ :: rest => wellNested rest
  | Stmt.passStmt :: rest => wellNested rest

theorem allDefs_eq_nil_of_not_containsDef (fp : String) :
    ∀ stmts : List Stmt, containsDef stmts = false → allDefs fp stmts = [] := by
  intro stmts
  induction stmts using allDefs.induct fp with
  | case1 => intro _; simp [allDefs]
  | case2 a n args l c body rest ihb ihr =>
      intro h; simp [containsDef] at h
  | case3 n body rest ihb ihr =>
      intro h
      simp [containsDef] at h
      simp [allDefs, ihb h.1, ihr h.2]
  | case4 b o rest ihb iho ihr =>
      intro h
      simp [containsDef] at h
      simp [allDefs, ihb h.1.1, iho h.1.2, ihr h.2]
  | case5 s rest ihr =>
      intro h
      simp [containsDef] at h
      simp [allDefs, ihr h]
  | case6 rest ihr =>
      intro h
      simp [containsDef] at h
      simp [allDefs, ihr h]

/-- C7, counterexample.  A module consisting of a single `if` statement whose
body defines the function `f` (for instance `if True:` followed by an
indented `def f(): ...`): `f` is a function definition at nesting depth one,
so the claim requires one record for it, but `_gather_functions` recurses
only into class and function definition children and produces no record at
all. -/
theorem C7_def_under_if_counterexample :
    _gather_functions "a.py"
        [Stmt.ifStmt [Stmt.functionDef false "f" [] 2 4 []] []] = []
      ∧ allDefs "a.py"
        [Stmt.ifStmt [Stmt.functionDef false "f" [] 2 4 []] []]
        = [{ name := "f", args := [], docstring := none, lineno := 2,
             col_offset := 4, file_path := "a.py" }] := by
  constructor
  · simp [_gather_functions]
  · simp [allDefs, get_docstring]

/-- C7, amended.  On a successfully parsed tree in which every definition is
nested only within class and function bodies (no definition inside the body
of any other compound statement), the scanner produces exactly one record per
function and method definition at every nesting depth, in pre-order discovery
sequence — the traversal `allDefs` that records every definition everywhere.
Definitions nested inside other compound statements are never visited. -/
theorem C7_gather_eq_allDefs_of_wellNested (fp : String) (stmts : List Stmt)
    (h : wellNested stmts = true) :
    _gather_functions fp stmts = allDefs fp stmts := by
  induction stmts using allDefs.induct fp with
  | case1 => simp [_gather_functions, allDefs]
  | case2 a n args l c body rest ihb ihr =>
      simp [wellNested] at h
      simp [_gather_functions, allDefs, ihb h.1, ihr h.2]
  | case3 n body rest ihb ihr =>
      simp [wellNested] at h
      simp [_gather_functions, allDefs, ihb h.1, ihr h.2]
  | case4 b o rest ihb iho ihr =>
      simp [wellNested] at h
      simp [_gather_functions, allDefs, ihr h.2,
        allDefs_eq_nil_of_not_containsDef fp b h.1.1,
        allDefs_eq_nil_of_not_containsDef fp o h.1.2]
  | case5 s rest ihr =>
      simp [wellNested] at h
      simp [_gather_functions, allDefs, ihr h]
  | case6 rest ihr =>
      simp [wellNested] at h
      simp [_gather_functions, allDefs, ihr h]

/-- A well-nested demonstration tree: a class with a method that contains a
nested function, every definition reached only through class and function
bodies. -/
def c7DemoStmts : List Stmt :=
  [Stmt.classDef "A"
    [Stmt.functionDef false "m" ["self", "x"] 2 4
      [Stmt.exprStr "method doc",
       Stmt.functionDef false "inner" [] 4 8 [Stmt.passStmt]]]]

theorem C7_gather_eq_allDefs_of_wellNested_witness :
    _gather_functions "a.py" c7DemoStmts = allDefs "a.py" c7DemoStmts :=
  C7_gather_eq_allDefs_of_wellNested "a.py" c7DemoStmts
    (by simp [c7DemoStmts, wellNested, containsDef])

/-
File discovery (`find_python_files`, scanner.py lines 91-105).  The directory
tree is modelled as nested entries; `walkFiles` is the `os.walk` traversal,
producing every (directory path, file name) pair reachable from the root —
it never prunes any directory, hidden or not.  `pyStartsWithB`/`pyEndsWithB`
model Python's `str.startswith`/`str.endswith`.
-/

/-- A directory tree entry: a file or a subdirectory with its entries. -/
inductive FsEntry where
  | file (name : String)
  | dir (name : String) (entries : List FsEntry)

/-- Python `s.startswith(pre)`. -/
def pyStartsWithB (pre s : String) : Bool := pre.data.isPrefixOf s.data

/-- Python `s.endswith(suffix)`. -/
def pyEndsWithB (suffix s : String) : Bool := suffix.data.isSuffixOf s.data

/-- The `os.walk` traversal underlying `find_python_files`: every
(directory path, file name) pair under the root, subdirectory paths joined
with "/"; no directory is skipped. -/
def walkFiles (base : String) : List FsEntry → List (String × String)
  | [] => []
  | FsEntry.file n :: rest => (base, n) :: walkFiles base rest
  | FsEntry.dir n es :: rest =>
      walkFiles (base ++ "/" ++ n) es ++ walkFiles base rest

/-- Mirror of `find_python_files`: keep exactly the walked pairs whose file
name ends with ".py" and does not start with "."; only the file's own name is
tested, never the directory path. -/
def find_python_files (root : String) (entries : List FsEntry) : List String :=
  (walkFiles root entries).filterMap
    (fun bn =>
      if pyEndsWithB ".py" bn.2 && !pyStartsWithB "." bn.2
      then some (bn.1 ++ "/" ++ bn.2) else none)

/-- C10.  `find_python_files` filters only on the file's own basename: a path
is returned exactly when the walk reaches a file whose name ends with ".py"
and does not start with "." — the directory path (in particular any hidden
ancestor directory) is unconstrained, so files inside hidden directories are
included. -/
theorem C10_filter_on_basename_only (root : String) (entries : List FsEntry)
    (p : String) :
    p ∈ find_python_files root entries ↔
      ∃ b n, (b, n) ∈ walkFiles root entries ∧ pyEndsWithB ".py" n = true ∧
        pyStartsWithB "." n = false ∧ p = b ++ "/" ++ n := by
  unfold find_python_files
  rw [List.mem_filterMap]
  constructor
  · rintro ⟨⟨b, n⟩, hmem, hf⟩
    by_cases h1 : pyEndsWithB ".py" n = true
    · by_cases h2 : pyStartsWithB "." n = false
      · simp [h1, h2] at hf
        exact ⟨b, n, hmem, h1, h2, hf.symm⟩
      · simp [eq_true_of_ne_false h2] at hf
    · simp [eq_false_of_ne_true h1] at hf
  · rintro ⟨b, n, hmem, h1, h2, rfl⟩
    exact ⟨(b, n), hmem, by simp [h1, h2]⟩

/-- A demonstration tree with a Python file inside the hidden directory
`.git`. -/
def c10DemoTree : List FsEntry :=
  [FsEntry.dir ".git" [FsEntry.file "hook.py", FsEntry.file ".hidden.py"],
   FsEntry.file "main.py"]

theorem C10_filter_on_basename_only_witness :
    "root/.git/hook.py" ∈ find_python_files "root" c10DemoTree :=
  (C10_filter_on_basename_only "root" c10DemoTree "root/.git/hook.py").2
    ⟨"root/.git", "hook.py",
      by simp [c10DemoTree, walkFiles], by decide, by decide, by decide⟩

/-
The reference generator (`generate_api_reference`, scanner.py lines
143-170).  `os.path.relpath` is an external path computation with no
repository-side logic; it is abstracted as the function parameter `relpath`.
The `grouped` dict maps each relative name (keys in first-occurrence order)
to that file's records in input order, and the emission loop runs over
`sorted(grouped.keys())`.
-/

/-- Python `signature.replace("`", "\\`")` of scanner.py line 167. -/
def escapeBackticks (s : String) : String :=
  String.mk (s.data.flatMap (fun c => if c = '`' then ['\\', '`'] else [c]))

/-- Python whitespace for `str.strip()`. -/
def isPySpace (c : Char) : Bool :=
  c = ' ' || c = '\t' || c = '\n' || c = '\r' || c = '\x0b' || c = '\x0c'

/-- Python `s.strip()`. -/
def pyStrip (s : String) : String :=
  String.mk (((s.data.dropWhile isPySpace).reverse.dropWhile isPySpace).reverse)

/-- First line of a (non-empty) string, `s.splitlines()[0]`. -/
def pyFirstLine (s : String) : String :=
  String.mk (s.data.takeWhile (fun c => c ≠ '\n' && c ≠ '\r'))

/-- The bullet's documentation text (scanner.py line 165):
`(func.docstring or "TODO: Write documentation").splitlines()[0].strip()`;
note Python's `or` falls back to the placeholder for an empty docstring. -/
def docSummary (doc : Option String) : String :=
  pyStrip (pyFirstLine (match doc with
    | some s => if s = "" then "TODO: Write documentation" else s
    | none => "TODO: Write documentation"))

/-- The sorted key list `sorted(grouped.keys())` that the emission loop of
`generate_api_reference` runs over: the distinct relative file names in
lexicographic order. -/
def headingKeys (relpath : String → String) (functions : List FunctionInfo) :
    List String :=
  List.insertionSort (fun a b => a ≤ b)
    (firstOccKeys (functions.map (fun f => relpath f.file_path)))

/-- Mirror of `generate_api_reference`: one group per sorted relative name —
a `### `file`` heading, one `- **signature**: summary` bullet per record of
that file in input order, and a blank separator line. -/
def generate_api_reference (relpath : String → String)
    (functions : List FunctionInfo) : List String :=
  (headingKeys relpath functions).flatMap (fun file_name =>
    ("### `" ++ file_name ++ "`")
      :: ((functions.filter (fun f => relpath f.file_path = file_name)).map
            (fun f => "- **" ++ escapeBackticks f.signature ++ "**: "
              ++ docSummary f.docstring)
          ++ [""]))

theorem firstOccKeys_nodup : ∀ l : List String, (firstOccKeys l).Nodup := by
  intro l
  induction l with
  | nil => simp [firstOccKeys]
  | cons x xs ih =>
      simp only [firstOccKeys]
      refine List.nodup_cons.2 ⟨?_, List.Nodup.filter _ ih⟩
      intro hmem
      have := (List.mem_filter.1 hmem).2
      simp at this

theorem mem_firstOccKeys_iff {x : String} : ∀ {l : List String},
    x ∈ firstOccKeys l ↔ x ∈ l := by
  intro l
  induction l with
  | nil => simp [firstOccKeys]
  | cons y ys ih =>
      simp only [firstOccKeys, List.mem_cons]
      constructor
      · rintro (rfl | h)
        · simp
        · exact Or.inr (ih.1 (List.mem_of_mem_filter h))
      · rintro (rfl | h)
        · simp
        · by_cases hxy : x = y
          · simp [hxy]
          · refine Or.inr (List.mem_filter.2 ⟨ih.2 h, by simp [hxy]⟩)

/-- C8.  The heading sequence of the rendered reference block is the sorted
list of the distinct relative file names: it is lexicographically sorted,
and it is invariant under any permutation of the input record list — the
block's file groups do not depend on discovery order.  The third conjunct
records that `generate_api_reference` emits exactly one group, headed by
`### `file``, per entry of that key list. -/
theorem C8_headings_sorted_and_order_independent (relpath : String → String)
    (functions functions2 : List FunctionInfo) (hperm : functions.Perm functions2) :
    (headingKeys relpath functions).Sorted (fun a b => a ≤ b) ∧
    headingKeys relpath functions = headingKeys relpath functions2 ∧
    generate_api_reference relpath functions
      = (headingKeys relpath functions).flatMap (fun file_name =>
          ("### `" ++ file_name ++ "`")
            :: ((functions.filter (fun f => relpath f.file_path = file_name)).map
                  (fun f => "- **" ++ escapeBackticks f.signature ++ "**: "
                    ++ docSummary f.docstring)
                ++ [""])) := by
  refine ⟨List.sorted_insertionSort _ _, ?_, rfl⟩
  unfold headingKeys
  have hmap : (functions.map (fun f => relpath f.file_path)).Perm
      (functions2.map (fun f => relpath f.file_path)) := hperm.map _
  have hk : (firstOccKeys (functions.map (fun f => relpath f.file_path))).Perm
      (firstOccKeys (functions2.map (fun f => relpath f.file_path))) := by
    refine (List.perm_ext_iff_of_nodup (firstOccKeys_nodup _) (firstOccKeys_nodup _)).2 ?_
    intro x
    rw [mem_firstOccKeys_iff, mem_firstOccKeys_iff, hmap.mem_iff]
  refine List.eq_of_perm_of_sorted ?_ (List.sorted_insertionSort _ _)
    (List.sorted_insertionSort _ _)
  exact ((List.perm_insertionSort _ _).trans hk).trans
    (List.perm_insertionSort _ _).symm

/-- Two records in two discovery orders for the C8 demonstration. -/
def c8RecA : FunctionInfo :=
  { name := "foo", args := ["x"], docstring := none, lineno := 1,
    col_offset := 0, file_path := "b.py" }

/-- Companion record, in a lexicographically earlier file. -/
def c8RecB : FunctionInfo :=
  { name := "bar", args := [], docstring := some "does bar things", lineno := 3,
    col_offset := 0, file_path := "a.py" }

theorem C8_headings_sorted_and_order_independent_witness :
    (headingKeys (fun s => s) [c8RecA, c8RecB]).Sorted (fun a b => a ≤ b) ∧
    headingKeys (fun s => s) [c8RecA, c8RecB]
      = headingKeys (fun s => s) [c8RecB, c8RecA] :=
  ⟨(C8_headings_sorted_and_order_independent (fun s => s) [c8RecA, c8RecB]
      [c8RecB, c8RecA] (List.Perm.swap c8RecB c8RecA [])).1,
   (C8_headings_sorted_and_order_independent (fun s => s) [c8RecA, c8RecB]
      [c8RecB, c8RecA] (List.Perm.swap c8RecB c8RecA [])).2.1⟩

/-
README synchronisation (`update_readme`, scanner.py lines 173-208).
Document contents are a `List Char`.  `firstOcc m s` is the first index at
which `m` occurs as a contiguous substring of `s`; Python's `sep in s` is
`occursIn`; Python's `s.split(sep)` for the non-empty separators used here
is `pySplit` (implemented with a fuel argument bounded by the text length,
which is always sufficient because each split step consumes at least one
character of a non-empty separator).
-/

/-- First index at which `m` occurs as a contiguous sublist of `s`. -/
def firstOcc (m : List Char) : List Char → Option Nat
  | [] => if m.isEmpty then some 0 else none
  | c :: cs =>
      if m.isPrefixOf (c :: cs) then some 0
      else (firstOcc m cs).map (fun i => i + 1)

/-- Python's `m in s` substring test. -/
def occursIn (m s : List Char) : Bool := (firstOcc m s).isSome

/-- Fuel-driven worker for `pySplit`. -/
def pySplitFuel (m : List Char) : Nat → List Char → List (List Char)
  | 0, s => [s]
  | fuel + 1, s =>
      match firstOcc m s with
      | none => [s]
      | some i => s.take i :: pySplitFuel m fuel (s.drop (i + m.length))

/-- Python's `s.split(m)` for a non-empty separator `m`. -/
def pySplit (m s : List Char) : List (List Char) :=
  pySplitFuel m (s.length + 1) s

/-- The text strictly before the first occurrence of `m` (all of `s` when
`m` does not occur); this is `s.split(m)[0]`. -/
def textBeforeFirst (m s : List Char) : List Char :=
  match firstOcc m s with
  | some i => s.take i
  | none => s

/-- The text strictly after the first occurrence of `m`. -/
def afterFirst (m s : List Char) : List Char :=
  match firstOcc m s with
  | some i => s.drop (i + m.length)
  | none => []

/-- The start sentinel `<!-- DOCS START -->` (scanner.py line 193). -/
def start_marker : List Char := "<!-- DOCS START -->".data

/-- The end sentinel `<!-- DOCS END -->` (scanner.py line 194). -/
def end_marker : List Char := "<!-- DOCS END -->".data

/-- `"\n".join([start_marker] + api_lines + [end_marker])` (line 196). -/
def api_content (relpath : String → String) (functions : List FunctionInfo) :
    List Char :=
  (String.intercalate "\n"
    ("<!-- DOCS START -->"
      :: (generate_api_reference relpath functions ++ ["<!-- DOCS END -->"]))).data

/-- The replacement branch (scanner.py lines 197-201):
`contents.split(start_marker)[0] + api_content + contents.split(end_marker)[1]`. -/
def spliceReplace (contents api : List Char) : List Char :=
  (pySplit start_marker contents).getD 0 [] ++ api
    ++ (pySplit end_marker contents).getD 1 []

/-- The append branch (scanner.py lines 203-206): ensure a trailing newline,
then append the wrapped block and a final newline. -/
def appendSection (contents api : List Char) : List Char :=
  (if contents.getLast? = some '\n' then contents else contents ++ ['\n'])
    ++ api ++ ['\n']

/-- The default document used when the README does not exist (line 192). -/
def default_header : List Char := "# Project Documentation\n\n".data

/-- Mirror of `update_readme`: take the existing document contents (or the
default header), and either splice the rendered block between the first
occurrences of the two markers (when both occur) or append a new wrapped
block at the end.  Returns the new document contents. -/
def update_readme (relpath : String → String) (existing : Option (List Char))
    (functions : List FunctionInfo) : List Char :=
  if occursIn start_marker (existing.getD default_header)
      && occursIn end_marker (existing.getD default_header)
  then spliceReplace (existing.getD default_header) (api_content relpath functions)
  else appendSection (existing.getD default_header) (api_content relpath functions)

theorem isPrefixOf_length_le {m s : List Char} (h : m.isPrefixOf s = true) :
    m.length ≤ s.length :=
  ((List.isPrefixOf_iff_prefix).1 h).length_le

theorem firstOcc_bound : ∀ (s m : List Char) (i : Nat),
    firstOcc m s = some i → i + m.length ≤ s.length := by
  intro s
  induction s with
  | nil =>
      intro m i h
      unfold firstOcc at h
      by_cases hm : m.isEmpty
      · have : m = [] := by simpa using hm
        simp [hm] at h
        simp [this, ← h]
      · simp [hm] at h
  | cons c cs ih =>
      intro m i h
      unfold firstOcc at h
      by_cases hpre : m.isPrefixOf (c :: cs)
      · simp [hpre] at h
        have hb := isPrefixOf_length_le hpre
        simp only [List.length_cons] at hb ⊢
        omega
      · simp [hpre] at h
        rcases h with ⟨j, hj, rfl⟩
        have := ih m j hj
        simp only [List.length_cons]
        omega

theorem occursIn_iff_exists (m : List Char) : ∀ s : List Char,
    occursIn m s = true ↔ ∃ a b, s = a ++ m ++ b := by
  intro s
  induction s with
  | nil =>
      constructor
      · intro h
        unfold occursIn firstOcc at h
        by_cases hm : m.isEmpty
        · have : m = [] := by simpa using hm
          exact ⟨[], [], by simp [this]⟩
        · simp [hm] at h
      · rintro ⟨a, b, hab⟩
        have hm : m = [] := by
          cases a <;> cases m <;> simp_all
        unfold occursIn firstOcc
        simp [hm]
  | cons c cs ih =>
      unfold occursIn firstOcc
      by_cases hpre : m.isPrefixOf (c :: cs)
      · simp only [hpre, if_pos]
        simp only [Option.isSome_some, true_iff]
        rcases (List.isPrefixOf_iff_prefix).1 hpre with ⟨t, ht⟩
        exact ⟨[], t, by simp [← ht]⟩
      · simp only [if_neg hpre]
        have hmap : (Option.map (fun i : Nat => i + 1) (firstOcc m cs)).isSome
            = (firstOcc m cs).isSome := by
          cases firstOcc m cs <;> rfl
        rw [hmap]
        unfold occursIn at ih
        rw [ih]
        constructor
        · rintro ⟨a, b, hab⟩
          exact ⟨c :: a, b, by simp [hab]⟩
        · rintro ⟨a, b, hab⟩
          cases a with
          | nil =>
              exfalso
              apply hpre
              rw [List.isPrefixOf_iff_prefix]
              exact ⟨b, by simpa using hab.symm⟩
          | cons a0 a' =>
              simp at hab
              exact ⟨a', b, by simp [hab.2]⟩

theorem pySplitFuel_getD0 (m : List Char) :
    ∀ (fuel : Nat) (s : List Char), 1 ≤ fuel →
      (pySplitFuel m fuel s).getD 0 [] = textBeforeFirst m s := by
  intro fuel s hf
  match fuel, hf with
  | fuel + 1, _ =>
      unfold pySplitFuel textBeforeFirst
      cases h : firstOcc m s with
      | none => simp
      | some i => simp

theorem pySplit_getD0 (m s : List Char) :
    (pySplit m s).getD 0 [] = textBeforeFirst m s :=
  pySplitFuel_getD0 m (s.length + 1) s (by omega)

theorem pySplit_getD1 (m s : List Char) (hm : m ≠ [])
    (h : occursIn m s = true) :
    (pySplit m s).getD 1 [] = textBeforeFirst m (afterFirst m s) := by
  unfold occursIn at h
  rcases Option.isSome_iff_exists.1 h with ⟨i, hi⟩
  have hb := firstOcc_bound s m i hi
  have hml : 1 ≤ m.length := by
    cases m with
    | nil => exact absurd rfl hm
    | cons _ _ => simp
  have hs : 1 ≤ s.length := by omega
  unfold pySplit
  unfold pySplitFuel
  rw [hi]
  simp only [List.getD_cons_succ]
  rw [pySplitFuel_getD0 m s.length _ (by omega)]
  unfold afterFirst
  rw [hi]

/-- C4, counterexample.  In a document where the end marker occurs twice,
`contents.split(end_marker)[1]` is only the segment between the first and
second occurrences, so everything from the second occurrence onward is
dropped: for the document
`A<!-- DOCS START -->M<!-- DOCS END -->B<!-- DOCS END -->C`
the text after the first end marker is `B<!-- DOCS END -->C` before the sync
but only `B` after it, contradicting the claimed byte-identity for every
prior document content. -/
def c4BadDoc : List Char :=
  "A<!-- DOCS START -->M<!-- DOCS END -->B<!-- DOCS END -->C".data

theorem C4_second_end_marker_counterexample :
    afterFirst end_marker (update_readme (fun s => s) (some c4BadDoc) [])
      ≠ afterFirst end_marker c4BadDoc := by
  decide

/-- C4, amended.  For every prior document content containing both markers,
the text before the first occurrence of the start marker is preserved
byte-for-byte, and the text following the rendered block is the segment of
the old document strictly between the first and second occurrences of the
end marker; in particular, when the end marker occurs exactly once, the text
after its first occurrence is preserved byte-for-byte (the original claim),
while any text from a second occurrence of the end marker onward is
dropped. -/
theorem C4_frame_between_markers (relpath : String → String)
    (contents : List Char) (functions : List FunctionInfo)
    (h1 : occursIn start_marker contents = true)
    (h2 : occursIn end_marker contents = true) :
    update_readme relpath (some contents) functions
      = textBeforeFirst start_marker contents
        ++ api_content relpath functions
        ++ textBeforeFirst end_marker (afterFirst end_marker contents) ∧
    (occursIn end_marker (afterFirst end_marker contents) = false →
      update_readme relpath (some contents) functions
        = textBeforeFirst start_marker contents
          ++ api_content relpath functions
          ++ afterFirst end_marker contents) := by
  have hm : end_marker ≠ [] := by decide
  have he : update_readme relpath (some contents) functions
      = spliceReplace contents (api_content relpath functions) := by
    unfold update_readme
    simp [h1, h2]
  have hsplice : spliceReplace contents (api_content relpath functions)
      = textBeforeFirst start_marker contents
        ++ api_content relpath functions
        ++ textBeforeFirst end_marker (afterFirst end_marker contents) := by
    unfold spliceReplace
    rw [pySplit_getD0, pySplit_getD1 _ _ hm h2]
  constructor
  · rw [he, hsplice]
  · intro hno
    rw [he, hsplice]
    have : firstOcc end_marker (afterFirst end_marker contents) = none := by
      unfold occursIn at hno
      cases h : firstOcc end_marker (afterFirst end_marker contents) with
      | none => rfl
      | some i => rw [h] at hno; simp at hno
    unfold textBeforeFirst
    rw [this]

/-- A document with unrelated content and a single occurrence of each
marker, both embedded mid-line. -/
def c4GoodDoc : List Char :=
  "intro\nsee <!-- DOCS START -->stale<!-- DOCS END --> tail\noutro".data

theorem C4_frame_between_markers_witness :
    update_readme (fun s => s) (some c4GoodDoc) []
      = textBeforeFirst start_marker c4GoodDoc
        ++ api_content (fun s => s) []
        ++ afterFirst end_marker c4GoodDoc :=
  (C4_frame_between_markers (fun s => s) c4GoodDoc [] (by decide) (by decide)).2
    (by decide)

/-- C9.  The branch taken by `update_readme` is decided purely by substring
containment of the two marker texts anywhere in the document — not by
whole-line matches: whenever both markers occur (each given by an arbitrary
decomposition of the document, in particular embedded inside longer lines),
the replacement branch runs, splitting at the first occurrence of each
marker; when either marker occurs nowhere, the append branch runs. -/
theorem C9_substring_containment_branch (relpath : String → String)
    (contents : List Char) (functions : List FunctionInfo) :
    (((∃ a b, contents = a ++ start_marker ++ b)
        ∧ (∃ c d, contents = c ++ end_marker ++ d)) →
      update_readme relpath (some contents) functions
        = spliceReplace contents (api_content relpath functions)) ∧
    ((¬ (∃ a b, contents = a ++ start_marker ++ b)
        ∨ ¬ (∃ c d, contents = c ++ end_marker ++ d)) →
      update_readme relpath (some contents) functions
        = appendSection contents (api_content relpath functions)) := by
  constructor
  · rintro ⟨hs, he⟩
    have h1 : occursIn start_marker contents = true :=
      (occursIn_iff_exists _ _).2 hs
    have h2 : occursIn end_marker contents = true :=
      (occursIn_iff_exists _ _).2 he
    unfold update_readme
    simp [h1, h2]
  · intro h
    have hcond : ¬ (occursIn start_marker contents = true
        ∧ occursIn end_marker contents = true) := by
      rintro ⟨h1, h2⟩
      rcases h with h | h
      · exact h ((occursIn_iff_exists _ _).1 h1)
      · exact h ((occursIn_iff_exists _ _).1 h2)
    unfold update_readme
    by_cases hs : occursIn start_marker contents = true
    · by_cases hd : occursIn end_marker contents = true
      · exact absurd ⟨hs, hd⟩ hcond
      · simp [hs, eq_false_of_ne_true hd]
    · simp [eq_false_of_ne_true hs]

/-- A one-line document with both markers embedded mid-line. -/
def c9Demo : List Char :=
  "x <!-- DOCS START --> y <!-- DOCS END --> z".data

theorem C9_substring_containment_branch_witness :
    update_readme (fun s => s) (some c9Demo) []
      = spliceReplace c9Demo (api_content (fun s => s) []) :=
  (C9_substring_containment_branch (fun s => s) c9Demo []).1
    ⟨⟨"x ".data, " y <!-- DOCS END --> z".data, by decide⟩,
     ⟨"x <!-- DOCS START --> y ".data, " z".data, by decide⟩⟩

/-
A modelled parser for a line-structured fragment of the source language,
standing in for `ast.parse` (a standard-library call, not repository code)
inside `scan_python_file`.  Modelled from the spec, §4.1: "parses the
file's contents into a structural tree ... If parsing fails (malformed
source), the file contributes zero records and the failure is swallowed."
The fragment covers: blank and comment lines; single-line
`def name(args):` and `async def name(args):` headers; single-line
`class ...:` headers; single-line `"""..."""` string statements; other
compound headers ending in `:`; and other simple statements — with
space-only indentation and the usual block discipline (a block is the
maximal run of more-indented lines after its header, sibling statements
share one indentation, every block header needs a non-empty body, a
statement line cannot be followed by a deeper line, and top-level
statements start at column 0).  Files outside the fragment fail to parse.
-/

/-- Classification of one source line's content for the modelled parser. -/
inductive LineKind where
  | blankLine
  | defLine (isAsync : Bool) (name : String) (args : List String)
  | classLine
  | strLine (s : String)
  | blockLine
  | simpleLine
deriving Repr, DecidableEq

/-- One classified, non-blank source line: its 1-based line number, its
indentation (number of leading spaces) and its kind. -/
structure LineRec where
  lineno : Nat
  indent : Nat
  kind : LineKind
deriving Repr, DecidableEq

def isIdentChar (c : Char) : Bool := c.isAlpha || c.isDigit || c = '_'

def tripleQuote : List Char := ['"', '"', '"']

/-- Spaces trimmed from both ends. -/
def trimSpaces (l : List Char) : List Char :=
  ((l.dropWhile (fun c => c = ' ')).reverse.dropWhile (fun c => c = ' ')).reverse

/-- The declared argument names of a def header, from the text between the
parentheses: comma-separated, space-trimmed; no arguments when blank. -/
def parseArgs (inner : List Char) : List String :=
  if trimSpaces inner = [] then []
  else (pySplit [','] inner).map (fun seg => String.mk (trimSpaces seg))

/-- Parse the remainder of a def header after the `def ` keyword:
an identifier, a parenthesised argument list, and a final colon. -/
def parseDefRest (isAsync : Bool) (r : List Char) : Option LineKind :=
  let name := r.takeWhile isIdentChar
  let r2 := r.drop name.length
  if name.isEmpty then none
  else
    match r2 with
    | '(' :: r3 =>
        if r3.length < 2 then none
        else if r3.drop (r3.length - 2) ≠ [')', ':'] then none
        else
          let inner := r3.take (r3.length - 2)
          if inner.contains '(' || inner.contains ')' then none
          else some (LineKind.defLine isAsync (String.mk name) (parseArgs inner))
    | _ => none

/-- Classify a line's content (after the leading spaces). -/
def classifyContent (r : List Char) : Option LineKind :=
  match r with
  | [] => some LineKind.blankLine
  | c :: _ =>
      if c = '#' then some LineKind.blankLine
      else if c = '\t' then none
      else if "async def ".data.isPrefixOf r then parseDefRest true (r.drop 10)
      else if "def ".data.isPrefixOf r then parseDefRest false (r.drop 4)
      else if "class ".data.isPrefixOf r then
        (if r.getLast? = some ':' then some LineKind.classLine else none)
      else if tripleQuote.isPrefixOf r then
        (if r.length ≥ 6 && decide (r.drop (r.length - 3) = tripleQuote)
            && !(((r.drop 3).take (r.length - 6)).contains '"')
         then some (LineKind.strLine (String.mk ((r.drop 3).take (r.length - 6))))
         else none)
      else if r.getLast? = some ':' then some LineKind.blockLine
      else some LineKind.simpleLine

/-- Classify a whole line: leading-space indentation plus content kind. -/
def classifyLine (l : List Char) : Option (Nat × LineKind) :=
  match classifyContent (l.dropWhile (fun c => c = ' ')) with
  | some k => some ((l.takeWhile (fun c => c = ' ')).length, k)
  | none => none

/-- Classify every line, numbering from `n` and dropping blank lines;
`none` as soon as any line is outside the fragment. -/
def classifyAll (n : Nat) : List (List Char) → Option (List LineRec)
  | [] => some []
  | l :: rest =>
      match classifyLine l with
      | none => none
      | some (_ind, LineKind.blankLine) => classifyAll (n + 1) rest
      | some (ind, k) =>
          (classifyAll (n + 1) rest).map
            (fun rs => { lineno := n, indent := ind, kind := k } :: rs)

/-- An indentation tree: a classified line and the lines grouped under it. -/
inductive LTree where
  | node (info : LineRec) (kids : List LTree)

/-- Fuel-driven grouping of a line list into an indentation forest: a
node's children are the maximal run of strictly deeper lines after it.
Any fuel at least the list length is sufficient. -/
def buildForestFuel : Nat → List LineRec → List LTree
  | _, [] => []
  | 0, _ :: _ => []
  | fuel + 1, l :: rest =>
      LTree.node l
          (buildForestFuel fuel (rest.takeWhile (fun r => l.indent < r.indent)))
        :: buildForestFuel fuel (rest.dropWhile (fun r => l.indent < r.indent))

/-- The indentation forest of a classified line list. -/
def buildForest (rs : List LineRec) : List LTree := buildForestFuel rs.length rs

/-- All lines of a forest, in source order. -/
def flattenForest : List LTree → List LineRec
  | [] => []
  | LTree.node l kids :: rest => l :: (flattenForest kids ++ flattenForest rest)

/-- Whether every root of the forest sits at indentation `i`. -/
def siblingsAt (i : Nat) : List LTree → Bool
  | [] => true
  | LTree.node l _ :: rest => l.indent = i && siblingsAt i rest

/-- Fuel-driven translation of an indentation forest into statements,
checking the block discipline: a string or simple statement must have no
deeper lines under it, and a def/class/other block header needs a
non-empty body whose statements all share the first body line's
indentation.  Any fuel at least the number of nodes is sufficient. -/
def treesToStmtsFuel : Nat → List LTree → Option (List Stmt)
  | _, [] => some []
  | 0, _ :: _ => none
  | fuel + 1, LTree.node l kids :: rest =>
      match l.kind with
      | LineKind.blankLine => none
      | LineKind.strLine s =>
          if kids.isEmpty then
            (treesToStmtsFuel fuel rest).map (fun stmts => Stmt.exprStr s :: stmts)
          else none
      | LineKind.simpleLine =>
          if kids.isEmpty then
            (treesToStmtsFuel fuel rest).map (fun stmts => Stmt.passStmt :: stmts)
          else none
      | LineKind.defLine isAsync name args =>
          match kids with
          | [] => none
          | LTree.node k0 _ :: _ =>
              if siblingsAt k0.indent kids then
                match treesToStmtsFuel fuel kids, treesToStmtsFuel fuel rest with
                | some body, some stmts =>
                    some (Stmt.functionDef isAsync name args l.lineno l.indent body
                      :: stmts)
                | _, _ => none
              else none
      | LineKind.classLine =>
          match kids with
          | [] => none
          | LTree.node k0 _ :: _ =>
              if siblingsAt k0.indent kids then
                match treesToStmtsFuel fuel kids, treesToStmtsFuel fuel rest with
                | some body, some stmts => some (Stmt.classDef "" body :: stmts)
                | _, _ => none
              else none
      | LineKind.blockLine =>
          match kids with
          | [] => none
          | LTree.node k0 _ :: _ =>
              if siblingsAt k0.indent kids then
                match treesToStmtsFuel fuel kids, treesToStmtsFuel fuel rest with
                | some body, some stmts => some (Stmt.ifStmt body [] :: stmts)
                | _, _ => none
              else none

/-- The modelled `ast.parse` over a file's lines: classify, group by
indentation, require the top level to start at column 0, and translate. -/
def parseText (lines : List (List Char)) : Option (List Stmt) :=
  match classifyAll 1 lines with
  | none => none
  | some recs =>
      if siblingsAt 0 (buildForest recs)
      then treesToStmtsFuel recs.length (buildForest recs)
      else none

/-- Mirror of `scan_python_file` (scanner.py lines 71-88) over the modelled
parser: a file that fails to parse contributes zero records (the
`except SyntaxError: return []` branch); a parsed file is scanned by
`_gather_functions`. -/
def scan_python_file (file_path : String) (lines : List (List Char)) :
    List FunctionInfo :=
  match parseText lines with
  | none => []
  | some stmts => _gather_functions file_path stmts

/-- The per-run scan loop of the caller: concatenate the records of each
file in order. -/
def scanRun (files : List (String × List (List Char))) : List FunctionInfo :=
  files.flatMap (fun pf => scan_python_file pf.1 pf.2)

/-- C5.  A file whose contents fail to parse contributes the empty record
list, no error escapes (the scan of the whole run is total), the result is
indistinguishable from scanning a file with no functions at all, and every
other file in the same run is scanned exactly as it would have been on its
own. -/
theorem C5_parse_failure_swallowed (fp : String) (lines : List (List Char))
    (h : parseText lines = none) :
    scan_python_file fp lines = [] ∧
    scan_python_file fp lines = scan_python_file fp [] ∧
    (∀ pre post : List (String × List (List Char)),
      scanRun (pre ++ (fp, lines) :: post) = scanRun pre ++ scanRun post) := by
  have h0 : scan_python_file fp lines = [] := by
    unfold scan_python_file
    rw [h]
  refine ⟨h0, ?_, ?_⟩
  · rw [h0]
    have : parseText [] = some [] := by rfl
    unfold scan_python_file
    rw [this]
    simp [_gather_functions]
  · intro pre post
    unfold scanRun
    rw [List.flatMap_append, List.flatMap_cons]
    rw [h0]
    simp

/-- A file consisting of the single malformed line `def (:`. -/
def c5BadLines : List (List Char) := ["def (:".data]

theorem C5_parse_failure_swallowed_witness :
    scan_python_file "bad.py" c5BadLines = [] :=
  (C5_parse_failure_swallowed "bad.py" c5BadLines (by rfl)).1

/-
Infrastructure for the idempotence argument (claim C2).  `toStmts` is the
fuel-free view of `treesToStmtsFuel` (any fuel at least the node count
gives the same result), and `buildForest` satisfies the natural grouping
equations; `flattenForest` recovers exactly the classified lines.
-/

/-- The canonical translation of a forest, with just enough fuel. -/
def toStmts (f : List LTree) : Option (List Stmt) :=
  treesToStmtsFuel (flattenForest f).length f

theorem flattenForest_append (f g : List LTree) :
    flattenForest (f ++ g) = flattenForest f ++ flattenForest g := by
  induction f with
  | nil => simp [flattenForest]
  | cons t rest ih =>
      cases t with
      | node l kids => simp [flattenForest, ih]

theorem flattenForest_cons (l : LineRec) (kids rest : List LTree) :
    flattenForest (LTree.node l kids :: rest)
      = l :: (flattenForest kids ++ flattenForest rest) := by
  simp [flattenForest]

theorem treesToStmtsFuel_irrel : ∀ (fuel : Nat) (ts : List LTree),
    (flattenForest ts).length ≤ fuel →
    treesToStmtsFuel fuel ts = toStmts ts := by
  intro fuel
  induction fuel using Nat.strong_induction_on with
  | _ fuel ih =>
      intro ts hle
      match ts with
      | [] =>
          unfold toStmts
          cases fuel <;> simp [treesToStmtsFuel, flattenForest]
      | LTree.node l kids :: rest =>
          have hflat : (flattenForest (LTree.node l kids :: rest)).length
              = ((flattenForest kids).length + (flattenForest rest).length) + 1 := by
            rw [flattenForest_cons]
            simp
          match fuel with
          | 0 => omega
          | fuel + 1 =>
              have hk : (flattenForest kids).length ≤ fuel := by omega
              have hr : (flattenForest rest).length ≤ fuel := by omega
              have hk2 : (flattenForest kids).length
                  ≤ (flattenForest kids).length + (flattenForest rest).length := by omega
              have hr2 : (flattenForest rest).length
                  ≤ (flattenForest kids).length + (flattenForest rest).length := by omega
              have hfl : fuel < fuel + 1 := by omega
              have hm : (flattenForest kids).length + (flattenForest rest).length
                  < fuel + 1 := by omega
              unfold toStmts
              rw [hflat]
              simp only [treesToStmtsFuel]
              rw [ih fuel hfl kids hk, ih fuel hfl rest hr,
                  ih ((flattenForest kids).length + (flattenForest rest).length) hm kids hk2,
                  ih ((flattenForest kids).length + (flattenForest rest).length) hm rest hr2]

theorem toStmts_nil : toStmts [] = some [] := by
  unfold toStmts
  cases h : (flattenForest ([] : List LTree)).length <;> simp [treesToStmtsFuel]

theorem toStmts_cons (l : LineRec) (kids rest : List LTree) :
    toStmts (LTree.node l kids :: rest)
      = match l.kind with
        | LineKind.blankLine => none
        | LineKind.strLine s =>
            if kids.isEmpty then
              (toStmts rest).map (fun stmts => Stmt.exprStr s :: stmts)
            else none
        | LineKind.simpleLine =>
            if kids.isEmpty then
              (toStmts rest).map (fun stmts => Stmt.passStmt :: stmts)
            else none
        | LineKind.defLine isAsync name args =>
            match kids with
            | [] => none
            | LTree.node k0 _ :: _ =>
                if siblingsAt k0.indent kids then
                  match toStmts kids, toStmts rest with
                  | some body, some stmts =>
                      some (Stmt.functionDef isAsync name args l.lineno l.indent body
                        :: stmts)
                  | _, _ => none
                else none
        | LineKind.classLine =>
            match kids with
            | [] => none
            | LTree.node k0 _ :: _ =>
                if siblingsAt k0.indent kids then
                  match toStmts kids, toStmts rest with
                  | some body, some stmts => some (Stmt.classDef "" body :: stmts)
                  | _, _ => none
                else none
        | LineKind.blockLine =>
            match kids with
            | [] => none
            | LTree.node k0 _ :: _ =>
                if siblingsAt k0.indent kids then
                  match toStmts kids, toStmts rest with
                  | some body, some stmts => some (Stmt.ifStmt body [] :: stmts)
                  | _, _ => none
                else none := by
  have hflat : (flattenForest (LTree.node l kids :: rest)).length
      = ((flattenForest kids).length + (flattenForest rest).length) + 1 := by
    rw [flattenForest_cons]
    simp
  unfold toStmts
  rw [hflat]
  simp only [treesToStmtsFuel]
  rw [treesToStmtsFuel_irrel _ kids (by omega),
      treesToStmtsFuel_irrel _ rest (by omega)]
  rfl

theorem buildForestFuel_irrel : ∀ (fuel : Nat) (rs : List LineRec),
    rs.length ≤ fuel → buildForestFuel fuel rs = buildForest rs := by
  intro fuel
  induction fuel using Nat.strong_induction_on with
  | _ fuel ih =>
      intro rs hle
      match rs with
      | [] =>
          unfold buildForest
          cases fuel <;> simp [buildForestFuel]
      | l :: rest =>
          match fuel with
          | 0 => simp at hle
          | fuel + 1 =>
              have hr : rest.length ≤ fuel := by
                simp at hle
                omega
              have htk : (rest.takeWhile (fun r => l.indent < r.indent)).length
                  ≤ rest.length := (List.takeWhile_sublist _).length_le
              have hdr : (rest.dropWhile (fun r => l.indent < r.indent)).length
                  ≤ rest.length := (List.dropWhile_sublist _).length_le
              unfold buildForest
              simp only [List.length_cons, buildForestFuel]
              rw [ih fuel (by omega) _ (by omega),
                  ih rest.length (by omega) _ (by omega),
                  ih fuel (by omega) _ (by omega),
                  ih rest.length (by omega) _ (by omega)]

theorem buildForest_nil : buildForest [] = [] := rfl

theorem buildForest_cons (l : LineRec) (rest : List LineRec) :
    buildForest (l :: rest)
      = LTree.node l (buildForest (rest.takeWhile (fun r => l.indent < r.indent)))
        :: buildForest (rest.dropWhile (fun r => l.indent < r.indent)) := by
  have htk : (rest.takeWhile (fun r => l.indent < r.indent)).length
      ≤ rest.length := (List.takeWhile_sublist _).length_le
  have hdr : (rest.dropWhile (fun r => l.indent < r.indent)).length
      ≤ rest.length := (List.dropWhile_sublist _).length_le
  unfold buildForest
  simp only [List.length_cons, buildForestFuel]
  rw [buildForestFuel_irrel rest.length _ (by omega),
      buildForestFuel_irrel rest.length _ (by omega)]
  rfl

theorem flatten_buildForest_bounded : ∀ (n : Nat) (rs : List LineRec),
    rs.length ≤ n → flattenForest (buildForest rs) = rs := by
  intro n
  induction n with
  | zero =>
      intro rs hle
      match rs with
      | [] => simp [buildForest, buildForestFuel, flattenForest]
  | succ n ih =>
      intro rs hle
      match rs with
      | [] => simp [buildForest, buildForestFuel, flattenForest]
      | l :: rest =>
          have htk : (rest.takeWhile (fun r => l.indent < r.indent)).length
              ≤ rest.length := (List.takeWhile_sublist _).length_le
          have hdr : (rest.dropWhile (fun r => l.indent < r.indent)).length
              ≤ rest.length := (List.dropWhile_sublist _).length_le
          have hle2 : rest.length ≤ n := by
            simp at hle
            omega
          rw [buildForest_cons, flattenForest_cons,
              ih _ (by omega), ih _ (by omega),
              List.takeWhile_append_dropWhile]

theorem flatten_buildForest (rs : List LineRec) :
    flattenForest (buildForest rs) = rs :=
  flatten_buildForest_bounded rs.length rs (le_refl _)

theorem parseText_eq (lines : List (List Char)) :
    parseText lines
      = match classifyAll 1 lines with
        | none => none
        | some recs =>
            if siblingsAt 0 (buildForest recs)
            then toStmts (buildForest recs) else none := by
  unfold parseText
  cases h : classifyAll 1 lines with
  | none => rfl
  | some recs =>
      simp [toStmts, flatten_buildForest]

/-
Line numbers are positional bookkeeping: none of the parser's structural
decisions, and none of the documentation data the idempotence argument
needs, depend on them.  `eraseL`/`eraseForest`/`eraseStmts` zero them out,
and the parser commutes with this erasure.
-/

/-- Zero the line number of a classified line. -/
def eraseL (r : LineRec) : LineRec := { r with lineno := 0 }

@[simp] theorem eraseL_indent (r : LineRec) : (eraseL r).indent = r.indent := rfl

@[simp] theorem eraseL_kind (r : LineRec) : (eraseL r).kind = r.kind := rfl

@[simp] theorem eraseL_lineno (r : LineRec) : (eraseL r).lineno = 0 := rfl

/-- Zero every line number in a forest. -/
def eraseForest : List LTree → List LTree
  | [] => []
  | LTree.node l kids :: rest =>
      LTree.node (eraseL l) (eraseForest kids) :: eraseForest rest

/-- Zero every source position in a statement list. -/
def eraseStmts : List Stmt → List Stmt
  | [] => []
  | Stmt.functionDef a n args _l c body :: rest =>
      Stmt.functionDef a n args 0 c (eraseStmts body) :: eraseStmts rest
  | Stmt.classDef n body :: rest => Stmt.classDef n (eraseStmts body) :: eraseStmts rest
  | Stmt.ifStmt b o :: rest =>
      Stmt.ifStmt (eraseStmts b) (eraseStmts o) :: eraseStmts rest
  | Stmt.exprStr s :: rest => Stmt.exprStr s :: eraseStmts rest
  | Stmt.passStmt :: rest => Stmt.passStmt :: eraseStmts rest

theorem flattenForest_erase : ∀ ts : List LTree,
    flattenForest (eraseForest ts) = (flattenForest ts).map eraseL := by
  intro ts
  induction ts using eraseForest.induct with
  | case1 => simp [eraseForest, flattenForest]
  | case2 l kids rest ihk ihr =>
      simp [eraseForest, flattenForest, ihk, ihr]

theorem buildForest_erase_bounded : ∀ (n : Nat) (rs : List LineRec),
    rs.length ≤ n → buildForest (rs.map eraseL) = eraseForest (buildForest rs) := by
  intro n
  induction n with
  | zero =>
      intro rs hle
      match rs with
      | [] => simp [buildForest, buildForestFuel, eraseForest]
  | succ n ih =>
      intro rs hle
      match rs with
      | [] => simp [buildForest, buildForestFuel, eraseForest]
      | l :: rest =>
          have hle2 : rest.length ≤ n := by
            simp at hle
            omega
          have htk : (rest.takeWhile (fun r => l.indent < r.indent)).length
              ≤ rest.length := (List.takeWhile_sublist _).length_le
          have hdr : (rest.dropWhile (fun r => l.indent < r.indent)).length
              ≤ rest.length := (List.dropWhile_sublist _).length_le
          have htkm : (rest.map eraseL).takeWhile (fun r => l.indent < r.indent)
              = (rest.takeWhile (fun r => l.indent < r.indent)).map eraseL := by
            rw [List.takeWhile_map]
            rfl
          have hdrm : (rest.map eraseL).dropWhile (fun r => l.indent < r.indent)
              = (rest.dropWhile (fun r => l.indent < r.indent)).map eraseL := by
            rw [List.dropWhile_map]
            rfl
          rw [List.map_cons, buildForest_cons, buildForest_cons]
          simp only [eraseL_indent, htkm, hdrm]
          rw [ih _ (by omega), ih _ (by omega)]
          simp [eraseForest]

theorem siblingsAt_erase (i : Nat) : ∀ ts : List LTree,
    siblingsAt i (eraseForest ts) = siblingsAt i ts := by
  intro ts
  induction ts using eraseForest.induct with
  | case1 => simp [eraseForest]
  | case2 l kids rest ihk ihr =>
      simp [eraseForest, siblingsAt, ihr]

theorem eraseForest_isEmpty (ts : List LTree) :
    (eraseForest ts).isEmpty = ts.isEmpty := by
  cases ts with
  | nil => simp [eraseForest]
  | cons t rest => cases t with | node l kids => simp [eraseForest]

theorem treesToStmtsFuel_erase : ∀ (fuel : Nat) (ts : List LTree),
    treesToStmtsFuel fuel (eraseForest ts)
      = (treesToStmtsFuel fuel ts).map eraseStmts := by
  intro fuel
  induction fuel with
  | zero =>
      intro ts
      cases ts with
      | nil => simp [eraseForest, treesToStmtsFuel, eraseStmts]
      | cons t rest =>
          cases t with
          | node l kids => simp [eraseForest, treesToStmtsFuel]
  | succ fuel ih =>
      intro ts
      cases ts with
      | nil => simp [eraseForest, treesToStmtsFuel, eraseStmts]
      | cons t rest =>
          cases t with
          | node l kids =>
              simp only [eraseForest, treesToStmtsFuel, eraseL_kind]
              cases hk : l.kind with
              | blankLine => simp
              | strLine s =>
                  rw [eraseForest_isEmpty]
                  cases he : kids.isEmpty
                  · simp
                  · simp only [if_pos rfl, ih rest]
                    cases hr : treesToStmtsFuel fuel rest <;> simp [eraseStmts]
              | simpleLine =>
                  rw [eraseForest_isEmpty]
                  cases he : kids.isEmpty
                  · simp
                  · simp only [if_pos rfl, ih rest]
                    cases hr : treesToStmtsFuel fuel rest <;> simp [eraseStmts]
              | defLine a n args =>
                  cases kids with
                  | nil => simp [eraseForest]
                  | cons k0t kk =>
                      cases k0t with
                      | node k0 k0kids =>
                          simp only [eraseForest]
                          rw [show siblingsAt (eraseL k0).indent
                                (LTree.node (eraseL k0) (eraseForest k0kids)
                                  :: eraseForest kk)
                              = siblingsAt k0.indent
                                  (LTree.node k0 k0kids :: kk) from by
                            rw [show (eraseL k0).indent = k0.indent from rfl]
                            rw [show (LTree.node (eraseL k0) (eraseForest k0kids)
                                :: eraseForest kk)
                                = eraseForest (LTree.node k0 k0kids :: kk) from by
                              simp [eraseForest]]
                            rw [siblingsAt_erase]]
                          cases hs : siblingsAt k0.indent (LTree.node k0 k0kids :: kk)
                          · simp
                          · simp only [if_pos rfl]
                            rw [show (LTree.node (eraseL k0) (eraseForest k0kids)
                                :: eraseForest kk)
                                = eraseForest (LTree.node k0 k0kids :: kk) from by
                              simp [eraseForest]]
                            rw [ih (LTree.node k0 k0kids :: kk), ih rest]
                            cases hb : treesToStmtsFuel fuel (LTree.node k0 k0kids :: kk)
                              <;> cases hr : treesToStmtsFuel fuel rest
                              <;> simp [eraseStmts]
              | classLine =>
                  cases kids with
                  | nil => simp [eraseForest]
                  | cons k0t kk =>
                      cases k0t with
                      | node k0 k0kids =>
                          simp only [eraseForest]
                          rw [show siblingsAt (eraseL k0).indent
                                (LTree.node (eraseL k0) (eraseForest k0kids)
                                  :: eraseForest kk)
                              = siblingsAt k0.indent
                                  (LTree.node k0 k0kids :: kk) from by
                            rw [show (eraseL k0).indent = k0.indent from rfl]
                            rw [show (LTree.node (eraseL k0) (eraseForest k0kids)
                                :: eraseForest kk)
                                = eraseForest (LTree.node k0 k0kids :: kk) from by
                              simp [eraseForest]]
                            rw [siblingsAt_erase]]
                          cases hs : siblingsAt k0.indent (LTree.node k0 k0kids :: kk)
                          · simp
                          · simp only [if_pos rfl]
                            rw [show (LTree.node (eraseL k0) (eraseForest k0kids)
                                :: eraseForest kk)
                                = eraseForest (LTree.node k0 k0kids :: kk) from by
                              simp [eraseForest]]
                            rw [ih (LTree.node k0 k0kids :: kk), ih rest]
                            cases hb : treesToStmtsFuel fuel (LTree.node k0 k0kids :: kk)
                              <;> cases hr : treesToStmtsFuel fuel rest
                              <;> simp [eraseStmts]
              | blockLine =>
                  cases kids with
                  | nil => simp [eraseForest]
                  | cons k0t kk =>
                      cases k0t with
                      | node k0 k0kids =>
                          simp only [eraseForest]
                          rw [show siblingsAt (eraseL k0).indent
                                (LTree.node (eraseL k0) (eraseForest k0kids)
                                  :: eraseForest kk)
                              = siblingsAt k0.indent
                                  (LTree.node k0 k0kids :: kk) from by
                            rw [show (eraseL k0).indent = k0.indent from rfl]
                            rw [show (LTree.node (eraseL k0) (eraseForest k0kids)
                                :: eraseForest kk)
                                = eraseForest (LTree.node k0 k0kids :: kk) from by
                              simp [eraseForest]]
                            rw [siblingsAt_erase]]
                          cases hs : siblingsAt k0.indent (LTree.node k0 k0kids :: kk)
                          · simp
                          · simp only [if_pos rfl]
                            rw [show (LTree.node (eraseL k0) (eraseForest k0kids)
                                :: eraseForest kk)
                                = eraseForest (LTree.node k0 k0kids :: kk) from by
                              simp [eraseForest]]
                            rw [ih (LTree.node k0 k0kids :: kk), ih rest]
                            cases hb : treesToStmtsFuel fuel (LTree.node k0 k0kids :: kk)
                              <;> cases hr : treesToStmtsFuel fuel rest
                              <;> simp [eraseStmts]

theorem get_docstring_erase (body : List Stmt) :
    get_docstring (eraseStmts body) = get_docstring body := by
  cases body with
  | nil => simp [eraseStmts, get_docstring]
  | cons s rest => cases s <;> simp [eraseStmts, get_docstring]

theorem gather_docstrings_erase (fp : String) : ∀ stmts : List Stmt,
    (_gather_functions fp (eraseStmts stmts)).map (fun r => r.docstring)
      = (_gather_functions fp stmts).map (fun r => r.docstring) := by
  intro stmts
  induction stmts using eraseStmts.induct with
  | case1 => simp [eraseStmts, _gather_functions]
  | case2 a n args l c body rest ihb ihr =>
      simp [eraseStmts, _gather_functions, get_docstring_erase, ihb, ihr]
  | case3 n body rest ihb ihr =>
      simp [eraseStmts, _gather_functions, ihb, ihr]
  | case4 b o rest ihb iho ihr =>
      simp [eraseStmts, _gather_functions, ihr]
  | case5 s rest ihr =>
      simp [eraseStmts, _gather_functions, ihr]
  | case6 rest ihr =>
      simp [eraseStmts, _gather_functions, ihr]

theorem docOk_of_erase (fp : String) (m1 m2 : List Stmt)
    (h : eraseStmts m1 = eraseStmts m2)
    (hok : ∀ r ∈ _gather_functions fp m2, r.docstring.isSome = true) :
    ∀ r ∈ _gather_functions fp m1, r.docstring.isSome = true := by
  intro r hr
  have hmap : (_gather_functions fp m1).map (fun r => r.docstring)
      = (_gather_functions fp m2).map (fun r => r.docstring) := by
    rw [← gather_docstrings_erase fp m1, ← gather_docstrings_erase fp m2, h]
  have hmem : r.docstring ∈ (_gather_functions fp m2).map (fun r => r.docstring) := by
    rw [← hmap]
    exact List.mem_map_of_mem _ hr
  rcases List.mem_map.1 hmem with ⟨r2, hr2, hdoc⟩
  rw [← hdoc]
  exact hok r2 hr2

theorem classifyAll_append : ∀ (xs : List (List Char)) (n : Nat)
    (ys : List (List Char)),
    classifyAll n (xs ++ ys)
      = match classifyAll n xs, classifyAll (n + xs.length) ys with
        | some a, some b => some (a ++ b)
        | _, _ => none := by
  intro xs
  induction xs with
  | nil =>
      intro n ys
      simp only [List.nil_append, List.length_nil, Nat.add_zero, classifyAll]
      cases h : classifyAll n ys <;> simp [h]
  | cons l rest ih =>
      intro n ys
      have harith : n + 1 + rest.length = n + (rest.length + 1) := by omega
      simp only [List.cons_append, classifyAll, List.append_eq]
      cases hc : classifyLine l with
      | none => rfl
      | some ik =>
          obtain ⟨ind, k⟩ := ik
          cases k with
          | blankLine =>
              simp only [List.length_cons]
              rw [ih (n + 1), harith]
          | defLine a nm args =>
              simp only [List.length_cons]
              rw [ih (n + 1), harith]
              cases classifyAll (n + 1) rest
                <;> cases classifyAll (n + (rest.length + 1)) ys <;> simp
          | classLine =>
              simp only [List.length_cons]
              rw [ih (n + 1), harith]
              cases classifyAll (n + 1) rest
                <;> cases classifyAll (n + (rest.length + 1)) ys <;> simp
          | strLine s =>
              simp only [List.length_cons]
              rw [ih (n + 1), harith]
              cases classifyAll (n + 1) rest
                <;> cases classifyAll (n + (rest.length + 1)) ys <;> simp
          | blockLine =>
              simp only [List.length_cons]
              rw [ih (n + 1), harith]
              cases classifyAll (n + 1) rest
                <;> cases classifyAll (n + (rest.length + 1)) ys <;> simp
          | simpleLine =>
              simp only [List.length_cons]
              rw [ih (n + 1), harith]
              cases classifyAll (n + 1) rest
                <;> cases classifyAll (n + (rest.length + 1)) ys <;> simp

theorem classifyAll_erase_shift : ∀ (ls : List (List Char)) (n m : Nat),
    (classifyAll n ls).map (List.map eraseL)
      = (classifyAll m ls).map (List.map eraseL) := by
  intro ls
  induction ls with
  | nil => intro n m; simp [classifyAll]
  | cons l rest ih =>
      intro n m
      simp only [classifyAll]
      cases hc : classifyLine l with
      | none => rfl
      | some ik =>
          obtain ⟨ind, k⟩ := ik
          have key := ih (n + 1) (m + 1)
          cases k with
          | blankLine => exact key
          | defLine a nm args =>
              cases h1 : classifyAll (n + 1) rest
                <;> cases h2 : classifyAll (m + 1) rest
                <;> rw [h1, h2] at key <;> simp at key ⊢
              · simp [eraseL, key]
          | classLine =>
              cases h1 : classifyAll (n + 1) rest
                <;> cases h2 : classifyAll (m + 1) rest
                <;> rw [h1, h2] at key <;> simp at key ⊢
              · simp [eraseL, key]
          | strLine s =>
              cases h1 : classifyAll (n + 1) rest
                <;> cases h2 : classifyAll (m + 1) rest
                <;> rw [h1, h2] at key <;> simp at key ⊢
              · simp [eraseL, key]
          | blockLine =>
              cases h1 : classifyAll (n + 1) rest
                <;> cases h2 : classifyAll (m + 1) rest
                <;> rw [h1, h2] at key <;> simp at key ⊢
              · simp [eraseL, key]
          | simpleLine =>
              cases h1 : classifyAll (n + 1) rest
                <;> cases h2 : classifyAll (m + 1) rest
                <;> rw [h1, h2] at key <;> simp at key ⊢
              · simp [eraseL, key]

theorem classifyAll_spec : ∀ (ls : List (List Char)) (n : Nat)
    (recs : List LineRec), classifyAll n ls = some recs →
    (∀ r ∈ recs, n ≤ r.lineno ∧ r.lineno < n + ls.length ∧
      ∃ line, ls[r.lineno - n]? = some line ∧
        classifyLine line = some (r.indent, r.kind)) ∧
    List.Pairwise (fun a b => a.lineno < b.lineno) recs := by
  intro ls
  induction ls with
  | nil =>
      intro n recs h
      simp [classifyAll] at h
      subst h
      simp
  | cons l rest ih =>
      intro n recs h
      simp only [classifyAll] at h
      cases hc : classifyLine l with
      | none => rw [hc] at h; simp at h
      | some ik =>
          obtain ⟨ind, k⟩ := ik
          rw [hc] at h
          cases hk : k with
          | blankLine =>
              rw [hk] at h
              rcases ih (n + 1) recs h with ⟨hmem, hpw⟩
              refine ⟨?_, hpw⟩
              intro r hr
              rcases hmem r hr with ⟨h1, h2, line, h3, h4⟩
              refine ⟨by omega, by simp; omega, line, ?_, h4⟩
              have : r.lineno - n = (r.lineno - (n + 1)) + 1 := by omega
              rw [this]
              simpa using h3
          | defLine a nm args =>
              rw [hk] at h
              cases hrest : classifyAll (n + 1) rest with
              | none => rw [hrest] at h; simp at h
              | some rs =>
                  rw [hrest] at h
                  simp at h
                  subst h
                  rcases ih (n + 1) rs hrest with ⟨hmem, hpw⟩
                  constructor
                  · intro r hr
                    rcases List.mem_cons.1 hr with rfl | hr
                    · refine ⟨le_refl _, by simp, l, by simp, by rw [hc, hk]⟩
                    · rcases hmem r hr with ⟨h1, h2, line, h3, h4⟩
                      refine ⟨by omega, by simp; omega, line, ?_, h4⟩
                      have : r.lineno - n = (r.lineno - (n + 1)) + 1 := by omega
                      rw [this]
                      simpa using h3
                  · refine List.pairwise_cons.2 ⟨?_, hpw⟩
                    intro r hr
                    rcases hmem r hr with ⟨h1, _, _⟩
                    simp
                    omega
          | classLine =>
              rw [hk] at h
              cases hrest : classifyAll (n + 1) rest with
              | none => rw [hrest] at h; simp at h
              | some rs =>
                  rw [hrest] at h
                  simp at h
                  subst h
                  rcases ih (n + 1) rs hrest with ⟨hmem, hpw⟩
                  constructor
                  · intro r hr
                    rcases List.mem_cons.1 hr with rfl | hr
                    · refine ⟨le_refl _, by simp, l, by simp, by rw [hc, hk]⟩
                    · rcases hmem r hr with ⟨h1, h2, line, h3, h4⟩
                      refine ⟨by omega, by simp; omega, line, ?_, h4⟩
                      have : r.lineno - n = (r.lineno - (n + 1)) + 1 := by omega
                      rw [this]
                      simpa using h3
                  · refine List.pairwise_cons.2 ⟨?_, hpw⟩
                    intro r hr
                    rcases hmem r hr with ⟨h1, _, _⟩
                    simp
                    omega
          | strLine s =>
              rw [hk] at h
              cases hrest : classifyAll (n + 1) rest with
              | none => rw [hrest] at h; simp at h
              | some rs =>
                  rw [hrest] at h
                  simp at h
                  subst h
                  rcases ih (n + 1) rs hrest with ⟨hmem, hpw⟩
                  constructor
                  · intro r hr
                    rcases List.mem_cons.1 hr with rfl | hr
                    · refine ⟨le_refl _, by simp, l, by simp, by rw [hc, hk]⟩
                    · rcases hmem r hr with ⟨h1, h2, line, h3, h4⟩
                      refine ⟨by omega, by simp; omega, line, ?_, h4⟩
                      have : r.lineno - n = (r.lineno - (n + 1)) + 1 := by omega
                      rw [this]
                      simpa using h3
                  · refine List.pairwise_cons.2 ⟨?_, hpw⟩
                    intro r hr
                    rcases hmem r hr with ⟨h1, _, _⟩
                    simp
                    omega
          | blockLine =>
              rw [hk] at h
              cases hrest : classifyAll (n + 1) rest with
              | none => rw [hrest] at h; simp at h
              | some rs =>
                  rw [hrest] at h
                  simp at h
                  subst h
                  rcases ih (n + 1) rs hrest with ⟨hmem, hpw⟩
                  constructor
                  · intro r hr
                    rcases List.mem_cons.1 hr with rfl | hr
                    · refine ⟨le_refl _, by simp, l, by simp, by rw [hc, hk]⟩
                    · rcases hmem r hr with ⟨h1, h2, line, h3, h4⟩
                      refine ⟨by omega, by simp; omega, line, ?_, h4⟩
                      have : r.lineno - n = (r.lineno - (n + 1)) + 1 := by omega
                      rw [this]
                      simpa using h3
                  · refine List.pairwise_cons.2 ⟨?_, hpw⟩
                    intro r hr
                    rcases hmem r hr with ⟨h1, _, _⟩
                    simp
                    omega
          | simpleLine =>
              rw [hk] at h
              cases hrest : classifyAll (n + 1) rest with
              | none => rw [hrest] at h; simp at h
              | some rs =>
                  rw [hrest] at h
                  simp at h
                  subst h
                  rcases ih (n + 1) rs hrest with ⟨hmem, hpw⟩
                  constructor
                  · intro r hr
                    rcases List.mem_cons.1 hr with rfl | hr
                    · refine ⟨le_refl _, by simp, l, by simp, by rw [hc, hk]⟩
                    · rcases hmem r hr with ⟨h1, h2, line, h3, h4⟩
                      refine ⟨by omega, by simp; omega, line, ?_, h4⟩
                      have : r.lineno - n = (r.lineno - (n + 1)) + 1 := by omega
                      rw [this]
                      simpa using h3
                  · refine List.pairwise_cons.2 ⟨?_, hpw⟩
                    intro r hr
                    rcases hmem r hr with ⟨h1, _, _⟩
                    simp
                    omega

/-
The stub insertion, seen on the indentation forest: a stub line (indent
`col_offset + 4`, a single-line string statement with the stub text) is
injected as the new first child of every undocumented def node the scanner
visits (classes are entered, other compound statements are not — matching
`_gather_functions`).  `stubsFit` records whether every such def's original
body is indented exactly `col_offset + 4`; exactly then does the edited
file parse again.
-/

/-- The text inside the stub docstring line's triple quotes. -/
def stubText (n : String) : String := "TODO: Document `" ++ n ++ "`."

/-- The classified-line record of a stub inserted under the def line `l`. -/
def stubRecFor (l : LineRec) (n : String) : LineRec :=
  { lineno := 0, indent := l.indent + 4, kind := LineKind.strLine (stubText n) }

/-- Whether a def with these children lacks a docstring (its first body
statement is not a string statement). -/
def needsStub : List LTree → Bool
  | [] => true
  | LTree.node k0 _ :: _ =>
      match k0.kind with
      | LineKind.strLine _ => false
      | _ => true

/-- Inject a stub as the first child of every undocumented visited def. -/
def stubForest : List LTree → List LTree
  | [] => []
  | LTree.node l kids :: rest =>
      match l.kind with
      | LineKind.defLine _a n _args =>
          if needsStub kids then
            LTree.node l (LTree.node (stubRecFor l n) [] :: stubForest kids)
              :: stubForest rest
          else LTree.node l (stubForest kids) :: stubForest rest
      | LineKind.classLine => LTree.node l (stubForest kids) :: stubForest rest
      | _ => LTree.node l kids :: stubForest rest

/-- Whether a block's first statement sits at indentation `i`. -/
def fitHead (i : Nat) : List LTree → Bool
  | LTree.node k0 _ :: _ => decide (k0.indent = i)
  | [] => false

/-- Every stubbed def's original body starts at exactly `indent + 4`. -/
def stubsFit : List LTree → Bool
  | [] => true
  | LTree.node l kids :: rest =>
      match l.kind with
      | LineKind.defLine _ _ _ =>
          (if needsStub kids then fitHead (l.indent + 4) kids else true)
          && stubsFit kids && stubsFit rest
      | LineKind.classLine => stubsFit kids && stubsFit rest
      | _ => stubsFit rest

/-- The visited undocumented def nodes, pre-order: the line record of each
def header together with the function's name. -/
def stubDefs : List LTree → List (LineRec × String)
  | [] => []
  | LTree.node l kids :: rest =>
      match l.kind with
      | LineKind.defLine _ n _ =>
          (if needsStub kids then [(l, n)] else [])
            ++ (stubDefs kids ++ stubDefs rest)
      | LineKind.classLine => stubDefs kids ++ stubDefs rest
      | _ => stubDefs rest

/-- The indentations of a forest's roots. -/
def rootIndents : List LTree → List Nat
  | [] => []
  | LTree.node l _ :: rest => l.indent :: rootIndents rest

theorem siblingsAt_eq_all (i : Nat) : ∀ ts : List LTree,
    siblingsAt i ts = (rootIndents ts).all (fun j => decide (j = i)) := by
  intro ts
  induction ts with
  | nil => simp [siblingsAt, rootIndents]
  | cons t rest ih =>
      cases t with
      | node l kids => simp [siblingsAt, rootIndents, ih]

theorem siblingsAt_congr (i : Nat) {ts1 ts2 : List LTree}
    (h : rootIndents ts1 = rootIndents ts2) :
    siblingsAt i ts1 = siblingsAt i ts2 := by
  rw [siblingsAt_eq_all, siblingsAt_eq_all, h]

theorem flatten_stubForest_above (i : Nat) : ∀ ts : List LTree,
    (∀ r ∈ flattenForest ts, i < r.indent) →
    ∀ r ∈ flattenForest (stubForest ts), i < r.indent := by
  intro ts
  induction ts using stubForest.induct with
  | case1 => simp [stubForest]
  | case2 l kids rest a n args hkind hstub ihk ihr =>
      intro h r hr
      rw [stubForest.eq_def] at hr
      simp only [hkind, hstub, if_pos] at hr
      rw [flattenForest_cons, flattenForest_cons] at hr
      rw [flattenForest_cons] at h
      have hl : i < l.indent := h l (by simp)
      have hk : ∀ r ∈ flattenForest kids, i < r.indent := by
        intro r hr2
        exact h r (by simp [hr2])
      have hre : ∀ r ∈ flattenForest rest, i < r.indent := by
        intro r hr2
        exact h r (by simp [hr2])
      rcases List.mem_cons.1 hr with rfl | hr
      · exact hl
      rcases List.mem_append.1 hr with hr | hr
      · rcases List.mem_cons.1 hr with rfl | hr
        · simp [stubRecFor]
          omega
        rcases List.mem_append.1 hr with hr | hr
        · simp [flattenForest] at hr
        · exact ihk hk r hr
      · exact ihr hre r hr
  | case3 l kids rest a n args hkind hstub ihk ihr =>
      intro h r hr
      rw [stubForest.eq_def] at hr
      simp only [hkind] at hr
      rw [if_neg hstub] at hr
      rw [flattenForest_cons] at hr
      rw [flattenForest_cons] at h
      have hl : i < l.indent := h l (by simp)
      have hk : ∀ r ∈ flattenForest kids, i < r.indent := by
        intro r hr2
        exact h r (by simp [hr2])
      have hre : ∀ r ∈ flattenForest rest, i < r.indent := by
        intro r hr2
        exact h r (by simp [hr2])
      rcases List.mem_cons.1 hr with rfl | hr
      · exact hl
      rcases List.mem_append.1 hr with hr | hr
      · exact ihk hk r hr
      · exact ihr hre r hr
  | case4 l kids rest hkind ihk ihr =>
      intro h r hr
      rw [stubForest.eq_def] at hr
      simp only [hkind] at hr
      rw [flattenForest_cons] at hr
      rw [flattenForest_cons] at h
      have hl : i < l.indent := h l (by simp)
      have hk : ∀ r ∈ flattenForest kids, i < r.indent := by
        intro r hr2
        exact h r (by simp [hr2])
      have hre : ∀ r ∈ flattenForest rest, i < r.indent := by
        intro r hr2
        exact h r (by simp [hr2])
      rcases List.mem_cons.1 hr with rfl | hr
      · exact hl
      rcases List.mem_append.1 hr with hr | hr
      · exact ihk hk r hr
      · exact ihr hre r hr
  | case5 l kids rest hk1 hk2 ihr =>
      intro h r hr
      have heq : stubForest (LTree.node l kids :: rest)
          = LTree.node l kids :: stubForest rest := by
        rw [stubForest.eq_def]
        cases hkk : l.kind with
        | defLine a n args => exact absurd hkk (hk1 a n args)
        | classLine => exact absurd hkk hk2
        | blankLine => simp [hkk]
        | strLine s => simp [hkk]
        | blockLine => simp [hkk]
        | simpleLine => simp [hkk]
      rw [heq] at hr
      rw [flattenForest_cons] at hr
      rw [flattenForest_cons] at h
      have hl : i < l.indent := h l (by simp)
      have hk : ∀ r ∈ flattenForest kids, i < r.indent := by
        intro r hr2
        exact h r (by simp [hr2])
      have hre : ∀ r ∈ flattenForest rest, i < r.indent := by
        intro r hr2
        exact h r (by simp [hr2])
      rcases List.mem_cons.1 hr with rfl | hr
      · exact hl
      rcases List.mem_append.1 hr with hr | hr
      · exact hk r hr
      · exact ihr hre r hr

theorem stubForest_nil : stubForest [] = [] := by
  rw [stubForest.eq_def]

theorem stubForest_cons_def_needs (l : LineRec) (kids rest : List LTree)
    (a : Bool) (n : String) (args : List String)
    (hk : l.kind = LineKind.defLine a n args) (hs : needsStub kids = true) :
    stubForest (LTree.node l kids :: rest)
      = LTree.node l (LTree.node (stubRecFor l n) [] :: stubForest kids)
        :: stubForest rest := by
  rw [stubForest.eq_def]
  simp [hk, hs]

theorem stubForest_cons_def_no (l : LineRec) (kids rest : List LTree)
    (a : Bool) (n : String) (args : List String)
    (hk : l.kind = LineKind.defLine a n args) (hs : needsStub kids = false) :
    stubForest (LTree.node l kids :: rest)
      = LTree.node l (stubForest kids) :: stubForest rest := by
  rw [stubForest.eq_def]
  simp [hk, hs]

theorem stubForest_cons_class (l : LineRec) (kids rest : List LTree)
    (hk : l.kind = LineKind.classLine) :
    stubForest (LTree.node l kids :: rest)
      = LTree.node l (stubForest kids) :: stubForest rest := by
  rw [stubForest.eq_def]
  simp [hk]

theorem stubForest_cons_other (l : LineRec) (kids rest : List LTree)
    (hk1 : ∀ a n args, l.kind ≠ LineKind.defLine a n args)
    (hk2 : l.kind ≠ LineKind.classLine) :
    stubForest (LTree.node l kids :: rest)
      = LTree.node l kids :: stubForest rest := by
  rw [stubForest.eq_def]
  cases hkk : l.kind with
  | defLine a n args => exact absurd hkk (hk1 a n args)
  | classLine => exact absurd hkk hk2
  | blankLine => simp [hkk]
  | strLine s => simp [hkk]
  | blockLine => simp [hkk]
  | simpleLine => simp [hkk]

theorem flatten_stubForest_head (l : LineRec) (kids rest : List LTree) :
    ∃ tl, flattenForest (stubForest (LTree.node l kids :: rest)) = l :: tl := by
  cases hkk : l.kind with
  | defLine a n args =>
      cases hs : needsStub kids
      · rw [stubForest_cons_def_no l kids rest a n args hkk hs, flattenForest_cons]
        exact ⟨_, rfl⟩
      · rw [stubForest_cons_def_needs l kids rest a n args hkk hs, flattenForest_cons]
        exact ⟨_, rfl⟩
  | classLine =>
      rw [stubForest_cons_class l kids rest hkk, flattenForest_cons]
      exact ⟨_, rfl⟩
  | blankLine =>
      rw [stubForest_cons_other l kids rest (by simp [hkk]) (by simp [hkk]),
        flattenForest_cons]
      exact ⟨_, rfl⟩
  | strLine s =>
      rw [stubForest_cons_other l kids rest (by simp [hkk]) (by simp [hkk]),
        flattenForest_cons]
      exact ⟨_, rfl⟩
  | blockLine =>
      rw [stubForest_cons_other l kids rest (by simp [hkk]) (by simp [hkk]),
        flattenForest_cons]
      exact ⟨_, rfl⟩
  | simpleLine =>
      rw [stubForest_cons_other l kids rest (by simp [hkk]) (by simp [hkk]),
        flattenForest_cons]
      exact ⟨_, rfl⟩

theorem buildForest_eq_nil_iff (rs : List LineRec) :
    buildForest rs = [] ↔ rs = [] := by
  constructor
  · intro h
    have := flatten_buildForest rs
    rw [h] at this
    simpa [flattenForest] using this.symm
  · intro h
    subst h
    rfl

theorem takeWhile_append_of_all {α : Type} (p : α → Bool) :
    ∀ (xs ys : List α), (∀ x ∈ xs, p x = true) →
    (xs ++ ys).takeWhile p = xs ++ ys.takeWhile p := by
  intro xs ys h
  induction xs with
  | nil => simp
  | cons x rest ih =>
      have hx : p x = true := h x (by simp)
      simp only [List.cons_append, List.takeWhile_cons, hx, if_pos]
      rw [ih (fun y hy => h y (by simp [hy]))]

theorem dropWhile_append_of_all {α : Type} (p : α → Bool) :
    ∀ (xs ys : List α), (∀ x ∈ xs, p x = true) →
    (xs ++ ys).dropWhile p = ys.dropWhile p := by
  intro xs ys h
  induction xs with
  | nil => simp
  | cons x rest ih =>
      have hx : p x = true := h x (by simp)
      simp only [List.cons_append, List.dropWhile_cons, hx, if_pos]
      exact ih (fun y hy => h y (by simp [hy]))

theorem head_dropWhile_false {α : Type} (p : α → Bool) :
    ∀ (l : List α) (y : α) (tl : List α), l.dropWhile p = y :: tl → p y = false := by
  intro l
  induction l with
  | nil => intro y tl h; simp at h
  | cons x rest ih =>
      intro y tl h
      by_cases hx : p x = true
      · rw [List.dropWhile_cons, if_pos hx] at h
        exact ih y tl h
      · rw [List.dropWhile_cons, if_neg hx] at h
        cases h
        exact eq_false_of_ne_true hx

theorem all_ge_of_siblings (j : Nat) : ∀ (n : Nat) (K : List LineRec),
    K.length ≤ n → siblingsAt j (buildForest K) = true →
    ∀ r ∈ K, j ≤ r.indent := by
  intro n
  induction n with
  | zero =>
      intro K hle hsib r hr
      match K with
      | [] => simp at hr
  | succ n ih =>
      intro K hle hsib r hr
      match K with
      | [] => simp at hr
      | k0 :: rest =>
          rw [buildForest_cons] at hsib
          simp only [siblingsAt] at hsib
          rw [Bool.and_eq_true] at hsib
          rcases hsib with ⟨h0, hdrop⟩
          have h0' : k0.indent = j := by simpa using h0
          rcases List.mem_cons.1 hr with rfl | hr
          · omega
          have hr2 : r ∈ rest.takeWhile (fun r => decide (k0.indent < r.indent))
              ∨ r ∈ rest.dropWhile (fun r => decide (k0.indent < r.indent)) := by
            rw [← List.takeWhile_append_dropWhile
              (fun r => decide (k0.indent < r.indent)) rest] at hr
            exact List.mem_append.1 hr
          rcases hr2 with h | h
          · have := List.mem_takeWhile_imp h
            simp at this
            omega
          · have hlen : (rest.dropWhile (fun r => decide (k0.indent < r.indent))).length
                ≤ n := by
              have hsub : (List.dropWhile (fun r => decide (k0.indent < r.indent))
                  rest).length ≤ rest.length :=
                List.Sublist.length_le (List.dropWhile_sublist _)
              simp at hle
              omega
            exact ih _ hlen hdrop r h

theorem stubsFit_nil : stubsFit [] = true := by
  rw [stubsFit.eq_def]

theorem stubsFit_cons_def (l : LineRec) (kids rest : List LTree)
    (a : Bool) (n : String) (args : List String)
    (hk : l.kind = LineKind.defLine a n args) :
    stubsFit (LTree.node l kids :: rest)
      = ((if needsStub kids = true then fitHead (l.indent + 4) kids else true)
        && stubsFit kids && stubsFit rest) := by
  rw [stubsFit.eq_def]
  simp [hk]

theorem stubsFit_cons_class (l : LineRec) (kids rest : List LTree)
    (hk : l.kind = LineKind.classLine) :
    stubsFit (LTree.node l kids :: rest) = (stubsFit kids && stubsFit rest) := by
  rw [stubsFit.eq_def]
  simp [hk]

theorem stubsFit_cons_other (l : LineRec) (kids rest : List LTree)
    (hk1 : ∀ a n args, l.kind ≠ LineKind.defLine a n args)
    (hk2 : l.kind ≠ LineKind.classLine) :
    stubsFit (LTree.node l kids :: rest) = stubsFit rest := by
  rw [stubsFit.eq_def]
  cases hkk : l.kind with
  | defLine a n args => exact absurd hkk (hk1 a n args)
  | classLine => exact absurd hkk hk2
  | blankLine => simp [hkk]
  | strLine s => simp [hkk]
  | blockLine => simp [hkk]
  | simpleLine => simp [hkk]

theorem rootIndents_cons (l : LineRec) (kids rest : List LTree) :
    rootIndents (LTree.node l kids :: rest) = l.indent :: rootIndents rest := rfl

theorem stubDefs_nil : stubDefs [] = [] := by
  rw [stubDefs.eq_def]

theorem stubDefs_cons_def (l : LineRec) (kids rest : List LTree)
    (a : Bool) (n : String) (args : List String)
    (hk : l.kind = LineKind.defLine a n args) :
    stubDefs (LTree.node l kids :: rest)
      = (if needsStub kids = true then [(l, n)] else [])
          ++ (stubDefs kids ++ stubDefs rest) := by
  rw [stubDefs.eq_def]
  simp [hk]

theorem stubDefs_cons_class (l : LineRec) (kids rest : List LTree)
    (hk : l.kind = LineKind.classLine) :
    stubDefs (LTree.node l kids :: rest) = stubDefs kids ++ stubDefs rest := by
  rw [stubDefs.eq_def]
  simp [hk]

theorem stubDefs_cons_other (l : LineRec) (kids rest : List LTree)
    (hk1 : ∀ a n args, l.kind ≠ LineKind.defLine a n args)
    (hk2 : l.kind ≠ LineKind.classLine) :
    stubDefs (LTree.node l kids :: rest) = stubDefs rest := by
  rw [stubDefs.eq_def]
  cases hkk : l.kind with
  | defLine a n args => exact absurd hkk (hk1 a n args)
  | classLine => exact absurd hkk hk2
  | blankLine => simp [hkk]
  | strLine s => simp [hkk]
  | blockLine => simp [hkk]
  | simpleLine => simp [hkk]

theorem takeWhile_all_true {α : Type} (p : α → Bool) :
    ∀ (l : List α), (∀ x ∈ l, p x = true) → l.takeWhile p = l := by
  intro l h
  induction l with
  | nil => simp
  | cons x rest ih =>
      simp only [List.takeWhile_cons, h x (by simp), if_pos]
      rw [ih (fun y hy => h y (by simp [hy]))]

theorem dropWhile_all_true {α : Type} (p : α → Bool) :
    ∀ (l : List α), (∀ x ∈ l, p x = true) → l.dropWhile p = [] := by
  intro l h
  induction l with
  | nil => simp
  | cons x rest ih =>
      simp only [List.dropWhile_cons, h x (by simp), if_pos]
      exact ih (fun y hy => h y (by simp [hy]))

theorem split_at_shallow (i : Nat) (X Y : List LineRec)
    (hX : ∀ x ∈ X, i < x.indent)
    (hY : ∀ y tl, Y = y :: tl → ¬ i < y.indent) :
    (X ++ Y).takeWhile (fun r => decide (i < r.indent)) = X ∧
    (X ++ Y).dropWhile (fun r => decide (i < r.indent)) = Y := by
  constructor
  · rw [takeWhile_append_of_all _ X Y (fun x hx => by simp [hX x hx])]
    cases hYc : Y with
    | nil => simp
    | cons y tl =>
        have hny := hY y tl hYc
        simp [List.takeWhile_cons, hny]
  · rw [dropWhile_append_of_all _ X Y (fun x hx => by simp [hX x hx])]
    cases hYc : Y with
    | nil => simp
    | cons y tl =>
        have hny := hY y tl hYc
        simp [List.dropWhile_cons, hny]

theorem stub_flatten_shallow (i : Nat) (E : List LineRec)
    (hE : ∀ y tl, E = y :: tl → ¬ i < y.indent) :
    ∀ y tl, flattenForest (stubForest (buildForest E)) = y :: tl →
      ¬ i < y.indent := by
  intro y tl h
  cases hEc : E with
  | nil =>
      rw [hEc] at h
      rw [show buildForest [] = [] from rfl, stubForest_nil] at h
      simp [flattenForest] at h
  | cons e0 E' =>
      rw [hEc, buildForest_cons] at h
      rcases flatten_stubForest_head e0 _ _ with ⟨tl2, h2⟩
      rw [h2] at h
      cases h
      exact hE _ E' hEc

theorem flattenForest_nil : flattenForest [] = [] := by simp [flattenForest]

theorem toStmts_cons_none_right (l : LineRec) (kids rest : List LTree)
    (h : toStmts rest = none) :
    toStmts (LTree.node l kids :: rest) = none := by
  rw [toStmts_cons]
  cases hkk : l.kind with
  | blankLine => rfl
  | strLine s => cases he : kids.isEmpty <;> simp [he, h]
  | simpleLine => cases he : kids.isEmpty <;> simp [he, h]
  | defLine a n args =>
      cases kids with
      | nil => rfl
      | cons t kr =>
          cases t with
          | node k0 kk =>
              cases hs : siblingsAt k0.indent (LTree.node k0 kk :: kr) <;>
                cases hk : toStmts (LTree.node k0 kk :: kr) <;> simp [hs, hk, h]
  | classLine =>
      cases kids with
      | nil => rfl
      | cons t kr =>
          cases t with
          | node k0 kk =>
              cases hs : siblingsAt k0.indent (LTree.node k0 kk :: kr) <;>
                cases hk : toStmts (LTree.node k0 kk :: kr) <;> simp [hs, hk, h]
  | blockLine =>
      cases kids with
      | nil => rfl
      | cons t kr =>
          cases t with
          | node k0 kk =>
              cases hs : siblingsAt k0.indent (LTree.node k0 kk :: kr) <;>
                cases hk : toStmts (LTree.node k0 kk :: kr) <;> simp [hs, hk, h]

theorem toStmts_cons_none_left (l : LineRec) (kids rest : List LTree)
    (h : toStmts kids = none) :
    toStmts (LTree.node l kids :: rest) = none := by
  rw [toStmts_cons]
  cases hkk : l.kind with
  | blankLine => rfl
  | strLine s =>
      cases kids with
      | nil => rw [toStmts_nil] at h; exact absurd h (by simp)
      | cons t kr => simp
  | simpleLine =>
      cases kids with
      | nil => rw [toStmts_nil] at h; exact absurd h (by simp)
      | cons t kr => simp
  | defLine a n args =>
      cases kids with
      | nil => rfl
      | cons t kr =>
          cases t with
          | node k0 kk =>
              cases hs : siblingsAt k0.indent (LTree.node k0 kk :: kr) <;>
                cases hd : toStmts rest <;> simp [hs, h, hd]
  | classLine =>
      cases kids with
      | nil => rfl
      | cons t kr =>
          cases t with
          | node k0 kk =>
              cases hs : siblingsAt k0.indent (LTree.node k0 kk :: kr) <;>
                cases hd : toStmts rest <;> simp [hs, h, hd]
  | blockLine =>
      cases kids with
      | nil => rfl
      | cons t kr =>
          cases t with
          | node k0 kk =>
              cases hs : siblingsAt k0.indent (LTree.node k0 kk :: kr) <;>
                cases hd : toStmts rest <;> simp [hs, h, hd]

theorem needsStub_false_inv (ts : List LTree) (h : needsStub ts = false) :
    ∃ k0 kk kr s, ts = LTree.node k0 kk :: kr ∧ k0.kind = LineKind.strLine s := by
  match ts with
  | [] => simp [needsStub] at h
  | LTree.node k0 kk :: kr =>
      cases hkk : k0.kind with
      | strLine s => exact ⟨k0, kk, kr, s, rfl, hkk⟩
      | blankLine => simp [needsStub, hkk] at h
      | simpleLine => simp [needsStub, hkk] at h
      | defLine a n args => simp [needsStub, hkk] at h
      | classLine => simp [needsStub, hkk] at h
      | blockLine => simp [needsStub, hkk] at h

theorem needsStub_cons_false (k0 : LineRec) (kk : List LTree) (kr : List LTree)
    (s : String) (hkk : k0.kind = LineKind.strLine s) :
    needsStub (LTree.node k0 kk :: kr) = false := by
  simp [needsStub, hkk]

theorem rootIndents_cons_inv (ts : List LTree) (i : Nat) (is : List Nat)
    (h : rootIndents ts = i :: is) :
    ∃ l kids rest, ts = LTree.node l kids :: rest ∧ l.indent = i := by
  match ts with
  | [] => simp [rootIndents] at h
  | LTree.node l kids :: rest =>
      rw [rootIndents_cons] at h
      injection h with h1 h2
      exact ⟨l, kids, rest, rfl, h1⟩

theorem stubForest_cons_head (k0 : LineRec) (kk kr : List LTree) :
    ∃ kk2 kr2, stubForest (LTree.node k0 kk :: kr) = LTree.node k0 kk2 :: kr2 := by
  cases hkk : k0.kind with
  | defLine a n args =>
      cases hs : needsStub kk with
      | false => exact ⟨_, _, stubForest_cons_def_no k0 kk kr a n args hkk hs⟩
      | true => exact ⟨_, _, stubForest_cons_def_needs k0 kk kr a n args hkk hs⟩
  | classLine => exact ⟨_, _, stubForest_cons_class k0 kk kr hkk⟩
  | blankLine =>
      exact ⟨_, _, stubForest_cons_other k0 kk kr (by simp [hkk]) (by simp [hkk])⟩
  | strLine s =>
      exact ⟨_, _, stubForest_cons_other k0 kk kr (by simp [hkk]) (by simp [hkk])⟩
  | blockLine =>
      exact ⟨_, _, stubForest_cons_other k0 kk kr (by simp [hkk]) (by simp [hkk])⟩
  | simpleLine =>
      exact ⟨_, _, stubForest_cons_other k0 kk kr (by simp [hkk]) (by simp [hkk])⟩

/-- Core of the idempotence argument, one file segment at a time.  Let a
line segment parse successfully.  Stub insertion (seen on the forest) either
produces a segment that fails to parse (exactly when some stubbed def's
original body is not at `indent + 4`), or re-parses to the stubbed forest,
whose scan finds every function documented. -/
theorem stub_reparse_main : ∀ (n : Nat) (rs : List LineRec), rs.length ≤ n →
    ∀ stmts, toStmts (buildForest rs) = some stmts →
    (stubsFit (buildForest rs) = true →
        buildForest (flattenForest (stubForest (buildForest rs)))
            = stubForest (buildForest rs)
      ∧ rootIndents (stubForest (buildForest rs)) = rootIndents (buildForest rs)
      ∧ ∃ stmts2, toStmts (stubForest (buildForest rs)) = some stmts2
          ∧ ∀ fp : String, ∀ r ∈ _gather_functions fp stmts2,
              r.docstring.isSome = true) ∧
    (stubsFit (buildForest rs) = false →
        toStmts (buildForest (flattenForest (stubForest (buildForest rs)))) = none) := by
  intro n
  induction n with
  | zero =>
      intro rs hle stmts hsome
      match rs with
      | [] =>
          constructor
          · intro _
            refine ⟨?_, ?_, [], ?_, ?_⟩
            · rw [show buildForest ([] : List LineRec) = [] from rfl,
                stubForest_nil, flattenForest_nil]
              rfl
            · rw [show buildForest ([] : List LineRec) = [] from rfl, stubForest_nil]
            · rw [show buildForest ([] : List LineRec) = [] from rfl, stubForest_nil]
              exact toStmts_nil
            · intro fp r hr
              simp [_gather_functions] at hr
          · intro hf
            rw [show buildForest ([] : List LineRec) = [] from rfl, stubsFit_nil] at hf
            simp at hf
  | succ n ih =>
      intro rs hle stmts hsome
      match rs with
      | [] =>
          constructor
          · intro _
            refine ⟨?_, ?_, [], ?_, ?_⟩
            · rw [show buildForest ([] : List LineRec) = [] from rfl,
                stubForest_nil, flattenForest_nil]
              rfl
            · rw [show buildForest ([] : List LineRec) = [] from rfl, stubForest_nil]
            · rw [show buildForest ([] : List LineRec) = [] from rfl, stubForest_nil]
              exact toStmts_nil
            · intro fp r hr
              simp [_gather_functions] at hr
          · intro hf
            rw [show buildForest ([] : List LineRec) = [] from rfl, stubsFit_nil] at hf
            simp at hf
      | l :: rest =>
          have hrestlen : rest.length ≤ n := by
            simp at hle
            omega
          have hKlen : (rest.takeWhile (fun r => l.indent < r.indent)).length
              ≤ rest.length := (List.takeWhile_sublist _).length_le
          have hDlen : (rest.dropWhile (fun r => l.indent < r.indent)).length
              ≤ rest.length := (List.dropWhile_sublist _).length_le
          have hKabove : ∀ r ∈ rest.takeWhile (fun r => l.indent < r.indent),
              l.indent < r.indent := by
            intro r hr
            have := List.mem_takeWhile_imp hr
            simpa using this
          have hDshallow : ∀ y tl,
              rest.dropWhile (fun r => l.indent < r.indent) = y :: tl →
              ¬ l.indent < y.indent := by
            intro y tl hEq
            have := head_dropWhile_false _ rest y tl hEq
            simpa using this
          have hSDshallow := stub_flatten_shallow l.indent
            (rest.dropWhile (fun r => l.indent < r.indent)) hDshallow
          rw [buildForest_cons, toStmts_cons] at hsome
          rw [buildForest_cons]
          cases hkk : l.kind with
          | blankLine =>
              rw [hkk] at hsome
              simp at hsome
          | strLine s =>
              rw [hkk] at hsome
              simp only [] at hsome
              cases he : (buildForest
                  (rest.takeWhile (fun r => l.indent < r.indent))).isEmpty with
              | false => rw [he] at hsome; simp at hsome
              | true =>
                  rw [he] at hsome
                  simp only [if_pos] at hsome
                  cases hd : toStmts (buildForest
                      (rest.dropWhile (fun r => l.indent < r.indent))) with
                  | none => rw [hd] at hsome; simp at hsome
                  | some tl =>
                      have hbfk : buildForest
                          (rest.takeWhile (fun r => l.indent < r.indent)) = [] := by
                        cases hbk : buildForest
                            (rest.takeWhile (fun r => l.indent < r.indent)) with
                        | nil => rfl
                        | cons t ts => rw [hbk] at he; simp at he
                      rcases ih (rest.dropWhile (fun r => l.indent < r.indent))
                        (by omega) tl hd with ⟨ihA, ihB⟩
                      have hstubeq : stubForest (LTree.node l
                          (buildForest (rest.takeWhile (fun r => l.indent < r.indent)))
                          :: buildForest (rest.dropWhile (fun r => l.indent < r.indent)))
                          = LTree.node l
                              (buildForest (rest.takeWhile (fun r => l.indent < r.indent)))
                            :: stubForest (buildForest
                                (rest.dropWhile (fun r => l.indent < r.indent))) :=
                        stubForest_cons_other _ _ _ (by simp [hkk]) (by simp [hkk])
                      have hfiteq : stubsFit (LTree.node l
                          (buildForest (rest.takeWhile (fun r => l.indent < r.indent)))
                          :: buildForest (rest.dropWhile (fun r => l.indent < r.indent)))
                          = stubsFit (buildForest
                              (rest.dropWhile (fun r => l.indent < r.indent))) :=
                        stubsFit_cons_other _ _ _ (by simp [hkk]) (by simp [hkk])
                      have hflat : flattenForest (stubForest (LTree.node l
                          (buildForest (rest.takeWhile (fun r => l.indent < r.indent)))
                          :: buildForest (rest.dropWhile (fun r => l.indent < r.indent))))
                          = l :: flattenForest (stubForest (buildForest
                              (rest.dropWhile (fun r => l.indent < r.indent)))) := by
                        rw [hstubeq, flattenForest_cons, hbfk, flattenForest_nil]
                        simp
                      have hsplit := split_at_shallow l.indent []
                        (flattenForest (stubForest (buildForest
                          (rest.dropWhile (fun r => l.indent < r.indent)))))
                        (by intro x hx; simp at hx) hSDshallow
                      have hreb : buildForest (flattenForest (stubForest (LTree.node l
                          (buildForest (rest.takeWhile (fun r => l.indent < r.indent)))
                          :: buildForest (rest.dropWhile (fun r => l.indent < r.indent)))))
                          = LTree.node l []
                            :: buildForest (flattenForest (stubForest (buildForest
                              (rest.dropWhile (fun r => l.indent < r.indent))))) := by
                        rw [hflat, buildForest_cons]
                        simp only [List.nil_append] at hsplit
                        rw [hsplit.1, hsplit.2]
                        rfl
                      constructor
                      · intro hfit
                        rw [hfiteq] at hfit
                        rcases ihA hfit with ⟨hrebD, hrootsD, stmts2, hts2, hdoc2⟩
                        refine ⟨?_, ?_, Stmt.exprStr s :: stmts2, ?_, ?_⟩
                        · rw [hreb, hrebD, hstubeq, hbfk]
                        · rw [hstubeq, hbfk, rootIndents_cons, rootIndents_cons, hrootsD]
                        · rw [hstubeq, hbfk, toStmts_cons]
                          simp only [hkk]
                          simp [hts2]
                        · intro fp r hr
                          simp only [_gather_functions] at hr
                          exact hdoc2 fp r hr
                      · intro hfit
                        rw [hfiteq] at hfit
                        have hnone := ihB hfit
                        rw [hreb, toStmts_cons]
                        simp only [hkk]
                        simp [hnone]
          | simpleLine =>
              rw [hkk] at hsome
              simp only [] at hsome
              cases he : (buildForest
                  (rest.takeWhile (fun r => l.indent < r.indent))).isEmpty with
              | false => rw [he] at hsome; simp at hsome
              | true =>
                  rw [he] at hsome
                  simp only [if_pos] at hsome
                  cases hd : toStmts (buildForest
                      (rest.dropWhile (fun r => l.indent < r.indent))) with
                  | none => rw [hd] at hsome; simp at hsome
                  | some tl =>
                      have hbfk : buildForest
                          (rest.takeWhile (fun r => l.indent < r.indent)) = [] := by
                        cases hbk : buildForest
                            (rest.takeWhile (fun r => l.indent < r.indent)) with
                        | nil => rfl
                        | cons t ts => rw [hbk] at he; simp at he
                      rcases ih (rest.dropWhile (fun r => l.indent < r.indent))
                        (by omega) tl hd with ⟨ihA, ihB⟩
                      have hstubeq : stubForest (LTree.node l
                          (buildForest (rest.takeWhile (fun r => l.indent < r.indent)))
                          :: buildForest (rest.dropWhile (fun r => l.indent < r.indent)))
                          = LTree.node l
                              (buildForest (rest.takeWhile (fun r => l.indent < r.indent)))
                            :: stubForest (buildForest
                                (rest.dropWhile (fun r => l.indent < r.indent))) :=
                        stubForest_cons_other _ _ _ (by simp [hkk]) (by simp [hkk])
                      have hfiteq : stubsFit (LTree.node l
                          (buildForest (rest.takeWhile (fun r => l.indent < r.indent)))
                          :: buildForest (rest.dropWhile (fun r => l.indent < r.indent)))
                          = stubsFit (buildForest
                              (rest.dropWhile (fun r => l.indent < r.indent))) :=
                        stubsFit_cons_other _ _ _ (by simp [hkk]) (by simp [hkk])
                      have hflat : flattenForest (stubForest (LTree.node l
                          (buildForest (rest.takeWhile (fun r => l.indent < r.indent)))
                          :: buildForest (rest.dropWhile (fun r => l.indent < r.indent))))
                          = l :: flattenForest (stubForest (buildForest
                              (rest.dropWhile (fun r => l.indent < r.indent)))) := by
                        rw [hstubeq, flattenForest_cons, hbfk, flattenForest_nil]
                        simp
                      have hsplit := split_at_shallow l.indent []
                        (flattenForest (stubForest (buildForest
                          (rest.dropWhile (fun r => l.indent < r.indent)))))
                        (by intro x hx; simp at hx) hSDshallow
                      have hreb : buildForest (flattenForest (stubForest (LTree.node l
                          (buildForest (rest.takeWhile (fun r => l.indent < r.indent)))
                          :: buildForest (rest.dropWhile (fun r => l.indent < r.indent)))))
                          = LTree.node l []
                            :: buildForest (flattenForest (stubForest (buildForest
                              (rest.dropWhile (fun r => l.indent < r.indent))))) := by
                        rw [hflat, buildForest_cons]
                        simp only [List.nil_append] at hsplit
                        rw [hsplit.1, hsplit.2]
                        rfl
                      constructor
                      · intro hfit
                        rw [hfiteq] at hfit
                        rcases ihA hfit with ⟨hrebD, hrootsD, stmts2, hts2, hdoc2⟩
                        refine ⟨?_, ?_, Stmt.passStmt :: stmts2, ?_, ?_⟩
                        · rw [hreb, hrebD, hstubeq, hbfk]
                        · rw [hstubeq, hbfk, rootIndents_cons, rootIndents_cons, hrootsD]
                        · rw [hstubeq, hbfk, toStmts_cons]
                          simp only [hkk]
                          simp [hts2]
                        · intro fp r hr
                          simp only [_gather_functions] at hr
                          exact hdoc2 fp r hr
                      · intro hfit
                        rw [hfiteq] at hfit
                        have hnone := ihB hfit
                        rw [hreb, toStmts_cons]
                        simp only [hkk]
                        simp [hnone]
          | blockLine =>
              rw [hkk] at hsome
              simp only [] at hsome
              cases hkc : buildForest
                  (rest.takeWhile (fun r => l.indent < r.indent)) with
              | nil => rw [hkc] at hsome; simp at hsome
              | cons t kr =>
                  cases t with
                  | node k0 kk =>
                      rw [hkc] at hsome
                      simp only [] at hsome
                      rw [← hkc]
                      cases hsib : siblingsAt k0.indent (LTree.node k0 kk :: kr) with
                      | false => rw [hsib] at hsome; simp at hsome
                      | true =>
                          rw [hsib] at hsome
                          simp only [if_pos] at hsome
                          cases hkt : toStmts (LTree.node k0 kk :: kr) with
                          | none => rw [hkt] at hsome; simp at hsome
                          | some body =>
                              cases hd : toStmts (buildForest
                                  (rest.dropWhile (fun r => l.indent < r.indent))) with
                              | none => rw [hkt, hd] at hsome; simp at hsome
                              | some tl =>
                                  rcases ih (rest.dropWhile (fun r => l.indent < r.indent))
                                    (by omega) tl hd with ⟨ihA, ihB⟩
                                  have hstubeq : stubForest (LTree.node l
                                      (buildForest (rest.takeWhile (fun r => l.indent < r.indent)))
                                      :: buildForest (rest.dropWhile (fun r => l.indent < r.indent)))
                                      = LTree.node l
                                          (buildForest (rest.takeWhile (fun r => l.indent < r.indent)))
                                        :: stubForest (buildForest
                                            (rest.dropWhile (fun r => l.indent < r.indent))) :=
                                    stubForest_cons_other _ _ _ (by simp [hkk]) (by simp [hkk])
                                  have hfiteq : stubsFit (LTree.node l
                                      (buildForest (rest.takeWhile (fun r => l.indent < r.indent)))
                                      :: buildForest (rest.dropWhile (fun r => l.indent < r.indent)))
                                      = stubsFit (buildForest
                                          (rest.dropWhile (fun r => l.indent < r.indent))) :=
                                    stubsFit_cons_other _ _ _ (by simp [hkk]) (by simp [hkk])
                                  have hflat : flattenForest (stubForest (LTree.node l
                                      (buildForest (rest.takeWhile (fun r => l.indent < r.indent)))
                                      :: buildForest (rest.dropWhile (fun r => l.indent < r.indent))))
                                      = l :: ((rest.takeWhile (fun r => l.indent < r.indent))
                                          ++ flattenForest (stubForest (buildForest
                                            (rest.dropWhile (fun r => l.indent < r.indent))))) := by
                                    rw [hstubeq, flattenForest_cons, flatten_buildForest]
                                  have hsplit := split_at_shallow l.indent
                                    (rest.takeWhile (fun r => l.indent < r.indent))
                                    (flattenForest (stubForest (buildForest
                                      (rest.dropWhile (fun r => l.indent < r.indent)))))
                                    hKabove hSDshallow
                                  have hreb : buildForest (flattenForest (stubForest (LTree.node l
                                      (buildForest (rest.takeWhile (fun r => l.indent < r.indent)))
                                      :: buildForest (rest.dropWhile (fun r => l.indent < r.indent)))))
                                      = LTree.node l
                                          (buildForest (rest.takeWhile (fun r => l.indent < r.indent)))
                                        :: buildForest (flattenForest (stubForest (buildForest
                                            (rest.dropWhile (fun r => l.indent < r.indent))))) := by
                                    rw [hflat, buildForest_cons, hsplit.1, hsplit.2]
                                  constructor
                                  · intro hfit
                                    rw [hfiteq] at hfit
                                    rcases ihA hfit with ⟨hrebD, hrootsD, stmts2D, hts2D, hdocD⟩
                                    refine ⟨?_, ?_, Stmt.ifStmt body [] :: stmts2D, ?_, ?_⟩
                                    · rw [hreb, hrebD, hstubeq]
                                    · rw [hstubeq, rootIndents_cons, rootIndents_cons, hrootsD]
                                    · rw [hstubeq, toStmts_cons]
                                      simp only [hkk]
                                      rw [hkc]
                                      simp [hsib, hkt, hts2D]
                                    · intro fp r hr
                                      simp only [_gather_functions] at hr
                                      exact hdocD fp r hr
                                  · intro hfit
                                    rw [hfiteq] at hfit
                                    have hnone := ihB hfit
                                    rw [hreb]
                                    exact toStmts_cons_none_right _ _ _ hnone
          | classLine =>
              rw [hkk] at hsome
              simp only [] at hsome
              cases hkc : buildForest
                  (rest.takeWhile (fun r => l.indent < r.indent)) with
              | nil => rw [hkc] at hsome; simp at hsome
              | cons t kr =>
                  cases t with
                  | node k0 kk =>
                      rw [hkc] at hsome
                      simp only [] at hsome
                      rw [← hkc]
                      cases hsib : siblingsAt k0.indent (LTree.node k0 kk :: kr) with
                      | false => rw [hsib] at hsome; simp at hsome
                      | true =>
                          rw [hsib] at hsome
                          simp only [if_pos] at hsome
                          cases hkt : toStmts (LTree.node k0 kk :: kr) with
                          | none => rw [hkt] at hsome; simp at hsome
                          | some body =>
                              cases hd : toStmts (buildForest
                                  (rest.dropWhile (fun r => l.indent < r.indent))) with
                              | none => rw [hkt, hd] at hsome; simp at hsome
                              | some tl =>
                                  have hktK : toStmts (buildForest
                                      (rest.takeWhile (fun r => l.indent < r.indent)))
                                      = some body := by rw [hkc]; exact hkt
                                  rcases ih (rest.takeWhile (fun r => l.indent < r.indent))
                                    (by omega) body hktK with ⟨ihKA, ihKB⟩
                                  rcases ih (rest.dropWhile (fun r => l.indent < r.indent))
                                    (by omega) tl hd with ⟨ihA, ihB⟩
                                  have hstubeq : stubForest (LTree.node l
                                      (buildForest (rest.takeWhile (fun r => l.indent < r.indent)))
                                      :: buildForest (rest.dropWhile (fun r => l.indent < r.indent)))
                                      = LTree.node l
                                          (stubForest (buildForest
                                            (rest.takeWhile (fun r => l.indent < r.indent))))
                                        :: stubForest (buildForest
                                            (rest.dropWhile (fun r => l.indent < r.indent))) :=
                                    stubForest_cons_class _ _ _ hkk
                                  have hfiteq : stubsFit (LTree.node l
                                      (buildForest (rest.takeWhile (fun r => l.indent < r.indent)))
                                      :: buildForest (rest.dropWhile (fun r => l.indent < r.indent)))
                                      = (stubsFit (buildForest
                                            (rest.takeWhile (fun r => l.indent < r.indent)))
                                        && stubsFit (buildForest
                                            (rest.dropWhile (fun r => l.indent < r.indent)))) :=
                                    stubsFit_cons_class _ _ _ hkk
                                  have hdeep : ∀ r ∈ flattenForest (stubForest (buildForest
                                      (rest.takeWhile (fun r => l.indent < r.indent)))),
                                      l.indent < r.indent := by
                                    apply flatten_stubForest_above
                                    rw [flatten_buildForest]
                                    exact hKabove
                                  have hflat : flattenForest (stubForest (LTree.node l
                                      (buildForest (rest.takeWhile (fun r => l.indent < r.indent)))
                                      :: buildForest (rest.dropWhile (fun r => l.indent < r.indent))))
                                      = l :: (flattenForest (stubForest (buildForest
                                            (rest.takeWhile (fun r => l.indent < r.indent))))
                                          ++ flattenForest (stubForest (buildForest
                                            (rest.dropWhile (fun r => l.indent < r.indent))))) := by
                                    rw [hstubeq, flattenForest_cons]
                                  have hsplit := split_at_shallow l.indent
                                    (flattenForest (stubForest (buildForest
                                      (rest.takeWhile (fun r => l.indent < r.indent)))))
                                    (flattenForest (stubForest (buildForest
                                      (rest.dropWhile (fun r => l.indent < r.indent)))))
                                    hdeep hSDshallow
                                  have hreb : buildForest (flattenForest (stubForest (LTree.node l
                                      (buildForest (rest.takeWhile (fun r => l.indent < r.indent)))
                                      :: buildForest (rest.dropWhile (fun r => l.indent < r.indent)))))
                                      = LTree.node l
                                          (buildForest (flattenForest (stubForest (buildForest
                                            (rest.takeWhile (fun r => l.indent < r.indent))))))
                                        :: buildForest (flattenForest (stubForest (buildForest
                                            (rest.dropWhile (fun r => l.indent < r.indent))))) := by
                                    rw [hflat, buildForest_cons, hsplit.1, hsplit.2]
                                  constructor
                                  · intro hfit
                                    rw [hfiteq, Bool.and_eq_true] at hfit
                                    rcases hfit with ⟨hfK, hfD⟩
                                    rcases ihKA hfK with ⟨hrebK, hrootsK, body2, hts2K, hdocK⟩
                                    rcases ihA hfD with ⟨hrebD, hrootsD, stmts2D, hts2D, hdocD⟩
                                    rcases stubForest_cons_head k0 kk kr with ⟨kk2, kr2, hsf⟩
                                    rw [hkc, hsf] at hts2K
                                    rw [hkc, hsf] at hrootsK
                                    have hsibs2 : siblingsAt k0.indent
                                        (LTree.node k0 kk2 :: kr2) = true := by
                                      rw [siblingsAt_congr k0.indent hrootsK]
                                      exact hsib
                                    refine ⟨?_, ?_, Stmt.classDef "" body2 :: stmts2D, ?_, ?_⟩
                                    · rw [hreb, hrebK, hrebD, hstubeq]
                                    · rw [hstubeq, rootIndents_cons, rootIndents_cons, hrootsD]
                                    · rw [hstubeq, toStmts_cons]
                                      simp only [hkk]
                                      rw [hkc, hsf]
                                      simp [hsibs2, hts2K, hts2D]
                                    · intro fp r hr
                                      simp only [_gather_functions] at hr
                                      rcases List.mem_append.1 hr with hr | hr
                                      · exact hdocK fp r hr
                                      · exact hdocD fp r hr
                                  · intro hfit
                                    rw [hfiteq] at hfit
                                    cases hfK : stubsFit (buildForest
                                        (rest.takeWhile (fun r => l.indent < r.indent))) with
                                    | false =>
                                        have hnone := ihKB hfK
                                        rw [hreb]
                                        exact toStmts_cons_none_left _ _ _ hnone
                                    | true =>
                                        have hfD : stubsFit (buildForest
                                            (rest.dropWhile (fun r => l.indent < r.indent)))
                                            = false := by
                                          rw [hfK] at hfit
                                          simpa using hfit
                                        have hnone := ihB hfD
                                        rw [hreb]
                                        exact toStmts_cons_none_right _ _ _ hnone
          | defLine a nm args =>
              rw [hkk] at hsome
              simp only [] at hsome
              cases hkc : buildForest (rest.takeWhile (fun r => l.indent < r.indent)) with
              | nil => rw [hkc] at hsome; simp at hsome
              | cons t kr =>
                  cases t with
                  | node k0 kk =>
                      rw [hkc] at hsome
                      simp only [] at hsome
                      rw [← hkc]
                      cases hsib : siblingsAt k0.indent (LTree.node k0 kk :: kr) with
                      | false => rw [hsib] at hsome; simp at hsome
                      | true =>
                          rw [hsib] at hsome
                          simp only [if_pos] at hsome
                          cases hkt : toStmts (LTree.node k0 kk :: kr) with
                          | none => rw [hkt] at hsome; simp at hsome
                          | some body =>
                              cases hd : toStmts (buildForest (rest.dropWhile (fun r => l.indent < r.indent))) with
                              | none => rw [hkt, hd] at hsome; simp at hsome
                              | some tl =>
                                  have hktK : toStmts (buildForest (rest.takeWhile (fun r => l.indent < r.indent))) = some body := by
                                    rw [hkc]; exact hkt
                                  rcases ih (rest.takeWhile (fun r => l.indent < r.indent)) (by omega) body hktK with ⟨ihKA, ihKB⟩
                                  rcases ih (rest.dropWhile (fun r => l.indent < r.indent)) (by omega) tl hd with ⟨ihA, ihB⟩
                                  have hdeep : ∀ r ∈ flattenForest (stubForest (buildForest (rest.takeWhile (fun r => l.indent < r.indent)))), l.indent < r.indent := by
                                    apply flatten_stubForest_above
                                    rw [flatten_buildForest]
                                    exact hKabove
                                  have hflhead : ∃ tl2, flattenForest (stubForest (buildForest (rest.takeWhile (fun r => l.indent < r.indent)))) = k0 :: tl2 := by
                                    rw [hkc]
                                    exact flatten_stubForest_head k0 kk kr
                                  rcases hflhead with ⟨tl2, hfl⟩
                                  cases hns : needsStub (buildForest (rest.takeWhile (fun r => l.indent < r.indent))) with
                                  | false =>
                                      have hns2 : needsStub (LTree.node k0 kk :: kr) = false := by
                                        rw [← hkc]; exact hns
                                      obtain ⟨s0, hk0s⟩ : ∃ s0, k0.kind = LineKind.strLine s0 := by
                                        cases hkind0 : k0.kind with
                                        | strLine s => exact ⟨s, rfl⟩
                                        | blankLine => simp [needsStub, hkind0] at hns2
                                        | simpleLine => simp [needsStub, hkind0] at hns2
                                        | blockLine => simp [needsStub, hkind0] at hns2
                                        | classLine => simp [needsStub, hkind0] at hns2
                                        | defLine a2 n2 args2 => simp [needsStub, hkind0] at hns2
                                      have hstubeq : stubForest (LTree.node l (buildForest (rest.takeWhile (fun r => l.indent < r.indent))) :: buildForest (rest.dropWhile (fun r => l.indent < r.indent)))
                                          = LTree.node l (stubForest (buildForest (rest.takeWhile (fun r => l.indent < r.indent)))) :: stubForest (buildForest (rest.dropWhile (fun r => l.indent < r.indent))) :=
                                        stubForest_cons_def_no _ _ _ a nm args hkk hns
                                      have hfiteq : stubsFit (LTree.node l (buildForest (rest.takeWhile (fun r => l.indent < r.indent))) :: buildForest (rest.dropWhile (fun r => l.indent < r.indent)))
                                          = (stubsFit (buildForest (rest.takeWhile (fun r => l.indent < r.indent))) && stubsFit (buildForest (rest.dropWhile (fun r => l.indent < r.indent)))) := by
                                        rw [stubsFit_cons_def _ _ _ a nm args hkk, hns]
                                        simp
                                      have hsf2 : stubForest (LTree.node k0 kk :: kr)
                                          = LTree.node k0 kk :: stubForest kr :=
                                        stubForest_cons_other _ _ _ (by simp [hk0s]) (by simp [hk0s])
                                      have hflat : flattenForest (stubForest (LTree.node l (buildForest (rest.takeWhile (fun r => l.indent < r.indent))) :: buildForest (rest.dropWhile (fun r => l.indent < r.indent))))
                                          = l :: (flattenForest (stubForest (buildForest (rest.takeWhile (fun r => l.indent < r.indent)))) ++ flattenForest (stubForest (buildForest (rest.dropWhile (fun r => l.indent < r.indent))))) := by
                                        rw [hstubeq, flattenForest_cons]
                                      have hsplit := split_at_shallow l.indent
                                        (flattenForest (stubForest (buildForest (rest.takeWhile (fun r => l.indent < r.indent))))) (flattenForest (stubForest (buildForest (rest.dropWhile (fun r => l.indent < r.indent))))) hdeep hSDshallow
                                      have hreb : buildForest (flattenForest (stubForest (LTree.node l (buildForest (rest.takeWhile (fun r => l.indent < r.indent))) :: buildForest (rest.dropWhile (fun r => l.indent < r.indent)))))
                                          = LTree.node l (buildForest (flattenForest (stubForest (buildForest (rest.takeWhile (fun r => l.indent < r.indent))))))
                                            :: buildForest (flattenForest (stubForest (buildForest (rest.dropWhile (fun r => l.indent < r.indent))))) := by
                                        rw [hflat, buildForest_cons, hsplit.1, hsplit.2]
                                      constructor
                                      · intro hfit
                                        rw [hfiteq, Bool.and_eq_true] at hfit
                                        rcases hfit with ⟨hfK, hfD⟩
                                        rcases ihKA hfK with ⟨hrebK, hrootsK, body2, hts2K, hdocK⟩
                                        rcases ihA hfD with ⟨hrebD, hrootsD, stmts2D, hts2D, hdocD⟩
                                        rw [hkc, hsf2] at hts2K hrootsK
                                        have hsibs2 : siblingsAt k0.indent
                                            (LTree.node k0 kk :: stubForest kr) = true := by
                                          rw [siblingsAt_congr k0.indent hrootsK]
                                          exact hsib
                                        obtain ⟨b2tl, hb2⟩ : ∃ b2tl, body2 = Stmt.exprStr s0 :: b2tl := by
                                          have hts2K2 := hts2K
                                          rw [toStmts_cons] at hts2K2
                                          simp only [hk0s] at hts2K2
                                          cases hke : kk.isEmpty with
                                          | false => rw [hke] at hts2K2; simp at hts2K2
                                          | true =>
                                              rw [hke] at hts2K2
                                              simp only [if_pos] at hts2K2
                                              cases hkrT : toStmts (stubForest kr) with
                                              | none => rw [hkrT] at hts2K2; simp at hts2K2
                                              | some b2tl =>
                                                  rw [hkrT] at hts2K2
                                                  simp at hts2K2
                                                  exact ⟨b2tl, hts2K2.symm⟩
                                        subst hb2
                                        refine ⟨?_, ?_, Stmt.functionDef a nm args l.lineno l.indent
                                            (Stmt.exprStr s0 :: b2tl) :: stmts2D, ?_, ?_⟩
                                        · rw [hreb, hrebK, hrebD, hstubeq]
                                        · rw [hstubeq, rootIndents_cons, rootIndents_cons, hrootsD]
                                        · rw [hstubeq, toStmts_cons]
                                          simp only [hkk]
                                          rw [hkc, hsf2]
                                          simp [hsibs2, hts2K, hts2D]
                                        · intro fp r hr
                                          simp only [_gather_functions] at hr
                                          rcases List.mem_cons.1 hr with rfl | hr
                                          · simp [get_docstring]
                                          · rcases List.mem_append.1 hr with hr | hr
                                            · exact hdocK fp r
                                                (by simp only [_gather_functions]; exact hr)
                                            · exact hdocD fp r hr
                                      · intro hfit
                                        rw [hfiteq] at hfit
                                        cases hfK : stubsFit (buildForest (rest.takeWhile (fun r => l.indent < r.indent))) with
                                        | false =>
                                            have hnone := ihKB hfK
                                            rw [hreb]
                                            exact toStmts_cons_none_left _ _ _ hnone
                                        | true =>
                                            have hfD : stubsFit (buildForest (rest.dropWhile (fun r => l.indent < r.indent))) = false := by
                                              rw [hfK] at hfit
                                              simpa using hfit
                                            have hnone := ihB hfD
                                            rw [hreb]
                                            exact toStmts_cons_none_right _ _ _ hnone
                                  | true =>
                                      have hstubeq : stubForest (LTree.node l (buildForest (rest.takeWhile (fun r => l.indent < r.indent))) :: buildForest (rest.dropWhile (fun r => l.indent < r.indent)))
                                          = LTree.node l (LTree.node (stubRecFor l nm) []
                                              :: stubForest (buildForest (rest.takeWhile (fun r => l.indent < r.indent)))) :: stubForest (buildForest (rest.dropWhile (fun r => l.indent < r.indent))) :=
                                        stubForest_cons_def_needs _ _ _ a nm args hkk hns
                                      have hfiteq : stubsFit (LTree.node l (buildForest (rest.takeWhile (fun r => l.indent < r.indent))) :: buildForest (rest.dropWhile (fun r => l.indent < r.indent)))
                                          = ((fitHead (l.indent + 4) (buildForest (rest.takeWhile (fun r => l.indent < r.indent)))
                                              && stubsFit (buildForest (rest.takeWhile (fun r => l.indent < r.indent)))) && stubsFit (buildForest (rest.dropWhile (fun r => l.indent < r.indent)))) := by
                                        rw [stubsFit_cons_def _ _ _ a nm args hkk, hns]
                                        simp
                                      have hdeepS : ∀ r ∈ stubRecFor l nm :: flattenForest (stubForest (buildForest (rest.takeWhile (fun r => l.indent < r.indent)))),
                                          l.indent < r.indent := by
                                        intro r hr
                                        rcases List.mem_cons.1 hr with rfl | hr
                                        · simp [stubRecFor]
                                        · exact hdeep r hr
                                      have hflat : flattenForest (stubForest (LTree.node l (buildForest (rest.takeWhile (fun r => l.indent < r.indent))) :: buildForest (rest.dropWhile (fun r => l.indent < r.indent))))
                                          = l :: ((stubRecFor l nm :: flattenForest (stubForest (buildForest (rest.takeWhile (fun r => l.indent < r.indent))))) ++ flattenForest (stubForest (buildForest (rest.dropWhile (fun r => l.indent < r.indent))))) := by
                                        rw [hstubeq, flattenForest_cons, flattenForest_cons,
                                          flattenForest_nil, List.nil_append]
                                      have hsplit := split_at_shallow l.indent
                                        (stubRecFor l nm :: flattenForest (stubForest (buildForest (rest.takeWhile (fun r => l.indent < r.indent))))) (flattenForest (stubForest (buildForest (rest.dropWhile (fun r => l.indent < r.indent))))) hdeepS hSDshallow
                                      have hreb0 : buildForest (flattenForest (stubForest (LTree.node l (buildForest (rest.takeWhile (fun r => l.indent < r.indent))) :: buildForest (rest.dropWhile (fun r => l.indent < r.indent)))))
                                          = LTree.node l (buildForest (stubRecFor l nm :: flattenForest (stubForest (buildForest (rest.takeWhile (fun r => l.indent < r.indent))))))
                                            :: buildForest (flattenForest (stubForest (buildForest (rest.dropWhile (fun r => l.indent < r.indent))))) := by
                                        rw [hflat, buildForest_cons, hsplit.1, hsplit.2]
                                      constructor
                                      · intro hfit
                                        rw [hfiteq, Bool.and_eq_true] at hfit
                                        rcases hfit with ⟨hfit1, hfD⟩
                                        rw [Bool.and_eq_true] at hfit1
                                        rcases hfit1 with ⟨hfh, hfK⟩
                                        have hk0i : k0.indent = l.indent + 4 := by
                                          rw [hkc] at hfh
                                          simpa [fitHead] using hfh
                                        rcases ihKA hfK with ⟨hrebK, hrootsK, body2, hts2K, hdocK⟩
                                        rcases ihA hfD with ⟨hrebD, hrootsD, stmts2D, hts2D, hdocD⟩
                                        have hnlt : ¬ (stubRecFor l nm).indent < k0.indent := by
                                          simp [stubRecFor, hk0i]
                                        have htw : List.takeWhile
                                            (fun r => (stubRecFor l nm).indent < r.indent)
                                            (flattenForest (stubForest (buildForest (rest.takeWhile (fun r => l.indent < r.indent))))) = [] := by
                                          rw [hfl]
                                          simp [List.takeWhile_cons, hnlt]
                                        have hdw : List.dropWhile
                                            (fun r => (stubRecFor l nm).indent < r.indent)
                                            (flattenForest (stubForest (buildForest (rest.takeWhile (fun r => l.indent < r.indent))))) = flattenForest (stubForest (buildForest (rest.takeWhile (fun r => l.indent < r.indent)))) := by
                                          rw [hfl]
                                          simp [List.dropWhile_cons, hnlt]
                                        have hin : buildForest (stubRecFor l nm :: flattenForest (stubForest (buildForest (rest.takeWhile (fun r => l.indent < r.indent)))))
                                            = LTree.node (stubRecFor l nm) []
                                              :: buildForest (flattenForest (stubForest (buildForest (rest.takeWhile (fun r => l.indent < r.indent))))) := by
                                          rw [buildForest_cons, htw, hdw]
                                          rfl
                                        have hsibS : siblingsAt (stubRecFor l nm).indent
                                            (LTree.node (stubRecFor l nm) [] :: stubForest (buildForest (rest.takeWhile (fun r => l.indent < r.indent)))) = true := by
                                          simp only [siblingsAt]
                                          rw [Bool.and_eq_true]
                                          refine ⟨by simp, ?_⟩
                                          rw [siblingsAt_congr _ hrootsK]
                                          have hi : (stubRecFor l nm).indent = k0.indent := by
                                            simp [stubRecFor, hk0i]
                                          rw [hi, hkc]
                                          exact hsib
                                        have hkidsT : toStmts (LTree.node (stubRecFor l nm) []
                                            :: stubForest (buildForest (rest.takeWhile (fun r => l.indent < r.indent))))
                                            = some (Stmt.exprStr (stubText nm) :: body2) := by
                                          rw [toStmts_cons]
                                          simp [stubRecFor, hts2K]
                                        refine ⟨?_, ?_, Stmt.functionDef a nm args l.lineno l.indent
                                            (Stmt.exprStr (stubText nm) :: body2) :: stmts2D,
                                            ?_, ?_⟩
                                        · rw [hreb0, hin, hrebK, hrebD, hstubeq]
                                        · rw [hstubeq, rootIndents_cons, rootIndents_cons, hrootsD]
                                        · rw [hstubeq, toStmts_cons]
                                          simp only [hkk]
                                          simp [hsibS, hkidsT, hts2D]
                                        · intro fp r hr
                                          simp only [_gather_functions] at hr
                                          rcases List.mem_cons.1 hr with rfl | hr
                                          · simp [get_docstring]
                                          · rcases List.mem_append.1 hr with hr | hr
                                            · exact hdocK fp r hr
                                            · exact hdocD fp r hr
                                      · intro hfit
                                        rw [hfiteq] at hfit
                                        cases hfh : fitHead (l.indent + 4) (buildForest (rest.takeWhile (fun r => l.indent < r.indent))) with
                                        | true =>
                                            have hk0i : k0.indent = l.indent + 4 := by
                                              rw [hkc] at hfh
                                              simpa [fitHead] using hfh
                                            have hnlt : ¬ (stubRecFor l nm).indent < k0.indent := by
                                              simp [stubRecFor, hk0i]
                                            have htw : List.takeWhile
                                                (fun r => (stubRecFor l nm).indent < r.indent)
                                                (flattenForest (stubForest (buildForest (rest.takeWhile (fun r => l.indent < r.indent))))) = [] := by
                                              rw [hfl]
                                              simp [List.takeWhile_cons, hnlt]
                                            have hdw : List.dropWhile
                                                (fun r => (stubRecFor l nm).indent < r.indent)
                                                (flattenForest (stubForest (buildForest (rest.takeWhile (fun r => l.indent < r.indent))))) = flattenForest (stubForest (buildForest (rest.takeWhile (fun r => l.indent < r.indent)))) := by
                                              rw [hfl]
                                              simp [List.dropWhile_cons, hnlt]
                                            have hin : buildForest (stubRecFor l nm :: flattenForest (stubForest (buildForest (rest.takeWhile (fun r => l.indent < r.indent)))))
                                                = LTree.node (stubRecFor l nm) []
                                                  :: buildForest (flattenForest (stubForest (buildForest (rest.takeWhile (fun r => l.indent < r.indent))))) := by
                                              rw [buildForest_cons, htw, hdw]
                                              rfl
                                            cases hfK : stubsFit (buildForest (rest.takeWhile (fun r => l.indent < r.indent))) with
                                            | false =>
                                                have hnone := ihKB hfK
                                                have hkidsN : toStmts (LTree.node (stubRecFor l nm) []
                                                    :: buildForest (flattenForest (stubForest (buildForest (rest.takeWhile (fun r => l.indent < r.indent)))))) = none :=
                                                  toStmts_cons_none_right _ _ _ hnone
                                                rw [hreb0, hin]
                                                exact toStmts_cons_none_left _ _ _ hkidsN
                                            | true =>
                                                have hfD : stubsFit (buildForest (rest.dropWhile (fun r => l.indent < r.indent))) = false := by
                                                  rw [hfh, hfK] at hfit
                                                  simpa using hfit
                                                have hnone := ihB hfD
                                                rw [hreb0]
                                                exact toStmts_cons_none_right _ _ _ hnone
                                        | false =>
                                            have hne : ¬ k0.indent = l.indent + 4 := by
                                              rw [hkc] at hfh
                                              simpa [fitHead] using hfh
                                            rcases Nat.lt_or_ge (l.indent + 4) k0.indent
                                              with hgt | hle4
                                            · have hsibK : siblingsAt k0.indent (buildForest (rest.takeWhile (fun r => l.indent < r.indent))) = true := by
                                                rw [hkc]
                                                exact hsib
                                              have hall : ∀ r ∈ rest.takeWhile (fun r => l.indent < r.indent), k0.indent ≤ r.indent :=
                                                all_ge_of_siblings k0.indent (rest.takeWhile (fun r => l.indent < r.indent)).length
                                                  (rest.takeWhile (fun r => l.indent < r.indent)) (le_refl _) hsibK
                                              have hdeep4 : ∀ r ∈ flattenForest (stubForest (buildForest (rest.takeWhile (fun r => l.indent < r.indent)))),
                                                  l.indent + 4 < r.indent := by
                                                apply flatten_stubForest_above
                                                rw [flatten_buildForest]
                                                intro r hr
                                                have := hall r hr
                                                omega
                                              have htw : List.takeWhile
                                                  (fun r => (stubRecFor l nm).indent < r.indent)
                                                  (flattenForest (stubForest (buildForest (rest.takeWhile (fun r => l.indent < r.indent))))) = flattenForest (stubForest (buildForest (rest.takeWhile (fun r => l.indent < r.indent)))) := by
                                                apply takeWhile_all_true
                                                intro x hx
                                                simp [stubRecFor]
                                                exact hdeep4 x hx
                                              have hdw : List.dropWhile
                                                  (fun r => (stubRecFor l nm).indent < r.indent)
                                                  (flattenForest (stubForest (buildForest (rest.takeWhile (fun r => l.indent < r.indent))))) = [] := by
                                                apply dropWhile_all_true
                                                intro x hx
                                                simp [stubRecFor]
                                                exact hdeep4 x hx
                                              have hin : buildForest (stubRecFor l nm :: flattenForest (stubForest (buildForest (rest.takeWhile (fun r => l.indent < r.indent)))))
                                                  = [LTree.node (stubRecFor l nm)
                                                      (buildForest (flattenForest (stubForest (buildForest (rest.takeWhile (fun r => l.indent < r.indent))))))] := by
                                                rw [buildForest_cons, htw, hdw]
                                                rfl
                                              have hXne : (buildForest (flattenForest (stubForest (buildForest (rest.takeWhile (fun r => l.indent < r.indent)))))).isEmpty
                                                  = false := by
                                                rw [hfl, buildForest_cons]
                                                rfl
                                              have hkidsN : toStmts [LTree.node (stubRecFor l nm)
                                                  (buildForest (flattenForest (stubForest (buildForest (rest.takeWhile (fun r => l.indent < r.indent))))))] = none := by
                                                rw [toStmts_cons]
                                                simp [stubRecFor, hXne]
                                              rw [hreb0, hin]
                                              exact toStmts_cons_none_left _ _ _ hkidsN
                                            · have hnlt : ¬ (stubRecFor l nm).indent
                                                  < k0.indent := by
                                                simp [stubRecFor]
                                                omega
                                              have htw : List.takeWhile
                                                  (fun r => (stubRecFor l nm).indent < r.indent)
                                                  (flattenForest (stubForest (buildForest (rest.takeWhile (fun r => l.indent < r.indent))))) = [] := by
                                                rw [hfl]
                                                simp [List.takeWhile_cons, hnlt]
                                              have hdw : List.dropWhile
                                                  (fun r => (stubRecFor l nm).indent < r.indent)
                                                  (flattenForest (stubForest (buildForest (rest.takeWhile (fun r => l.indent < r.indent))))) = flattenForest (stubForest (buildForest (rest.takeWhile (fun r => l.indent < r.indent)))) := by
                                                rw [hfl]
                                                simp [List.dropWhile_cons, hnlt]
                                              have hin : buildForest (stubRecFor l nm :: flattenForest (stubForest (buildForest (rest.takeWhile (fun r => l.indent < r.indent)))))
                                                  = LTree.node (stubRecFor l nm) []
                                                    :: buildForest (flattenForest (stubForest (buildForest (rest.takeWhile (fun r => l.indent < r.indent))))) := by
                                                rw [buildForest_cons, htw, hdw]
                                                rfl
                                              have hsibF : siblingsAt (stubRecFor l nm).indent
                                                  (LTree.node (stubRecFor l nm) []
                                                    :: buildForest (flattenForest (stubForest (buildForest (rest.takeWhile (fun r => l.indent < r.indent)))))) = false := by
                                                rw [hfl, buildForest_cons]
                                                simp only [siblingsAt]
                                                have h2 : ¬ (k0.indent
                                                    = (stubRecFor l nm).indent) := by
                                                  simp [stubRecFor]
                                                  omega
                                                simp [h2]
                                              rw [hreb0, hin, toStmts_cons]
                                              simp only [hkk]
                                              simp [hsibF]

/-
The per-file insertion rewritten as a single left-to-right interleaving.
`insertStubsIntoLines` applies the stubs bottom-up (descending line
number); when the eligible records are listed in strictly ascending line
order the result is a one-pass weave: walk the lines with a running
1-based position, and after the line at each record's `lineno` emit that
record's stub line.
-/

/-- One-pass bottom-of-header stub insertion: `n` is the 1-based position
of the first line of `ls`. -/
def weave (n : Nat) : List (List Char) → List FunctionInfo → List (List Char)
  | ls, [] => ls
  | [], _ :: _ => []
  | l :: ls, u :: us =>
      if u.lineno = n then l :: stubLine u :: weave (n + 1) ls us
      else l :: weave (n + 1) ls (u :: us)

/-- The classified-record image of the same weave: after each header
record named by a stub record, the stub's classified line. -/
def weaveRecs : List LineRec → List FunctionInfo → List LineRec
  | rs, [] => rs
  | [], _ :: _ => []
  | r :: rs, u :: us =>
      if u.lineno = r.lineno then r :: stubRecFor r u.name :: weaveRecs rs us
      else r :: weaveRecs rs (u :: us)

theorem weave_nil (n : Nat) (ls : List (List Char)) : weave n ls [] = ls := by
  cases ls <;> rfl

theorem weaveRecs_nil (rs : List LineRec) : weaveRecs rs [] = rs := by
  cases rs <;> rfl

theorem pyInsert_cons (l : List Char) (ls : List (List Char)) (m : Nat)
    (a : List Char) : pyInsert (l :: ls) (m + 1) a = l :: pyInsert ls m a := by
  simp [pyInsert]

theorem insertDesc_append_of_all_gt (u : FunctionInfo) :
    ∀ l : List FunctionInfo, (∀ g ∈ l, u.lineno < g.lineno) →
    insertDesc u l = l ++ [u] := by
  intro l
  induction l with
  | nil => intro _; rfl
  | cons g gs ih =>
      intro h
      have hg : u.lineno < g.lineno := h g (by simp)
      simp only [insertDesc]
      rw [if_neg (by omega)]
      rw [ih (fun x hx => h x (by simp [hx]))]
      simp

theorem sortDesc_of_ascending : ∀ us : List FunctionInfo,
    List.Pairwise (fun a b => a.lineno < b.lineno) us →
    sortDescByLineno us = us.reverse := by
  intro us
  induction us with
  | nil => intro _; rfl
  | cons u rest ih =>
      intro h
      rcases List.pairwise_cons.1 h with ⟨hu, hrest⟩
      simp only [sortDescByLineno]
      rw [ih hrest, insertDesc_append_of_all_gt u _
        (fun g hg => hu g (List.mem_reverse.1 hg))]
      simp

theorem weave_insert_smallest (u : FunctionInfo) :
    ∀ (L : List (List Char)) (n : Nat) (us : List FunctionInfo),
    (∀ v ∈ us, u.lineno < v.lineno) → n ≤ u.lineno → u.lineno - n < L.length →
    weave n L (u :: us) = pyInsert (weave n L us) (u.lineno + 1 - n) (stubLine u) := by
  intro L
  induction L with
  | nil =>
      intro n us _ _ hh
      simp at hh
  | cons l ls ih =>
      intro n us hal hlow hh
      by_cases hn : u.lineno = n
      · simp only [weave, hn, if_pos]
        rw [show n + 1 - n = 1 from by omega]
        cases us with
        | nil =>
            rw [weave_nil, weave_nil]
            simp [pyInsert]
        | cons v vs =>
            have hv : ¬ v.lineno = n := by
              have := hal v (by simp)
              omega
            simp only [weave]
            rw [if_neg hv]
            simp [pyInsert]
      · have hlow2 : n + 1 ≤ u.lineno := by omega
        simp only [weave]
        rw [if_neg hn]
        have hidx : u.lineno + 1 - n = (u.lineno + 1 - (n + 1)) + 1 := by omega
        cases us with
        | nil =>
            rw [weave_nil, hidx, pyInsert_cons]
            have hih := ih (n + 1) [] (by simp) hlow2 (by simp at hh ⊢; omega)
            rw [weave_nil] at hih
            rw [hih]
        | cons v vs =>
            have hv : ¬ v.lineno = n := by
              have := hal v (by simp)
              omega
            conv_rhs => rw [show weave n (l :: ls) (v :: vs)
              = l :: weave (n + 1) ls (v :: vs) from by
                simp only [weave]
                rw [if_neg hv]]
            rw [hidx, pyInsert_cons]
            rw [ih (n + 1) (v :: vs) hal hlow2 (by simp at hh ⊢; omega)]

theorem insertStubs_eq_weave : ∀ (us : List FunctionInfo) (L : List (List Char)),
    List.Pairwise (fun a b => a.lineno < b.lineno) us →
    (∀ u ∈ us, 1 ≤ u.lineno ∧ u.lineno - 1 < L.length) →
    insertStubsIntoLines L us = weave 1 L us := by
  intro us
  induction us with
  | nil => intro L _ _; rw [weave_nil]; rfl
  | cons u rest ih =>
      intro L h hbound
      rcases List.pairwise_cons.1 h with ⟨hu, hrest⟩
      unfold insertStubsIntoLines
      rw [sortDesc_of_ascending _ h]
      simp only [List.reverse_cons, List.foldl_append, List.foldl_cons,
        List.foldl_nil]
      have hfold : (List.reverse rest).foldl
          (fun ls f => pyInsert ls f.lineno (stubLine f)) L
          = weave 1 L rest := by
        have := ih L hrest (fun v hv => hbound v (by simp [hv]))
        unfold insertStubsIntoLines at this
        rw [sortDesc_of_ascending _ hrest] at this
        exact this
      rw [hfold]
      have hb := hbound u (by simp)
      have := weave_insert_smallest u L 1 rest hu (by omega) (by omega)
      rw [this]
      have : u.lineno + 1 - 1 = u.lineno := by omega
      rw [this]

/-- The records the scan makes eligible for a stub, read off the forest:
one per visited undocumented def, pre-order, with the header's position. -/
def stubRecs (fp : String) : List LTree → List FunctionInfo
  | [] => []
  | LTree.node l kids :: rest =>
      match l.kind with
      | LineKind.defLine _a n args =>
          (if needsStub kids then
            [{ name := n, args := args.filter (fun s => s ≠ "self"),
               docstring := none, lineno := l.lineno, col_offset := l.indent,
               file_path := fp }] else [])
            ++ (stubRecs fp kids ++ stubRecs fp rest)
      | LineKind.classLine => stubRecs fp kids ++ stubRecs fp rest
      | _ => stubRecs fp rest

theorem stubRecs_nil (fp : String) : stubRecs fp [] = [] := by
  rw [stubRecs.eq_def]

theorem stubRecs_cons_def (fp : String) (l : LineRec) (kids rest : List LTree)
    (a : Bool) (n : String) (args : List String)
    (hk : l.kind = LineKind.defLine a n args) :
    stubRecs fp (LTree.node l kids :: rest)
      = (if needsStub kids = true then
          [{ name := n, args := args.filter (fun s => s ≠ "self"),
             docstring := none, lineno := l.lineno, col_offset := l.indent,
             file_path := fp }] else [])
        ++ (stubRecs fp kids ++ stubRecs fp rest) := by
  rw [stubRecs.eq_def]
  simp [hk]

theorem stubRecs_cons_class (fp : String) (l : LineRec) (kids rest : List LTree)
    (hk : l.kind = LineKind.classLine) :
    stubRecs fp (LTree.node l kids :: rest)
      = stubRecs fp kids ++ stubRecs fp rest := by
  rw [stubRecs.eq_def]
  simp [hk]

theorem stubRecs_cons_other (fp : String) (l : LineRec) (kids rest : List LTree)
    (hk1 : ∀ a n args, l.kind ≠ LineKind.defLine a n args)
    (hk2 : l.kind ≠ LineKind.classLine) :
    stubRecs fp (LTree.node l kids :: rest) = stubRecs fp rest := by
  rw [stubRecs.eq_def]
  cases hkk : l.kind with
  | defLine a n args => exact absurd hkk (hk1 a n args)
  | classLine => exact absurd hkk hk2
  | blankLine => simp [hkk]
  | strLine s => simp [hkk]
  | blockLine => simp [hkk]
  | simpleLine => simp [hkk]

theorem stubRecs_lineno_sublist (fp : String) : ∀ ts : List LTree,
    ((stubRecs fp ts).map (fun u => u.lineno)).Sublist
      ((flattenForest ts).map (fun r => r.lineno)) := by
  intro ts
  induction ts using stubForest.induct with
  | case1 =>
      rw [stubRecs_nil]
      simp [flattenForest]
  | case2 l kids rest a n args hkind hstub ihk ihr =>
      rw [stubRecs_cons_def fp l kids rest a n args hkind, if_pos hstub,
        flattenForest_cons]
      simp only [List.map_append, List.map_cons, List.singleton_append,
        List.map_nil]
      exact List.Sublist.cons₂ _ (List.Sublist.append ihk ihr)
  | case3 l kids rest a n args hkind hstub ihk ihr =>
      rw [stubRecs_cons_def fp l kids rest a n args hkind, if_neg hstub,
        flattenForest_cons]
      simp only [List.map_append, List.map_cons, List.nil_append]
      exact List.Sublist.cons _ (List.Sublist.append ihk ihr)
  | case4 l kids rest hkind ihk ihr =>
      rw [stubRecs_cons_class fp l kids rest hkind, flattenForest_cons]
      simp only [List.map_append, List.map_cons]
      exact List.Sublist.cons _ (List.Sublist.append ihk ihr)
  | case5 l kids rest hk1 hk2 ihr =>
      rw [stubRecs_cons_other fp l kids rest hk1 hk2, flattenForest_cons]
      simp only [List.map_append, List.map_cons]
      exact List.Sublist.cons _
        (List.Sublist.trans ihr (List.sublist_append_right _ _))

theorem stubRecs_mem_spec (fp : String) : ∀ ts : List LTree,
    ∀ u ∈ stubRecs fp ts, u.docstring = none ∧ u.file_path = fp ∧
      ∃ r a args, r ∈ flattenForest ts ∧ r.kind = LineKind.defLine a u.name args ∧
        r.lineno = u.lineno ∧ r.indent = u.col_offset := by
  intro ts
  induction ts using stubForest.induct with
  | case1 =>
      rw [stubRecs_nil]
      intro u hu
      simp at hu
  | case2 l kids rest a n args hkind hstub ihk ihr =>
      intro u hu
      rw [stubRecs_cons_def fp l kids rest a n args hkind, if_pos hstub] at hu
      rw [flattenForest_cons]
      rcases List.mem_append.1 hu with hu | hu
      · rcases List.mem_singleton.1 hu with rfl
        exact ⟨rfl, rfl, l, a, args, by simp, hkind, rfl, rfl⟩
      rcases List.mem_append.1 hu with hu | hu
      · rcases ihk u hu with ⟨h1, h2, r, a2, args2, hr, h3, h4, h5⟩
        exact ⟨h1, h2, r, a2, args2, by simp [hr], h3, h4, h5⟩
      · rcases ihr u hu with ⟨h1, h2, r, a2, args2, hr, h3, h4, h5⟩
        exact ⟨h1, h2, r, a2, args2, by simp [hr], h3, h4, h5⟩
  | case3 l kids rest a n args hkind hstub ihk ihr =>
      intro u hu
      rw [stubRecs_cons_def fp l kids rest a n args hkind, if_neg hstub] at hu
      rw [List.nil_append] at hu
      rw [flattenForest_cons]
      rcases List.mem_append.1 hu with hu | hu
      · rcases ihk u hu with ⟨h1, h2, r, a2, args2, hr, h3, h4, h5⟩
        exact ⟨h1, h2, r, a2, args2, by simp [hr], h3, h4, h5⟩
      · rcases ihr u hu with ⟨h1, h2, r, a2, args2, hr, h3, h4, h5⟩
        exact ⟨h1, h2, r, a2, args2, by simp [hr], h3, h4, h5⟩
  | case4 l kids rest hkind ihk ihr =>
      intro u hu
      rw [stubRecs_cons_class fp l kids rest hkind] at hu
      rw [flattenForest_cons]
      rcases List.mem_append.1 hu with hu | hu
      · rcases ihk u hu with ⟨h1, h2, r, a2, args2, hr, h3, h4, h5⟩
        exact ⟨h1, h2, r, a2, args2, by simp [hr], h3, h4, h5⟩
      · rcases ihr u hu with ⟨h1, h2, r, a2, args2, hr, h3, h4, h5⟩
        exact ⟨h1, h2, r, a2, args2, by simp [hr], h3, h4, h5⟩
  | case5 l kids rest hk1 hk2 ihr =>
      intro u hu
      rw [stubRecs_cons_other fp l kids rest hk1 hk2] at hu
      rw [flattenForest_cons]
      rcases ihr u hu with ⟨h1, h2, r, a2, args2, hr, h3, h4, h5⟩
      exact ⟨h1, h2, r, a2, args2, by simp [hr], h3, h4, h5⟩

theorem sublist_cons_split {α : Type} {a b : α} {l1 l2 : List α}
    (h : (a :: l1).Sublist (b :: l2)) :
    (a = b ∧ l1.Sublist l2) ∨ (a :: l1).Sublist l2 := by
  cases h with
  | cons _ h2 => exact Or.inr h2
  | cons₂ _ h2 => exact Or.inl ⟨rfl, h2⟩

theorem weaveRecs_cons_ne (r : LineRec) (X : List LineRec)
    (us : List FunctionInfo) (h : ∀ u ∈ us, ¬ u.lineno = r.lineno) :
    weaveRecs (r :: X) us = r :: weaveRecs X us := by
  cases us with
  | nil => rw [weaveRecs_nil, weaveRecs_nil]
  | cons u us2 =>
      simp only [weaveRecs]
      rw [if_neg (h u (by simp))]

theorem weaveRecs_append : ∀ (A : List LineRec) (sa : List FunctionInfo)
    (B : List LineRec) (sb : List FunctionInfo),
    List.Pairwise (fun a b => a.lineno < b.lineno) A →
    (sa.map (fun u => u.lineno)).Sublist (A.map (fun r => r.lineno)) →
    (∀ u ∈ sb, ∀ r ∈ A, r.lineno < u.lineno) →
    weaveRecs (A ++ B) (sa ++ sb) = weaveRecs A sa ++ weaveRecs B sb := by
  intro A
  induction A with
  | nil =>
      intro sa B sb _ hsub _
      have hsa : sa = [] := by
        cases sa with
        | nil => rfl
        | cons x xs => simp at hsub
      subst hsa
      rw [weaveRecs_nil]
      simp
  | cons r A2 ih =>
      intro sa B sb hpw hsub hgt
      rcases List.pairwise_cons.1 hpw with ⟨hrA, hpw2⟩
      cases sa with
      | nil =>
          rw [weaveRecs_nil, List.nil_append]
          have hne : ∀ u ∈ sb, ¬ u.lineno = r.lineno := by
            intro u hu
            have := hgt u hu r (by simp)
            omega
          rw [List.cons_append, weaveRecs_cons_ne r (A2 ++ B) sb hne]
          have := ih [] B sb hpw2 (by simp)
            (fun u hu r2 h2 => hgt u hu r2 (by simp [h2]))
          rw [List.nil_append] at this
          rw [this, weaveRecs_nil, List.cons_append]
      | cons u sa2 =>
          simp only [List.map_cons] at hsub
          by_cases hu : u.lineno = r.lineno
          · have hsub2 : (sa2.map (fun u => u.lineno)).Sublist
                (A2.map (fun r => r.lineno)) := by
              rcases sublist_cons_split hsub with ⟨_, h2⟩ | h2
              · exact h2
              · exfalso
                have hmem : u.lineno ∈ A2.map (fun r => r.lineno) :=
                  h2.subset (by simp)
                rcases List.mem_map.1 hmem with ⟨r2, hr2, he⟩
                have := hrA r2 hr2
                omega
            simp only [List.cons_append, weaveRecs, List.append_eq]
            rw [if_pos hu, if_pos hu,
              ih sa2 B sb hpw2 hsub2
                (fun v hv r2 h2 => hgt v hv r2 (by simp [h2]))]
            simp
          · have hsub2 : ((u :: sa2).map (fun u => u.lineno)).Sublist
                (A2.map (fun r => r.lineno)) := by
              rcases sublist_cons_split hsub with ⟨heq, _⟩ | h2
              · exact absurd heq hu
              · simpa using h2
            simp only [List.cons_append, weaveRecs, List.append_eq]
            rw [if_neg hu, if_neg hu, ← List.cons_append,
              ih (u :: sa2) B sb hpw2 hsub2
                (fun v hv r2 h2 => hgt v hv r2 (by simp [h2]))]
            simp

theorem pairwise_flatten_parts {l : LineRec} {kids rest : List LTree}
    (h : List.Pairwise (fun a b => a.lineno < b.lineno)
      (flattenForest (LTree.node l kids :: rest))) :
    List.Pairwise (fun a b => a.lineno < b.lineno) (flattenForest kids) ∧
    List.Pairwise (fun a b => a.lineno < b.lineno) (flattenForest rest) ∧
    (∀ a ∈ flattenForest kids, ∀ b ∈ flattenForest rest, a.lineno < b.lineno) ∧
    (∀ a ∈ flattenForest kids ++ flattenForest rest, l.lineno < a.lineno) := by
  rw [flattenForest_cons] at h
  rcases List.pairwise_cons.1 h with ⟨hl, happ⟩
  rcases List.pairwise_append.1 happ with ⟨h1, h2, h3⟩
  exact ⟨h1, h2, h3, hl⟩

/-- Flattening the stubbed forest is exactly the record-level weave of the
original flattened lines with the forest's eligible records. -/
theorem flatten_stub_eq_weave (fp : String) : ∀ ts : List LTree,
    List.Pairwise (fun a b => a.lineno < b.lineno) (flattenForest ts) →
    flattenForest (stubForest ts) = weaveRecs (flattenForest ts) (stubRecs fp ts) := by
  intro ts
  induction ts using stubForest.induct with
  | case1 =>
      rw [stubRecs_nil, stubForest_nil, weaveRecs_nil]
      intro _
      rfl
  | case2 l kids rest a n args hkind hstub ihk ihr =>
      intro hpw
      rcases pairwise_flatten_parts hpw with ⟨hpk, hpr, hcross, habove⟩
      have hgt : ∀ u ∈ stubRecs fp rest, ∀ r ∈ flattenForest kids,
          r.lineno < u.lineno := by
        intro u hu r hr
        have hmem : u.lineno ∈ (flattenForest rest).map (fun r => r.lineno) :=
          (stubRecs_lineno_sublist fp rest).subset (List.mem_map_of_mem _ hu)
        rcases List.mem_map.1 hmem with ⟨b, hb, he⟩
        have := hcross r hr b hb
        omega
      rw [stubForest_cons_def_needs l kids rest a n args hkind hstub,
        stubRecs_cons_def fp l kids rest a n args hkind, if_pos hstub,
        flattenForest_cons, flattenForest_cons, flattenForest_cons,
        flattenForest_nil, List.nil_append, List.singleton_append]
      have hstep : weaveRecs (l :: (flattenForest kids ++ flattenForest rest))
          ({ name := n, args := args.filter (fun s => s ≠ "self"),
             docstring := none, lineno := l.lineno, col_offset := l.indent,
             file_path := fp } :: (stubRecs fp kids ++ stubRecs fp rest))
          = l :: stubRecFor l n
            :: weaveRecs (flattenForest kids ++ flattenForest rest)
              (stubRecs fp kids ++ stubRecs fp rest) := by
        simp [weaveRecs, stubRecFor]
      rw [hstep]
      rw [weaveRecs_append (flattenForest kids) (stubRecs fp kids)
        (flattenForest rest) (stubRecs fp rest) hpk
        (stubRecs_lineno_sublist fp kids) hgt]
      rw [← ihk hpk, ← ihr hpr]
      simp
  | case3 l kids rest a n args hkind hstub ihk ihr =>
      intro hpw
      rcases pairwise_flatten_parts hpw with ⟨hpk, hpr, hcross, habove⟩
      have hstub2 : needsStub kids = false := by
        cases hns : needsStub kids
        · rfl
        · exact absurd hns hstub
      have hgt : ∀ u ∈ stubRecs fp rest, ∀ r ∈ flattenForest kids,
          r.lineno < u.lineno := by
        intro u hu r hr
        have hmem : u.lineno ∈ (flattenForest rest).map (fun r => r.lineno) :=
          (stubRecs_lineno_sublist fp rest).subset (List.mem_map_of_mem _ hu)
        rcases List.mem_map.1 hmem with ⟨b, hb, he⟩
        have := hcross r hr b hb
        omega
      have hne : ∀ u ∈ stubRecs fp kids ++ stubRecs fp rest,
          ¬ u.lineno = l.lineno := by
        intro u hu
        have hmem : u.lineno ∈ (flattenForest kids).map (fun r => r.lineno)
            ++ (flattenForest rest).map (fun r => r.lineno) := by
          rcases List.mem_append.1 hu with hu | hu
          · exact List.mem_append.2 (Or.inl
              ((stubRecs_lineno_sublist fp kids).subset (List.mem_map_of_mem _ hu)))
          · exact List.mem_append.2 (Or.inr
              ((stubRecs_lineno_sublist fp rest).subset (List.mem_map_of_mem _ hu)))
        rw [← List.map_append] at hmem
        rcases List.mem_map.1 hmem with ⟨b, hb, he⟩
        have := habove b hb
        omega
      rw [stubForest_cons_def_no l kids rest a n args hkind hstub2,
        stubRecs_cons_def fp l kids rest a n args hkind, if_neg hstub,
        flattenForest_cons, flattenForest_cons, List.nil_append]
      rw [weaveRecs_cons_ne l _ _ hne]
      rw [weaveRecs_append (flattenForest kids) (stubRecs fp kids)
        (flattenForest rest) (stubRecs fp rest) hpk
        (stubRecs_lineno_sublist fp kids) hgt]
      rw [← ihk hpk, ← ihr hpr]
  | case4 l kids rest hkind ihk ihr =>
      intro hpw
      rcases pairwise_flatten_parts hpw with ⟨hpk, hpr, hcross, habove⟩
      have hgt : ∀ u ∈ stubRecs fp rest, ∀ r ∈ flattenForest kids,
          r.lineno < u.lineno := by
        intro u hu r hr
        have hmem : u.lineno ∈ (flattenForest rest).map (fun r => r.lineno) :=
          (stubRecs_lineno_sublist fp rest).subset (List.mem_map_of_mem _ hu)
        rcases List.mem_map.1 hmem with ⟨b, hb, he⟩
        have := hcross r hr b hb
        omega
      have hne : ∀ u ∈ stubRecs fp kids ++ stubRecs fp rest,
          ¬ u.lineno = l.lineno := by
        intro u hu
        have hmem : u.lineno ∈ (flattenForest kids).map (fun r => r.lineno)
            ++ (flattenForest rest).map (fun r => r.lineno) := by
          rcases List.mem_append.1 hu with hu | hu
          · exact List.mem_append.2 (Or.inl
              ((stubRecs_lineno_sublist fp kids).subset (List.mem_map_of_mem _ hu)))
          · exact List.mem_append.2 (Or.inr
              ((stubRecs_lineno_sublist fp rest).subset (List.mem_map_of_mem _ hu)))
        rw [← List.map_append] at hmem
        rcases List.mem_map.1 hmem with ⟨b, hb, he⟩
        have := habove b hb
        omega
      rw [stubForest_cons_class l kids rest hkind,
        stubRecs_cons_class fp l kids rest hkind,
        flattenForest_cons, flattenForest_cons]
      rw [weaveRecs_cons_ne l _ _ hne]
      rw [weaveRecs_append (flattenForest kids) (stubRecs fp kids)
        (flattenForest rest) (stubRecs fp rest) hpk
        (stubRecs_lineno_sublist fp kids) hgt]
      rw [← ihk hpk, ← ihr hpr]
  | case5 l kids rest hk1 hk2 ihr =>
      intro hpw
      rcases pairwise_flatten_parts hpw with ⟨hpk, hpr, hcross, habove⟩
      have hgt : ∀ u ∈ stubRecs fp rest, ∀ r ∈ flattenForest kids,
          r.lineno < u.lineno := by
        intro u hu r hr
        have hmem : u.lineno ∈ (flattenForest rest).map (fun r => r.lineno) :=
          (stubRecs_lineno_sublist fp rest).subset (List.mem_map_of_mem _ hu)
        rcases List.mem_map.1 hmem with ⟨b, hb, he⟩
        have := hcross r hr b hb
        omega
      have hne : ∀ u ∈ stubRecs fp rest, ¬ u.lineno = l.lineno := by
        intro u hu
        have hmem : u.lineno ∈ (flattenForest rest).map (fun r => r.lineno) :=
          (stubRecs_lineno_sublist fp rest).subset (List.mem_map_of_mem _ hu)
        rcases List.mem_map.1 hmem with ⟨b, hb, he⟩
        have := habove b (List.mem_append.2 (Or.inr hb))
        omega
      rw [stubForest_cons_other l kids rest hk1 hk2,
        stubRecs_cons_other fp l kids rest hk1 hk2,
        flattenForest_cons, flattenForest_cons]
      rw [weaveRecs_cons_ne l _ _ hne]
      have := weaveRecs_append (flattenForest kids) []
        (flattenForest rest) (stubRecs fp rest) hpk (by simp) hgt
      rw [List.nil_append] at this
      rw [this, weaveRecs_nil]
      rw [← ihr hpr]

theorem contains_quote_false : ∀ l : List Char, (∀ c ∈ l, ¬ c = '"') →
    l.contains '"' = false := by
  intro l h
  cases hc : l.contains '"' with
  | false => rfl
  | true =>
      have hm : '"' ∈ l := List.elem_iff.1 hc
      exact absurd rfl (h _ hm)

/-- The classification of an inserted stub line: `col_offset + 4` spaces of
indentation and a one-line string statement holding the stub text. -/
theorem classify_stubLine (u : FunctionInfo)
    (hid : u.name.data.all isIdentChar = true) :
    classifyLine (stubLine u)
      = some (u.col_offset + 4, LineKind.strLine (stubText u.name)) := by
  have hL1 : ("TODO: Document `".data).length = 16 := rfl
  have hL2 : ("`.\"\"\"".data).length = 5 := rfl
  have hform : stubLine u
      = List.replicate (u.col_offset + 4) ' '
        ++ ('"' :: '"' :: '"' :: (("TODO: Document `".data ++ u.name.data)
            ++ "`.\"\"\"".data)) := by
    rw [stubLine, show "\"\"\"TODO: Document `".data
      = '"' :: '"' :: '"' :: "TODO: Document `".data from rfl]
    simp
  have hdropM : ('"' :: '"' :: '"' :: (("TODO: Document `".data ++ u.name.data)
      ++ "`.\"\"\"".data)).drop 3
      = ("TODO: Document `".data ++ u.name.data) ++ "`.\"\"\"".data := rfl
  have hlen3 : ('"' :: '"' :: '"' :: (("TODO: Document `".data ++ u.name.data)
      ++ "`.\"\"\"".data)).length
      = u.name.data.length + 24 := by
    simp only [List.length_cons, List.length_append, hL1, hL2]
    omega
  have htake : (("TODO: Document `".data ++ u.name.data) ++ "`.\"\"\"".data).take
        (("TODO: Document `".data ++ u.name.data).length + 2)
      = ("TODO: Document `".data ++ u.name.data) ++ ['`', '.'] := by
    rw [List.take_append]
    rfl
  have hmid : ∀ c ∈ ("TODO: Document `".data ++ u.name.data) ++ ['`', '.'],
      ¬ c = '"' := by
    intro c hc
    rcases List.mem_append.1 hc with hc | hc
    · rcases List.mem_append.1 hc with hc | hc
      · exact (by decide : ∀ x ∈ "TODO: Document `".data, ¬ x = '"') c hc
      · have hident : isIdentChar c = true :=
          List.all_eq_true.1 hid c hc
        intro he
        rw [he] at hident
        exact absurd hident (by decide)
    · exact (by decide : ∀ x ∈ ['`', '.'], ¬ x = '"') c hc
  have hA : decide (('"' :: '"' :: '"' :: (("TODO: Document `".data ++ u.name.data)
      ++ "`.\"\"\"".data)).length ≥ 6) = true := by
    rw [decide_eq_true_eq, hlen3]
    omega
  have hB : decide (('"' :: '"' :: '"' :: (("TODO: Document `".data ++ u.name.data)
        ++ "`.\"\"\"".data)).drop
        (('"' :: '"' :: '"' :: (("TODO: Document `".data ++ u.name.data)
          ++ "`.\"\"\"".data)).length - 3) = tripleQuote) = true := by
    rw [decide_eq_true_eq, hlen3,
      show u.name.data.length + 24 - 3 = (u.name.data.length + 18) + 3 from by omega,
      show ∀ m : Nat, ('"' :: '"' :: '"' :: (("TODO: Document `".data ++ u.name.data)
        ++ "`.\"\"\"".data)).drop (m + 3)
        = (("TODO: Document `".data ++ u.name.data) ++ "`.\"\"\"".data).drop m
        from fun m => by simp [List.drop_succ_cons, Nat.add_comm],
      show u.name.data.length + 18
        = ("TODO: Document `".data ++ u.name.data).length + 2 from by
          simp only [List.length_append, hL1]
          omega,
      List.drop_append]
    rfl
  have hC : ((('"' :: '"' :: '"' :: (("TODO: Document `".data ++ u.name.data)
        ++ "`.\"\"\"".data)).drop 3).take
        (('"' :: '"' :: '"' :: (("TODO: Document `".data ++ u.name.data)
          ++ "`.\"\"\"".data)).length - 6)).contains '"' = false := by
    rw [hdropM, hlen3,
      show u.name.data.length + 24 - 6
        = ("TODO: Document `".data ++ u.name.data).length + 2 from by
          simp only [List.length_append, hL1]
          omega,
      htake]
    exact contains_quote_false _ hmid
  have hD : String.mk ((('"' :: '"' :: '"' :: (("TODO: Document `".data
        ++ u.name.data) ++ "`.\"\"\"".data)).drop 3).take
        (('"' :: '"' :: '"' :: (("TODO: Document `".data ++ u.name.data)
          ++ "`.\"\"\"".data)).length - 6))
      = stubText u.name := by
    rw [hdropM, hlen3,
      show u.name.data.length + 24 - 6
        = ("TODO: Document `".data ++ u.name.data).length + 2 from by
          simp only [List.length_append, hL1]
          omega,
      htake]
    rfl
  have hcc : classifyContent ('"' :: '"' :: '"' :: (("TODO: Document `".data
        ++ u.name.data) ++ "`.\"\"\"".data))
      = some (LineKind.strLine (stubText u.name)) := by
    rw [classifyContent]
    rw [if_neg (by decide), if_neg (by decide)]
    rw [show ("async def ".data.isPrefixOf ('"' :: '"' :: '"'
      :: (("TODO: Document `".data ++ u.name.data) ++ "`.\"\"\"".data))) = false
      from rfl]
    rw [if_neg (by simp)]
    rw [show ("def ".data.isPrefixOf ('"' :: '"' :: '"'
      :: (("TODO: Document `".data ++ u.name.data) ++ "`.\"\"\"".data))) = false
      from rfl]
    rw [if_neg (by simp)]
    rw [show ("class ".data.isPrefixOf ('"' :: '"' :: '"'
      :: (("TODO: Document `".data ++ u.name.data) ++ "`.\"\"\"".data))) = false
      from rfl]
    rw [if_neg (by simp)]
    rw [show (tripleQuote.isPrefixOf ('"' :: '"' :: '"'
      :: (("TODO: Document `".data ++ u.name.data) ++ "`.\"\"\"".data))) = true
      from rfl]
    rw [if_pos rfl]
    rw [hA, hB, hC]
    rw [if_pos (show (true && true && !false) = true from rfl)]
    rw [hD]
  have hsp : ∀ c ∈ List.replicate (u.col_offset + 4) ' ',
      (fun c => decide (c = ' ')) c = true := by
    intro c hc
    simp [List.eq_of_mem_replicate hc]
  have htw : (stubLine u).takeWhile (fun c => c = ' ')
      = List.replicate (u.col_offset + 4) ' ' := by
    rw [hform, takeWhile_append_of_all _ _ _ hsp]
    simp [List.takeWhile_cons]
  have hdw : (stubLine u).dropWhile (fun c => c = ' ')
      = '"' :: '"' :: '"' :: (("TODO: Document `".data ++ u.name.data)
        ++ "`.\"\"\"".data) := by
    rw [hform, dropWhile_append_of_all _ _ _ hsp]
    simp [List.dropWhile_cons]
  rw [classifyLine, hdw, hcc, htw]
  simp

theorem parseDefRest_name (isAsync : Bool) (r : List Char) (k : LineKind)
    (h : parseDefRest isAsync r = some k) :
    ∀ a nm args, k = LineKind.defLine a nm args →
      nm.data.all isIdentChar = true := by
  intro a nm args hk
  subst hk
  simp only [parseDefRest] at h
  split at h
  · simp at h
  · split at h
    · split at h
      · simp at h
      · split at h
        · simp at h
        · split at h
          · simp at h
          · simp only [Option.some.injEq, LineKind.defLine.injEq] at h
            rcases h with ⟨_, hnm, _⟩
            rw [← hnm]
            exact List.all_eq_true.2
              (fun c hc => List.mem_takeWhile_imp hc)
    · simp at h

theorem classifyContent_def_name (r : List Char) (a : Bool) (nm : String)
    (args : List String)
    (h : classifyContent r = some (LineKind.defLine a nm args)) :
    nm.data.all isIdentChar = true := by
  unfold classifyContent at h
  split at h
  · simp at h
  · split at h
    · simp at h
    · split at h
      · simp at h
      · split at h
        · exact parseDefRest_name _ _ _ h a nm args rfl
        · split at h
          · exact parseDefRest_name _ _ _ h a nm args rfl
          · split at h
            · split at h <;> simp at h
            · split at h
              · split at h <;> simp at h
              · split at h <;> simp at h

theorem classifyLine_def_name (l : List Char) (ind : Nat) (a : Bool)
    (nm : String) (args : List String)
    (h : classifyLine l = some (ind, LineKind.defLine a nm args)) :
    nm.data.all isIdentChar = true := by
  unfold classifyLine at h
  cases hc : classifyContent (l.dropWhile (fun c => c = ' ')) with
  | none => rw [hc] at h; simp at h
  | some k =>
      rw [hc] at h
      simp only [Option.some.injEq, Prod.mk.injEq] at h
      rcases h with ⟨_, hk⟩
      rw [hk] at hc
      exact classifyContent_def_name _ a nm args hc

theorem classifyAll_cons_blank (n : Nat) (l : List Char)
    (rest : List (List Char)) (ind : Nat)
    (hcl : classifyLine l = some (ind, LineKind.blankLine)) :
    classifyAll n (l :: rest) = classifyAll (n + 1) rest := by
  simp only [classifyAll]
  rw [hcl]

theorem classifyAll_cons_nonblank (n : Nat) (l : List Char)
    (rest : List (List Char)) (ind : Nat) (k : LineKind)
    (hcl : classifyLine l = some (ind, k)) (hk : k ≠ LineKind.blankLine) :
    classifyAll n (l :: rest)
      = (classifyAll (n + 1) rest).map
          (fun rs => { lineno := n, indent := ind, kind := k } :: rs) := by
  simp only [classifyAll]
  rw [hcl]
  cases k with
  | blankLine => exact absurd rfl hk
  | strLine s => rfl
  | defLine a nm args => rfl
  | classLine => rfl
  | blockLine => rfl
  | simpleLine => rfl

/-- Inserting the stub lines (one-pass weave) commutes with classification:
up to line numbers, the classified lines of the woven text are the
record-level weave of the original classification. -/
theorem classify_weave : ∀ (L : List (List Char)) (n : Nat) (R : List LineRec)
    (us : List FunctionInfo),
    classifyAll n L = some R →
    (∀ u ∈ us, classifyLine (stubLine u)
      = some (u.col_offset + 4, LineKind.strLine (stubText u.name))) →
    List.Pairwise (fun a b => a.lineno < b.lineno) us →
    (∀ u ∈ us, ∃ r ∈ R, r.lineno = u.lineno ∧ r.indent = u.col_offset) →
    (classifyAll n (weave n L us)).map (List.map eraseL)
      = some (List.map eraseL (weaveRecs R us)) := by
  intro L
  induction L with
  | nil =>
      intro n R us hR hstub hpw hmatch
      simp only [classifyAll] at hR
      simp only [Option.some.injEq] at hR
      subst hR
      have husnil : us = [] := by
        cases us with
        | nil => rfl
        | cons u us2 =>
            rcases hmatch u (by simp) with ⟨r, hr, _⟩
            simp at hr
      subst husnil
      rw [weave_nil, weaveRecs_nil]
      rfl
  | cons l ls ih =>
      intro n R us hR hstub hpw hmatch
      cases us with
      | nil =>
          rw [weave_nil, weaveRecs_nil, hR]
          rfl
      | cons u us2 =>
          cases hcl : classifyLine l with
          | none =>
              rw [classifyAll, hcl] at hR
              simp at hR
          | some ik =>
              obtain ⟨ind, k⟩ := ik
              by_cases hkb : k = LineKind.blankLine
              · subst hkb
                rw [classifyAll_cons_blank n l ls ind hcl] at hR
                have hune : ¬ u.lineno = n := by
                  rcases hmatch u (by simp) with ⟨r, hr, he, _⟩
                  have := ((classifyAll_spec ls (n + 1) R hR).1 r hr).1
                  omega
                simp only [weave]
                rw [if_neg hune]
                rw [classifyAll_cons_blank n l _ ind hcl]
                exact ih (n + 1) R (u :: us2) hR hstub hpw hmatch
              · rw [classifyAll_cons_nonblank n l ls ind k hcl hkb] at hR
                cases hrest : classifyAll (n + 1) ls with
                | none => rw [hrest] at hR; simp at hR
                | some R2 =>
                    rw [hrest] at hR
                    simp only [Option.map_some', Option.some.injEq] at hR
                    subst hR
                    have hR2lo : ∀ r ∈ R2, n + 1 ≤ r.lineno := by
                      intro r hr
                      exact ((classifyAll_spec ls (n + 1) R2 hrest).1 r hr).1
                    rcases List.pairwise_cons.1 hpw with ⟨hu2, hpw2⟩
                    by_cases hun : u.lineno = n
                    · have hindent :
                          ({ lineno := n, indent := ind, kind := k } : LineRec).indent
                            = u.col_offset := by
                        rcases hmatch u (by simp) with ⟨r, hr, he, hind⟩
                        rcases List.mem_cons.1 hr with rfl | hr
                        · exact hind
                        · have := hR2lo r hr
                          omega
                      have hmatch2 : ∀ v ∈ us2, ∃ r ∈ R2,
                          r.lineno = v.lineno ∧ r.indent = v.col_offset := by
                        intro v hv
                        rcases hmatch v (by simp [hv]) with ⟨r, hr, he, hind⟩
                        rcases List.mem_cons.1 hr with rfl | hr
                        · exfalso
                          have := hu2 v hv
                          simp at he
                          omega
                        · exact ⟨r, hr, he, hind⟩
                      have hih := ih (n + 1) R2 us2 hrest
                        (fun v hv => hstub v (by simp [hv])) hpw2 hmatch2
                      obtain ⟨X, hX, hEX⟩ : ∃ X,
                          classifyAll (n + 1) (weave (n + 1) ls us2) = some X ∧
                          List.map eraseL X
                            = List.map eraseL (weaveRecs R2 us2) := by
                        cases hcx : classifyAll (n + 1) (weave (n + 1) ls us2) with
                        | none => rw [hcx] at hih; simp at hih
                        | some X =>
                            rw [hcx] at hih
                            simp only [Option.map_some', Option.some.injEq] at hih
                            exact ⟨X, rfl, hih⟩
                      have hshift := classifyAll_erase_shift
                        (weave (n + 1) ls us2) (n + 2) (n + 1)
                      rw [hX] at hshift
                      obtain ⟨Y, hY, hEY⟩ : ∃ Y,
                          classifyAll (n + 2) (weave (n + 1) ls us2) = some Y ∧
                          List.map eraseL Y = List.map eraseL X := by
                        cases hcy : classifyAll (n + 2) (weave (n + 1) ls us2) with
                        | none => rw [hcy] at hshift; simp at hshift
                        | some Y =>
                            rw [hcy] at hshift
                            simp only [Option.map_some', Option.some.injEq] at hshift
                            exact ⟨Y, rfl, hshift⟩
                      simp only [weave]
                      rw [if_pos hun]
                      rw [classifyAll_cons_nonblank n l _ ind k hcl hkb]
                      rw [classifyAll_cons_nonblank (n + 1) (stubLine u) _
                        (u.col_offset + 4) (LineKind.strLine (stubText u.name))
                        (hstub u (by simp)) (by simp)]
                      rw [hY]
                      simp only [weaveRecs]
                      rw [if_pos (by simp [hun])]
                      simp only [Option.map_some', List.map_cons, Option.some.injEq,
                        List.cons.injEq]
                      refine ⟨trivial, ?_, ?_⟩
                      · simp [eraseL, stubRecFor, ← hindent]
                      · rw [hEY, hEX]
                    · have hmatch2 : ∀ v ∈ u :: us2, ∃ r ∈ R2,
                          r.lineno = v.lineno ∧ r.indent = v.col_offset := by
                        intro v hv
                        rcases hmatch v hv with ⟨r, hr, he, hind⟩
                        rcases List.mem_cons.1 hr with rfl | hr
                        · exfalso
                          rcases List.mem_cons.1 hv with rfl | hv
                          · simp at he
                            exact hun he.symm
                          · have := hu2 v hv
                            rcases hmatch u (by simp) with ⟨r2, hr2, he2, _⟩
                            rcases List.mem_cons.1 hr2 with rfl | hr2
                            · simp at he2
                              exact hun he2.symm
                            · have := hR2lo r2 hr2
                              simp at he
                              omega
                        · exact ⟨r, hr, he, hind⟩
                      have hih := ih (n + 1) R2 (u :: us2) hrest hstub hpw hmatch2
                      simp only [weave]
                      rw [if_neg hun]
                      rw [classifyAll_cons_nonblank n l _ ind k hcl hkb]
                      obtain ⟨X, hX, hEX⟩ : ∃ X,
                          classifyAll (n + 1) (weave (n + 1) ls (u :: us2)) = some X ∧
                          List.map eraseL X
                            = List.map eraseL (weaveRecs R2 (u :: us2)) := by
                        cases hcx : classifyAll (n + 1) (weave (n + 1) ls (u :: us2)) with
                        | none => rw [hcx] at hih; simp at hih
                        | some X =>
                            rw [hcx] at hih
                            simp only [Option.map_some', Option.some.injEq] at hih
                            exact ⟨X, rfl, hih⟩
                      rw [hX]
                      have hne2 : ¬ u.lineno
                          = ({ lineno := n, indent := ind, kind := k } : LineRec).lineno := by
                        simp [hun]
                      rw [weaveRecs_cons_ne _ _ _ (fun v hv => by
                        rcases List.mem_cons.1 hv with rfl | hv
                        · exact hne2
                        · rcases hmatch2 v (by simp [hv]) with ⟨r, hr, he, _⟩
                          have := hR2lo r hr
                          simp
                          omega)]
                      simp only [Option.map_some', List.map_cons, Option.some.injEq,
                        List.cons.injEq]
                      exact ⟨trivial, by rw [hEX]⟩

theorem isNone_eq_needsStub (k0 : LineRec) (kk kr : List LTree)
    (body : List Stmt)
    (h : toStmts (LTree.node k0 kk :: kr) = some body) :
    (get_docstring body).isNone = needsStub (LTree.node k0 kk :: kr) := by
  rw [toStmts_cons] at h
  cases hkind : k0.kind with
  | blankLine => rw [hkind] at h; simp at h
  | strLine s =>
      rw [hkind] at h
      simp only [] at h
      cases he : kk.isEmpty with
      | false => rw [he] at h; simp at h
      | true =>
          rw [he] at h
          simp only [if_pos] at h
          cases h2 : toStmts kr with
          | none => rw [h2] at h; simp at h
          | some tl =>
              rw [h2] at h
              simp only [Option.map_some', Option.some.injEq] at h
              subst h
              simp [get_docstring, needsStub, hkind]
  | simpleLine =>
      rw [hkind] at h
      simp only [] at h
      cases he : kk.isEmpty with
      | false => rw [he] at h; simp at h
      | true =>
          rw [he] at h
          simp only [if_pos] at h
          cases h2 : toStmts kr with
          | none => rw [h2] at h; simp at h
          | some tl =>
              rw [h2] at h
              simp only [Option.map_some', Option.some.injEq] at h
              subst h
              simp [get_docstring, needsStub, hkind]
  | defLine a2 n2 args2 =>
      rw [hkind] at h
      simp only [] at h
      cases kk with
      | nil => simp at h
      | cons t tkr =>
          cases t with
          | node m mk =>
              simp only [] at h
              cases hs : siblingsAt m.indent (LTree.node m mk :: tkr) with
              | false => rw [hs] at h; simp at h
              | true =>
                  rw [hs] at h
                  simp only [if_pos] at h
                  cases h1 : toStmts (LTree.node m mk :: tkr) with
                  | none => rw [h1] at h; simp at h
                  | some b1 =>
                      cases h2 : toStmts kr with
                      | none => rw [h1, h2] at h; simp at h
                      | some b2 =>
                          rw [h1, h2] at h
                          simp only [Option.some.injEq] at h
                          subst h
                          simp [get_docstring, needsStub, hkind]
  | classLine =>
      rw [hkind] at h
      simp only [] at h
      cases kk with
      | nil => simp at h
      | cons t tkr =>
          cases t with
          | node m mk =>
              simp only [] at h
              cases hs : siblingsAt m.indent (LTree.node m mk :: tkr) with
              | false => rw [hs] at h; simp at h
              | true =>
                  rw [hs] at h
                  simp only [if_pos] at h
                  cases h1 : toStmts (LTree.node m mk :: tkr) with
                  | none => rw [h1] at h; simp at h
                  | some b1 =>
                      cases h2 : toStmts kr with
                      | none => rw [h1, h2] at h; simp at h
                      | some b2 =>
                          rw [h1, h2] at h
                          simp only [Option.some.injEq] at h
                          subst h
                          simp [get_docstring, needsStub, hkind]
  | blockLine =>
      rw [hkind] at h
      simp only [] at h
      cases kk with
      | nil => simp at h
      | cons t tkr =>
          cases t with
          | node m mk =>
              simp only [] at h
              cases hs : siblingsAt m.indent (LTree.node m mk :: tkr) with
              | false => rw [hs] at h; simp at h
              | true =>
                  rw [hs] at h
                  simp only [if_pos] at h
                  cases h1 : toStmts (LTree.node m mk :: tkr) with
                  | none => rw [h1] at h; simp at h
                  | some b1 =>
                      cases h2 : toStmts kr with
                      | none => rw [h1, h2] at h; simp at h
                      | some b2 =>
                          rw [h1, h2] at h
                          simp only [Option.some.injEq] at h
                          subst h
                          simp [get_docstring, needsStub, hkind]

theorem undocumented_append (a b : List FunctionInfo) :
    undocumented (a ++ b) = undocumented a ++ undocumented b := by
  simp [undocumented, List.filter_append]

theorem undocumented_cons (x : FunctionInfo) (xs : List FunctionInfo) :
    undocumented (x :: xs)
      = (if x.docstring.isNone = true then [x] else []) ++ undocumented xs := by
  cases h : x.docstring.isNone <;> simp [undocumented, List.filter_cons, h]

/-- The scan's eligible (undocumented) records of a parsed forest are
exactly the forest's stub records, in the same order. -/
theorem undoc_gather_eq_stubRecs (fp : String) : ∀ (n : Nat) (ts : List LTree),
    (flattenForest ts).length ≤ n →
    ∀ stmts, toStmts ts = some stmts →
    undocumented (_gather_functions fp stmts) = stubRecs fp ts := by
  intro n
  induction n with
  | zero =>
      intro ts hle stmts h
      match ts with
      | [] =>
          rw [toStmts_nil] at h
          simp only [Option.some.injEq] at h
          subst h
          rw [stubRecs_nil]
          simp [_gather_functions, undocumented]
      | LTree.node l kids :: rest =>
          rw [flattenForest_cons] at hle
          simp at hle
  | succ n ih =>
      intro ts hle stmts h
      match ts with
      | [] =>
          rw [toStmts_nil] at h
          simp only [Option.some.injEq] at h
          subst h
          rw [stubRecs_nil]
          simp [_gather_functions, undocumented]
      | LTree.node l kids :: rest =>
          have hlen : (flattenForest kids).length + (flattenForest rest).length + 1
              ≤ n + 1 := by
            rw [flattenForest_cons] at hle
            simp at hle
            omega
          rw [toStmts_cons] at h
          cases hkind : l.kind with
          | blankLine => rw [hkind] at h; simp at h
          | strLine s =>
              rw [hkind] at h
              simp only [] at h
              cases he : kids.isEmpty with
              | false => rw [he] at h; simp at h
              | true =>
                  rw [he] at h
                  simp only [if_pos] at h
                  cases h2 : toStmts rest with
                  | none => rw [h2] at h; simp at h
                  | some tl =>
                      rw [h2] at h
                      simp only [Option.map_some', Option.some.injEq] at h
                      subst h
                      rw [stubRecs_cons_other fp l kids rest
                        (by simp [hkind]) (by simp [hkind])]
                      simp only [_gather_functions]
                      exact ih rest (by omega) tl h2
          | simpleLine =>
              rw [hkind] at h
              simp only [] at h
              cases he : kids.isEmpty with
              | false => rw [he] at h; simp at h
              | true =>
                  rw [he] at h
                  simp only [if_pos] at h
                  cases h2 : toStmts rest with
                  | none => rw [h2] at h; simp at h
                  | some tl =>
                      rw [h2] at h
                      simp only [Option.map_some', Option.some.injEq] at h
                      subst h
                      rw [stubRecs_cons_other fp l kids rest
                        (by simp [hkind]) (by simp [hkind])]
                      simp only [_gather_functions]
                      exact ih rest (by omega) tl h2
          | blockLine =>
              rw [hkind] at h
              simp only [] at h
              cases kids with
              | nil => simp at h
              | cons t tkr =>
                  cases t with
                  | node m mk =>
                      simp only [] at h
                      cases hs : siblingsAt m.indent (LTree.node m mk :: tkr) with
                      | false => rw [hs] at h; simp at h
                      | true =>
                          rw [hs] at h
                          simp only [if_pos] at h
                          cases h1 : toStmts (LTree.node m mk :: tkr) with
                          | none => rw [h1] at h; simp at h
                          | some b1 =>
                              cases h2 : toStmts rest with
                              | none => rw [h1, h2] at h; simp at h
                              | some tl =>
                                  rw [h1, h2] at h
                                  simp only [Option.some.injEq] at h
                                  subst h
                                  rw [stubRecs_cons_other fp l _ rest
                                    (by simp [hkind]) (by simp [hkind])]
                                  simp only [_gather_functions]
                                  exact ih rest (by omega) tl h2
          | classLine =>
              rw [hkind] at h
              simp only [] at h
              cases kids with
              | nil => simp at h
              | cons t tkr =>
                  cases t with
                  | node m mk =>
                      simp only [] at h
                      cases hs : siblingsAt m.indent (LTree.node m mk :: tkr) with
                      | false => rw [hs] at h; simp at h
                      | true =>
                          rw [hs] at h
                          simp only [if_pos] at h
                          cases h1 : toStmts (LTree.node m mk :: tkr) with
                          | none => rw [h1] at h; simp at h
                          | some b1 =>
                              cases h2 : toStmts rest with
                              | none => rw [h1, h2] at h; simp at h
                              | some tl =>
                                  rw [h1, h2] at h
                                  simp only [Option.some.injEq] at h
                                  subst h
                                  rw [stubRecs_cons_class fp l _ rest hkind]
                                  simp only [_gather_functions]
                                  rw [undocumented_append]
                                  have hk1 : (flattenForest (LTree.node m mk :: tkr)).length
                                      ≤ n := by
                                    rw [flattenForest_cons] at hlen ⊢
                                    simp at hlen ⊢
                                    omega
                                  rw [ih _ hk1 b1 h1, ih rest (by omega) tl h2]
          | defLine a nm args =>
              rw [hkind] at h
              simp only [] at h
              cases kids with
              | nil => simp at h
              | cons t tkr =>
                  cases t with
                  | node m mk =>
                      simp only [] at h
                      cases hs : siblingsAt m.indent (LTree.node m mk :: tkr) with
                      | false => rw [hs] at h; simp at h
                      | true =>
                          rw [hs] at h
                          simp only [if_pos] at h
                          cases h1 : toStmts (LTree.node m mk :: tkr) with
                          | none => rw [h1] at h; simp at h
                          | some b1 =>
                              cases h2 : toStmts rest with
                              | none => rw [h1, h2] at h; simp at h
                              | some tl =>
                                  rw [h1, h2] at h
                                  simp only [Option.some.injEq] at h
                                  subst h
                                  have hk1 : (flattenForest (LTree.node m mk :: tkr)).length
                                      ≤ n := by
                                    rw [flattenForest_cons] at hlen ⊢
                                    simp at hlen ⊢
                                    omega
                                  have hdoc := isNone_eq_needsStub m mk tkr b1 h1
                                  rw [stubRecs_cons_def fp l _ rest a nm args hkind]
                                  simp only [_gather_functions]
                                  rw [undocumented_cons, undocumented_append]
                                  rw [ih _ hk1 b1 h1, ih rest (by omega) tl h2]
                                  cases hns : needsStub (LTree.node m mk :: tkr) with
                                  | true =>
                                      rw [hns] at hdoc
                                      have hnone : get_docstring b1 = none :=
                                        Option.isNone_iff_eq_none.1 hdoc
                                      simp [hnone, hns]
                                  | false =>
                                      rw [hns] at hdoc
                                      simp [hns, hdoc]

theorem toStmts_erase (ts : List LTree) :
    toStmts (eraseForest ts) = (toStmts ts).map eraseStmts := by
  unfold toStmts
  rw [flattenForest_erase, List.length_map]
  exact treesToStmtsFuel_erase _ ts

/-- Per-file core of the idempotence claim: insert the stubs for a parsed
file's undocumented functions, then re-scan the rewritten text; every
record the re-scan produces (if the stubbed file still parses at all)
carries a docstring. -/
theorem stub_insertion_redocumented (fp : String) (L : List (List Char))
    (stmts : List Stmt) (hparse : parseText L = some stmts) :
    ∀ r ∈ scan_python_file fp
        (insertStubsIntoLines L (undocumented (_gather_functions fp stmts))),
      r.docstring.isSome = true := by
  rw [parseText_eq] at hparse
  cases hcls : classifyAll 1 L with
  | none => rw [hcls] at hparse; simp at hparse
  | some R =>
      rw [hcls] at hparse
      simp only [] at hparse
      cases hsib : siblingsAt 0 (buildForest R) with
      | false => rw [hsib] at hparse; simp at hparse
      | true =>
          rw [hsib, if_pos rfl] at hparse
          have hU : undocumented (_gather_functions fp stmts)
              = stubRecs fp (buildForest R) :=
            undoc_gather_eq_stubRecs fp (flattenForest (buildForest R)).length
              (buildForest R) (le_refl _) stmts hparse
          have hflatR : flattenForest (buildForest R) = R := flatten_buildForest R
          have hspec := classifyAll_spec L 1 R hcls
          have hRpw : List.Pairwise (fun a b => a.lineno < b.lineno) R := hspec.2
          have hsubU := stubRecs_lineno_sublist fp (buildForest R)
          rw [hflatR] at hsubU
          have hpwU : List.Pairwise (fun a b => a.lineno < b.lineno)
              (stubRecs fp (buildForest R)) := by
            have h1 : ((stubRecs fp (buildForest R)).map
                (fun u => u.lineno)).Pairwise (fun a b => a < b) :=
              List.Pairwise.sublist hsubU (List.pairwise_map.2 hRpw)
            exact List.pairwise_map.1 h1
          have hmatch : ∀ u ∈ stubRecs fp (buildForest R),
              ∃ r ∈ R, r.lineno = u.lineno ∧ r.indent = u.col_offset := by
            intro u hu
            rcases stubRecs_mem_spec fp (buildForest R) u hu
              with ⟨_, _, r, a, args, hr, _, h3, h4⟩
            rw [hflatR] at hr
            exact ⟨r, hr, h3, h4⟩
          have hstubcl : ∀ u ∈ stubRecs fp (buildForest R),
              classifyLine (stubLine u)
                = some (u.col_offset + 4, LineKind.strLine (stubText u.name)) := by
            intro u hu
            rcases stubRecs_mem_spec fp (buildForest R) u hu
              with ⟨_, _, r, a, args, hr, hkind, _, _⟩
            rw [hflatR] at hr
            rcases (hspec.1 r hr) with ⟨_, _, line, _, hcl⟩
            rw [hkind] at hcl
            exact classify_stubLine u (classifyLine_def_name line r.indent a
              u.name args hcl)
          have hbound : ∀ u ∈ stubRecs fp (buildForest R),
              1 ≤ u.lineno ∧ u.lineno - 1 < L.length := by
            intro u hu
            rcases hmatch u hu with ⟨r, hr, he, _⟩
            rcases (hspec.1 r hr) with ⟨h1, h2, _⟩
            omega
          rw [hU, insertStubs_eq_weave _ L hpwU hbound]
          have hweave := classify_weave L 1 R (stubRecs fp (buildForest R))
            hcls hstubcl hpwU hmatch
          have hWR : weaveRecs R (stubRecs fp (buildForest R))
              = flattenForest (stubForest (buildForest R)) := by
            have := flatten_stub_eq_weave fp (buildForest R)
              (by rw [hflatR]; exact hRpw)
            rw [hflatR] at this
            exact this.symm
          rw [hWR] at hweave
          obtain ⟨R2, hR2, hER2⟩ : ∃ R2,
              classifyAll 1 (weave 1 L (stubRecs fp (buildForest R))) = some R2 ∧
              List.map eraseL R2
                = List.map eraseL (flattenForest (stubForest (buildForest R))) := by
            cases hcw : classifyAll 1 (weave 1 L (stubRecs fp (buildForest R))) with
            | none => rw [hcw] at hweave; simp at hweave
            | some R2 =>
                rw [hcw] at hweave
                simp only [Option.map_some', Option.some.injEq] at hweave
                exact ⟨R2, rfl, hweave⟩
          have hEF : eraseForest (buildForest R2)
              = eraseForest (buildForest
                  (flattenForest (stubForest (buildForest R)))) := by
            rw [← buildForest_erase_bounded R2.length R2 (le_refl _),
              ← buildForest_erase_bounded _ _ (le_refl _), hER2]
          rcases stub_reparse_main R.length R (le_refl _) stmts hparse
            with ⟨mainA, mainB⟩
          cases hfit : stubsFit (buildForest R) with
          | true =>
              rcases mainA hfit with ⟨hreb, hroots, stmts2, hts2, hdoc⟩
              have hsib2 : siblingsAt 0 (buildForest R2) = true := by
                rw [← siblingsAt_erase 0 (buildForest R2), hEF,
                  siblingsAt_erase, hreb, siblingsAt_congr 0 hroots]
                exact hsib
              have hts2' : (toStmts (buildForest R2)).map eraseStmts
                  = some (eraseStmts stmts2) := by
                rw [← toStmts_erase, hEF, toStmts_erase, hreb, hts2]
                rfl
              cases hm2 : toStmts (buildForest R2) with
              | none => rw [hm2] at hts2'; simp at hts2'
              | some m2 =>
                  rw [hm2] at hts2'
                  simp only [Option.map_some', Option.some.injEq] at hts2'
                  have hpt : parseText (weave 1 L (stubRecs fp (buildForest R)))
                      = some m2 := by
                    rw [parseText_eq, hR2]
                    simp only []
                    rw [hsib2, if_pos rfl]
                    exact hm2
                  unfold scan_python_file
                  rw [hpt]
                  intro r hr
                  exact docOk_of_erase fp m2 stmts2 hts2' (hdoc fp) r hr
          | false =>
              have hnone := mainB hfit
              have hts2' : (toStmts (buildForest R2)).map eraseStmts = none := by
                rw [← toStmts_erase, hEF, toStmts_erase, hnone]
                rfl
              have hm2 : toStmts (buildForest R2) = none := by
                cases hm : toStmts (buildForest R2) with
                | none => rfl
                | some m2 => rw [hm] at hts2'; simp at hts2'
              have hpt : parseText (weave 1 L (stubRecs fp (buildForest R)))
                  = none := by
                rw [parseText_eq, hR2]
                simp only []
                cases hs2 : siblingsAt 0 (buildForest R2) with
                | false => simp
                | true => rw [if_pos rfl]; exact hm2
              unfold scan_python_file
              rw [hpt]
              intro r hr
              simp at hr

/-- The caller's scan loop over a file system (cli.py lines 51-54): scan
every discovered file and concatenate the records. -/
def scanFs (files : List String) (fs : FileSys) : List FunctionInfo :=
  files.flatMap (fun p => scan_python_file p (fs p))

theorem gather_file_path (fp : String) : ∀ stmts : List Stmt,
    ∀ r ∈ _gather_functions fp stmts, r.file_path = fp := by
  intro stmts
  induction stmts using _gather_functions.induct fp with
  | case1 => intro r hr; simp [_gather_functions] at hr
  | case2 a n args l c body rest ihb ihr =>
      intro r hr
      simp only [_gather_functions] at hr
      rcases List.mem_cons.1 hr with rfl | hr
      · rfl
      · rcases List.mem_append.1 hr with hr | hr
        · exact ihb r hr
        · exact ihr r hr
  | case3 n body rest ihb ihr =>
      intro r hr
      simp only [_gather_functions] at hr
      rcases List.mem_append.1 hr with hr | hr
      · exact ihb r hr
      · exact ihr r hr
  | case4 b o rest ihr =>
      intro r hr
      simp only [_gather_functions] at hr
      exact ihr r hr
  | case5 s rest ihr =>
      intro r hr
      simp only [_gather_functions] at hr
      exact ihr r hr
  | case6 rest ihr =>
      intro r hr
      simp only [_gather_functions] at hr
      exact ihr r hr

theorem scan_file_path (fp : String) (ls : List (List Char)) :
    ∀ r ∈ scan_python_file fp ls, r.file_path = fp := by
  unfold scan_python_file
  cases parseText ls with
  | none => intro r hr; simp at hr
  | some stmts => exact gather_file_path fp stmts

theorem eligible_filter (fs : FileSys) : ∀ files : List String, files.Nodup →
    ∀ p ∈ files,
    (undocumented (scanFs files fs)).filter (fun f => f.file_path = p)
      = undocumented (scan_python_file p (fs p)) := by
  intro files
  induction files with
  | nil => intro _ p hp; simp at hp
  | cons q rest ih =>
      intro hnd p hp
      rcases List.nodup_cons.1 hnd with ⟨hq, hnd2⟩
      have hsplit : scanFs (q :: rest) fs
          = scan_python_file q (fs q) ++ scanFs rest fs := by
        simp [scanFs]
      rw [hsplit, undocumented_append, List.filter_append]
      rcases List.mem_cons.1 hp with rfl | hp2
      · have h1 : (undocumented (scan_python_file p (fs p))).filter
            (fun f => f.file_path = p)
            = undocumented (scan_python_file p (fs p)) := by
          rw [List.filter_eq_self]
          intro f hf
          have := scan_file_path p (fs p) f (List.mem_of_mem_filter hf)
          simp [this]
        have h2 : (undocumented (scanFs rest fs)).filter
            (fun f => f.file_path = p) = [] := by
          rw [List.filter_eq_nil_iff]
          intro f hf
          have hmem := List.mem_of_mem_filter hf
          rcases List.mem_flatMap.1 hmem with ⟨q2, hq2, hf2⟩
          have := scan_file_path q2 (fs q2) f hf2
          simp [this]
          intro he
          rw [he] at hq2
          exact hq hq2
        rw [h1, h2, List.append_nil]
      · have hqp : q ≠ p := by
          intro he
          rw [he] at hq
          exact hq hp2
        have h1 : (undocumented (scan_python_file q (fs q))).filter
            (fun f => f.file_path = p) = [] := by
          rw [List.filter_eq_nil_iff]
          intro f hf
          have := scan_file_path q (fs q) f (List.mem_of_mem_filter hf)
          simp [this]
          exact hqp
        rw [h1, List.nil_append]
        exact ih hnd2 p hp2

theorem insert_foldl_at (eligible : List FunctionInfo) :
    ∀ keys : List String, keys.Nodup → ∀ p ∈ keys, ∀ acc : Nat × FileSys,
    ((keys.foldl (insertStep eligible) acc).2) p
      = insertStubsIntoLines (acc.2 p)
          (eligible.filter (fun f => f.file_path = p)) := by
  intro keys
  induction keys with
  | nil => intro _ p hp; simp at hp
  | cons k ks ih =>
      intro hnd p hp acc
      rcases List.nodup_cons.1 hnd with ⟨hk, hnd2⟩
      rw [List.foldl_cons]
      rcases List.mem_cons.1 hp with rfl | hp2
      · rw [insert_foldl_untouched eligible ks p hk]
        simp [insertStep, updateFs]
      · have hkp : ¬ p = k := by
          intro he
          rw [he] at hp2
          exact hk hp2
        rw [ih hnd2 p hp2]
        simp [insertStep, updateFs, hkp]

theorem insertStubs_nil (L : List (List Char)) :
    insertStubsIntoLines L [] = L := rfl

theorem second_scan_documented (files : List String) (fs : FileSys)
    (hnd : files.Nodup) :
    ∀ r ∈ scanFs files (insert_missing_docstrings fs (scanFs files fs)).2,
      r.docstring.isSome = true := by
  intro r hr
  rcases List.mem_flatMap.1 hr with ⟨p, hp, hrp⟩
  unfold insert_missing_docstrings at hrp
  by_cases hkey : p ∈ firstOccKeys
      ((undocumented (scanFs files fs)).map (fun f => f.file_path))
  · have hat := insert_foldl_at (undocumented (scanFs files fs)) _
      (firstOccKeys_nodup _) p hkey (0, fs)
    rw [hat] at hrp
    rw [eligible_filter fs files hnd p hp] at hrp
    cases hpt : parseText (fs p) with
    | none =>
        have hscan : scan_python_file p (fs p) = [] := by
          unfold scan_python_file
          rw [hpt]
        rw [hscan] at hrp
        rw [show undocumented [] = [] from rfl, insertStubs_nil] at hrp
        rw [hscan] at hrp
        simp at hrp
    | some stmts =>
        have hscan : scan_python_file p (fs p) = _gather_functions p stmts := by
          unfold scan_python_file
          rw [hpt]
        rw [hscan] at hrp
        exact stub_insertion_redocumented p (fs p) stmts hpt r hrp
  · have huntouched := insert_foldl_untouched (undocumented (scanFs files fs))
      _ p hkey (0, fs)
    rw [huntouched] at hrp
    have hempty : undocumented (scan_python_file p (fs p)) = [] := by
      cases hu : undocumented (scan_python_file p (fs p)) with
      | nil => rfl
      | cons f fsrest =>
          exfalso
          have hf : f ∈ undocumented (scan_python_file p (fs p)) := by
            rw [hu]
            simp
          have hfscan := List.mem_of_mem_filter hf
          have hfpath := scan_file_path p (fs p) f hfscan
          have hfrecs : f ∈ undocumented (scanFs files fs) := by
            unfold undocumented at hf ⊢
            rcases List.mem_filter.1 hf with ⟨hf1, hf2⟩
            exact List.mem_filter.2 ⟨List.mem_flatMap.2 ⟨p, hp, hf1⟩, hf2⟩
          have : p ∈ (undocumented (scanFs files fs)).map
              (fun f => f.file_path) := by
            rw [← hfpath]
            exact List.mem_map_of_mem _ hfrecs
          exact hkey (mem_firstOccKeys_iff.2 this)
    have hrundoc : r.docstring.isNone = false := by
      cases hn : r.docstring.isNone with
      | false => rfl
      | true =>
          exfalso
          have : r ∈ undocumented (scan_python_file p (fs p)) := by
            unfold undocumented
            exact List.mem_filter.2 ⟨hrp, hn⟩
          rw [hempty] at this
          simp at this
    cases hd : r.docstring with
    | none => rw [hd] at hrundoc; simp at hrundoc
    | some s => rfl

/-- C2.  Idempotence of stub insertion over a source tree with distinct
file paths: after one scan-and-insert pass, every record a re-scan
produces carries documentation (a file whose stubbed text no longer
parses contributes no records at all), so the second
`insert_missing_docstrings` call inserts zero stubs and returns the file
system unchanged. -/
theorem C2_insertion_idempotent (files : List String) (fs : FileSys)
    (hnd : files.Nodup) :
    (∀ r ∈ scanFs files (insert_missing_docstrings fs (scanFs files fs)).2,
      r.docstring.isSome = true) ∧
    insert_missing_docstrings
        (insert_missing_docstrings fs (scanFs files fs)).2
        (scanFs files (insert_missing_docstrings fs (scanFs files fs)).2)
      = (0, (insert_missing_docstrings fs (scanFs files fs)).2) := by
  have hdoc := second_scan_documented files fs hnd
  refine ⟨hdoc, ?_⟩
  have hempty : undocumented (scanFs files
      (insert_missing_docstrings fs (scanFs files fs)).2) = [] := by
    unfold undocumented
    rw [List.filter_eq_nil_iff]
    intro f hf
    have hs := hdoc f hf
    cases hd : f.docstring with
    | none => rw [hd] at hs; simp at hs
    | some s => simp [hd]
  exact insert_missing_docstrings_no_eligible _ _ hempty

/-- A one-file tree holding an undocumented `def f():` with a `pass` body. -/
def c2DemoFs : FileSys :=
  fun p => if p = "a.py" then ["def f():".data, "    pass".data] else []

theorem C2_insertion_idempotent_witness :
    List.Nodup ["a.py"] ∧
    ((∀ r ∈ scanFs ["a.py"]
        (insert_missing_docstrings c2DemoFs (scanFs ["a.py"] c2DemoFs)).2,
      r.docstring.isSome = true) ∧
    insert_missing_docstrings
        (insert_missing_docstrings c2DemoFs (scanFs ["a.py"] c2DemoFs)).2
        (scanFs ["a.py"]
          (insert_missing_docstrings c2DemoFs (scanFs ["a.py"] c2DemoFs)).2)
      = (0, (insert_missing_docstrings c2DemoFs (scanFs ["a.py"] c2DemoFs)).2)) :=
  ⟨by decide, C2_insertion_idempotent ["a.py"] c2DemoFs (by decide)⟩
